import Mathlib

/-!
Verification of the commit-graph core (`commit.c`) of an early git:
commit-list primitives, the graft file layer, the object table,
the commit parser, the topological sorter, the merge-base engine and
the one-line pretty printer, shallowly embedded in Lean.

Commits are identified by their 20-byte object name, modelled as
`List Nat` (`Sha1`); in the graph algorithms, where identity alone
matters, nodes are plain `Nat` handles.  C strings and buffers are
`List Char`.  Mutable state (the object table, the flag words used by
the merge-base engine) is passed explicitly.  Loops whose C termination
argument is extrinsic are given explicit fuel; all theorems either hold
for every fuel or come with a fuel-sufficiency proof.
-/

/-- 20-byte object name (the `unsigned char sha1[20]` of the source). -/
abbrev Sha1 := List Nat

/-- Object type codes of the source (`OBJ_NONE`, `OBJ_COMMIT`, ...). -/
def OBJ_NONE : Nat := 0

/-- `OBJ_COMMIT` type code. -/
def OBJ_COMMIT : Nat := 1

/-- `OBJ_TREE` type code. -/
def OBJ_TREE : Nat := 2

/-- `OBJ_BLOB` type code. -/
def OBJ_BLOB : Nat := 3

/-- `OBJ_TAG` type code. -/
def OBJ_TAG : Nat := 4

/-! ## Commit-list primitives (`commit_list_insert`, `pop_commit`, `insert_by_date`, `sort_by_date`)

A `struct commit_list` is a singly linked list of commit handles; we
model it as a Lean `List`.  `commit_list_insert(item, pp)` prepends at
the position `pp`; used at the head it is plain `cons`. -/

/-- `pop_commit(&stack)`: returns the head commit (or NULL on an empty
list) and removes the head cell; embeds the source's
`item = top ? top->item : NULL; if (top) { *stack = top->next; free(top); }`. -/
def pop_commit {α : Type} : List α → Option α × List α
  | [] => (none, [])
  | top :: rest => (some top, rest)

/-- `insert_by_date(item, &list)`: walks the list past every entry whose
date is `≥ item`'s date and inserts `item` there (the source breaks at
the first entry with `p->item->date < item->date`). -/
def insert_by_date (date : Nat → Nat) (item : Nat) : List Nat → List Nat
  | [] => [item]
  | p :: rest =>
    if date p < date item then item :: p :: rest
    else p :: insert_by_date date item rest

/-- `sort_by_date(&list)`: repeatedly `insert_by_date`s the items of the
list, in list order, into a fresh list. -/
def sort_by_date (date : Nat → Nat) (list : List Nat) : List Nat :=
  list.foldl (fun ret item => insert_by_date date item ret) []

/-- Membership is preserved by `insert_by_date`. -/
theorem mem_insert_by_date (date : Nat → Nat) (item : Nat) (l : List Nat) (x : Nat) :
    x ∈ insert_by_date date item l ↔ x = item ∨ x ∈ l := by
  induction l with
  | nil => simp [insert_by_date]
  | cons p rest ih =>
    by_cases h : date p < date item
    · simp [insert_by_date, h]
    · simp only [insert_by_date, if_neg h, List.mem_cons, ih]
      tauto

/-- `insert_by_date` permutes `cons`. -/
theorem insert_by_date_perm (date : Nat → Nat) (item : Nat) (l : List Nat) :
    (insert_by_date date item l).Perm (item :: l) := by
  induction l with
  | nil => simp [insert_by_date]
  | cons p rest ih =>
    by_cases h : date p < date item
    · simp [insert_by_date, h]
    · simp only [insert_by_date, if_neg h]
      exact (ih.cons p).trans (List.Perm.swap item p rest)

/-! ## Claim C10: `pop_commit` -/

/-- C10: `pop_commit` on an empty commit list returns the absent value
and leaves the list empty; on a non-empty list it returns the head
commit and removes exactly the head cell, leaving the tail unchanged. -/
theorem c10_pop_commit {α : Type} :
    (pop_commit ([] : List α) = (none, []) ∧
      ∀ (c : α) (rest : List α), pop_commit (c :: rest) = (some c, rest)) :=
  ⟨rfl, fun _ _ => rfl⟩

/-! ## Hex codec and graft records (`read_graft_line`, `register_commit_graft`,
`write_shallow_commits`) -/

/-- Modelled from the spec: hex digit value of one ASCII character
("Hex form is 40 ASCII lowercase characters", §3); the decoder
`get_sha1_hex` itself lives outside this file's source. -/
def hexval (c : Char) : Option Nat :=
  if '0' ≤ c ∧ c ≤ '9' then some (c.toNat - '0'.toNat)
  else if 'a' ≤ c ∧ c ≤ 'f' then some (c.toNat - 'a'.toNat + 10)
  else none

/-- Modelled from the spec: byte-wise hex decoder; reads `n` bytes
(`2 * n` hex characters) from the front of the input. -/
def get_sha1_hexN : Nat → List Char → Option Sha1
  | 0, _ => some []
  | n + 1, c1 :: c2 :: rest =>
    match hexval c1, hexval c2 with
    | some hi, some lo => (get_sha1_hexN n rest).map fun bs => (hi * 16 + lo) :: bs
    | _, _ => none
  | _ + 1, [] => none
  | _ + 1, [_] => none

/-- Modelled from the spec: `get_sha1_hex` reads exactly 40 hex
characters into a 20-byte object name, failing on a short or non-hex
input (the decoder lives outside this file's source). -/
def get_sha1_hex (buf : List Char) : Option Sha1 :=
  get_sha1_hexN 20 buf

/-- `sha1_to_hex`: lowercase 40-character rendering of a 20-byte name. -/
def hexDigitChar (n : Nat) : Char :=
  if n < 10 then Char.ofNat ('0'.toNat + n) else Char.ofNat ('a'.toNat + (n - 10))

/-- `sha1_to_hex(sha1)`: two lowercase hex characters per byte. -/
def sha1_to_hex (sha : Sha1) : List Char :=
  sha.flatMap fun b => [hexDigitChar (b / 16), hexDigitChar (b % 16)]

/-- `struct commit_graft`: an id, the parent count (`-1` encodes a
shallow marker) and the parent ids (`nr_parent` of them). -/
structure CommitGraft where
  sha1 : Sha1
  nrParent : Int
  parentIds : List Sha1
deriving DecidableEq, Repr

instance : Inhabited CommitGraft := ⟨⟨[], 0, []⟩⟩

/-- `hashcmp` = `memcmp` over the 20 bytes: sign of the first byte
difference, 0 on equality. -/
def hashcmp : Sha1 → Sha1 → Int
  | [], [] => 0
  | [], _ :: _ => -1
  | _ :: _, [] => 1
  | a :: as, b :: bs =>
    if a < b then -1 else if b < a then 1 else hashcmp as bs

/-- The `lo`/`hi` bisection loop of `commit_graft_pos`, with fuel (the
source loop halves `hi - lo`, so any fuel above the array length is
enough on real inputs). -/
def commit_graft_pos_loop (arr : List CommitGraft) (sha : Sha1) :
    Nat → Nat → Nat → Int
  | 0, lo, _ => -(lo : Int) - 1
  | fuel + 1, lo, hi =>
    if lo < hi then
      let mi := (lo + hi) / 2
      let graft := arr.getD mi default
      let cmp := hashcmp sha graft.sha1
      if cmp = 0 then (mi : Int)
      else if cmp < 0 then commit_graft_pos_loop arr sha fuel lo mi
      else commit_graft_pos_loop arr sha fuel (mi + 1) hi
    else -(lo : Int) - 1

/-- `commit_graft_pos(sha1)`: binary search in the sorted graft array;
returns the index on a hit, `-insertion_point - 1` on a miss. -/
def commit_graft_pos (arr : List CommitGraft) (sha : Sha1) : Int :=
  commit_graft_pos_loop arr sha (arr.length + 2) 0 arr.length

/-- `register_commit_graft(graft, ignore_dups)`: keeps the array sorted;
on a duplicate either drops the new record or replaces the old one, and
returns 1 (`true`); on a fresh id inserts at the search position and
returns 0 (`false`). -/
def register_commit_graft (graft : CommitGraft) (ignore_dups : Bool)
    (arr : List CommitGraft) : Bool × List CommitGraft :=
  let pos := commit_graft_pos arr graft.sha1
  if 0 ≤ pos then
    if ignore_dups then (true, arr)
    else (true, arr.set pos.toNat graft)
  else
    let ins := (-pos - 1).toNat
    (false, arr.take ins ++ graft :: arr.drop ins)

/-- The `for (i = 40; i < len; i += 41)` parent loop of
`read_graft_line`: each 41-byte block must be one space followed by 40
hex characters. -/
def read_graft_parents : Nat → List Char → Option (List Sha1)
  | _, [] => some []
  | 0, _ :: _ => none
  | fuel + 1, c :: rest =>
    if c = ' ' then
      match get_sha1_hex rest with
      | none => none
      | some p =>
        match read_graft_parents fuel (rest.drop 40) with
        | none => none
        | some ps => some (p :: ps)
    else none

/-- `read_graft_line(buf, len)`: strips one trailing newline, skips
comments (`#`) and empty lines, enforces `(len + 1) % 41 == 0`, then
decodes the commit id and `(len + 1) / 41 - 1` parent ids.  `none`
covers both the comment/empty return and the `bad_graft_data` error
return of the source. -/
def read_graft_line (buf : List Char) : Option CommitGraft :=
  let buf := if buf.getLast? = some '\n' then buf.dropLast else buf
  match buf with
  | [] => none
  | c0 :: _ =>
    if c0 = '#' then none
    else
      let len := buf.length
      if (len + 1) % 41 ≠ 0 then none
      else
        let i := (len + 1) / 41 - 1
        match get_sha1_hex buf with
        | none => none
        | some sha =>
          match read_graft_parents (i + 1) (buf.drop 40) with
          | none => none
          | some ps => some ⟨sha, (i : Int), ps⟩

/-- `write_shallow_commits(fd, ...)`: walks the graft array and emits
the hex name of every record with `nr_parent < 0`; returns the count
and, in place of the file-descriptor writes, the list of emitted ids. -/
def write_shallow_commits (arr : List CommitGraft) : Nat × List Sha1 :=
  let shallows := arr.filter fun g => g.nrParent < 0
  (shallows.length, shallows.map fun g => g.sha1)

/-- Every character consumed by a successful `get_sha1_hexN` is a hex
digit. -/
theorem hexval_isSome_of_get_sha1_hexN :
    ∀ (n : Nat) (l : List Char) (sha : Sha1), get_sha1_hexN n l = some sha →
      ∀ c ∈ l.take (2 * n), (hexval c).isSome := by
  intro n
  induction n with
  | zero => intro l sha _ c hc; simp at hc
  | succ m ih =>
    intro l sha h c hc
    match l with
    | [] => simp [get_sha1_hexN] at h
    | [c1] => simp [get_sha1_hexN] at h
    | c1 :: c2 :: rest =>
      rcases h1 : hexval c1 with _ | v1 <;> rcases h2 : hexval c2 with _ | v2 <;>
        simp [get_sha1_hexN, h1, h2] at h
      obtain ⟨bs, hbs, _⟩ := h
      have htake : (c1 :: c2 :: rest).take (2 * (m + 1)) =
          c1 :: c2 :: rest.take (2 * m) := by
        have : 2 * (m + 1) = 2 * m + 1 + 1 := by ring
        simp [this]
      rw [htake] at hc
      simp only [List.mem_cons] at hc
      rcases hc with hc | hc | hc
      · subst hc; simp [h1]
      · subst hc; simp [h2]
      · exact ih rest bs hbs c hc

/-! ## Claim C7: zero-parent graft records and `write_shallow_commits` -/

/-- C7 counterexample: the well-formed 40-character graft record of 40
`'a'`s decodes to a graft with `nr_parent = 0` — not the `-1` shallow
marker the claim states — and after registering it
`write_shallow_commits` emits nothing. -/
theorem c7_counterexample :
    read_graft_line (List.replicate 40 'a') =
      some ⟨List.replicate 20 170, 0, []⟩ ∧
    ¬ ((0 : Int) = -1) ∧
    (write_shallow_commits
        (register_commit_graft ⟨List.replicate 20 170, 0, []⟩ true []).2).2 = [] := by
  refine ⟨by decide, by decide, by decide⟩

/-- C7 as amended: a well-formed record of one commit hex and zero
parent hexes produces an in-memory graft with `nr_parent = 0` and an
empty parent list (not a shallow marker), and after registering it
`write_shallow_commits` — which emits exactly the records with
`nr_parent < 0` — does not emit that commit's hex (assuming no other
record already carries the same id). -/
theorem c7_zero_parent_graft (buf : List Char) (sha : Sha1)
    (h40 : buf.length = 40) (hhex : get_sha1_hex buf = some sha)
    (dup : Bool) (arr : List CommitGraft)
    (hfresh : ∀ g ∈ arr, g.sha1 ≠ sha) :
    read_graft_line buf = some ⟨sha, 0, []⟩ ∧
    sha ∉ (write_shallow_commits
        (register_commit_graft ⟨sha, 0, []⟩ dup arr).2).2 := by
  have hall : ∀ c ∈ buf, (hexval c).isSome := by
    intro c hc
    have := hexval_isSome_of_get_sha1_hexN 20 buf sha hhex c
    apply this
    have : buf.take (2 * 20) = buf := List.take_of_length_le (by omega)
    rw [this]; exact hc
  obtain ⟨c0, rest0, hbuf⟩ : ∃ c0 rest0, buf = c0 :: rest0 := by
    cases buf with
    | nil => simp at h40
    | cons a l => exact ⟨a, l, rfl⟩
  subst hbuf
  have hread : read_graft_line (c0 :: rest0) = some ⟨sha, 0, []⟩ := by
    have hlast : ¬ ((c0 :: rest0).getLast? = some '\n') := by
      intro h
      have hmem : '\n' ∈ c0 :: rest0 := by
        obtain ⟨l', hl'⟩ := List.getLast?_eq_some_iff.mp h
        rw [hl']; exact List.mem_concat_self l' '\n'
      have := hall '\n' hmem
      simp [hexval] at this
    have hc0 : ¬ (c0 = '#') := by
      intro h
      have := hall c0 (List.mem_cons_self c0 rest0)
      rw [h] at this; simp [hexval] at this
    have hdrop : rest0.drop 39 = [] := by
      apply List.drop_eq_nil_of_le
      have := h40; simp at this; omega
    simp only [read_graft_line, if_neg hlast, if_neg hc0, h40]
    norm_num
    rw [hhex, hdrop]
    rfl
  refine ⟨hread, ?_⟩
  intro hmem
  simp only [write_shallow_commits, List.mem_map] at hmem
  obtain ⟨g, hg, hgsha⟩ := hmem
  rw [List.mem_filter] at hg
  obtain ⟨hgmem, hgneg⟩ := hg
  have hgsrc : g = ⟨sha, 0, []⟩ ∨ g ∈ arr := by
    unfold register_commit_graft at hgmem
    by_cases hpos : 0 ≤ commit_graft_pos arr sha
    · simp only [hpos, if_pos] at hgmem
      cases dup with
      | true => simp at hgmem; right; exact hgmem
      | false =>
        simp at hgmem
        rcases List.mem_or_eq_of_mem_set hgmem with h | h
        · right; exact h
        · left; exact h
    · simp only [hpos, if_neg, not_false_iff] at hgmem
      simp at hgmem
      rcases hgmem with h | h | h
      · right; exact List.mem_of_mem_take h
      · left; exact h
      · right; exact List.mem_of_mem_drop h
  rcases hgsrc with h | h
  · rw [h] at hgneg; simp at hgneg
  · exact hfresh g h hgsha

/-- Witness for `c7_zero_parent_graft` at the concrete 40-`'a'` record
and an empty graft array. -/
theorem c7_zero_parent_graft_witness :
    read_graft_line (List.replicate 40 'a') =
      some ⟨List.replicate 20 170, 0, []⟩ ∧
    (List.replicate 20 170 : Sha1) ∉ (write_shallow_commits
        (register_commit_graft ⟨List.replicate 20 170, 0, []⟩ true []).2).2 :=
  c7_zero_parent_graft (List.replicate 40 'a') (List.replicate 20 170)
    (by decide) (by decide) true [] (by decide)

/-! ## The object table (`lookup_object`, `create_object`, `lookup_commit`,
`check_commit`)

An object handle carries the kind (`obj->type`), the `parsed` flag and
the commit payload (`tree`, `parents`, `date`, `buffer`).  Handles are
canonical per id, so the table is a map from id to record and a handle
is just the id. -/

/-- One table entry: `struct object` plus the `struct commit` payload. -/
structure ObjRec where
  otype : Nat
  parsed : Bool
  tree : Option Sha1
  parentList : List Sha1
  cdate : Nat
  buffer : Option (List Char)
deriving DecidableEq, Repr

/-- The process-wide object table. -/
structure OState where
  objs : Sha1 → Option ObjRec

/-- Store (or overwrite) one table entry. -/
def setObj (st : OState) (sha : Sha1) (o : ObjRec) : OState :=
  ⟨fun i => if i = sha then some o else st.objs i⟩

/-- `create_object(sha1, type, node)` with a zeroed `alloc_commit_node`. -/
def create_object (st : OState) (sha : Sha1) (otype : Nat) : OState :=
  setObj st sha ⟨otype, false, none, [], 0, none⟩

/-- `check_commit(obj, sha1, quiet)`: the handle if the object's kind is
commit, NULL (after an error report) otherwise. -/
def check_commit (o : ObjRec) (sha : Sha1) : Option Sha1 :=
  if o.otype = OBJ_COMMIT then some sha else none

/-- `lookup_commit(sha1)`: returns the canonical handle, allocating an
unparsed commit node if the id is absent; on a present id whose kind is
unset the kind becomes commit; then `check_commit` accepts only the
commit kind. -/
def lookup_commit (st : OState) (sha : Sha1) : OState × Option Sha1 :=
  match st.objs sha with
  | none => (create_object st sha OBJ_COMMIT, some sha)
  | some o =>
    if o.otype = OBJ_NONE then
      (setObj st sha { o with otype := OBJ_COMMIT },
        check_commit { o with otype := OBJ_COMMIT } sha)
    else (st, check_commit o sha)

/-- Modelled from the spec: `lookup(id)` of §4.B for tree handles
(`lookup_tree` lives in the tree code, outside this file's source):
"returns the canonical handle, allocating an unparsed node if absent.
If a prior lookup registered the id with a different kind, the kind is
kept and returned (the caller checks)." -/
def lookup_tree (st : OState) (sha : Sha1) : OState × Sha1 :=
  match st.objs sha with
  | none => (create_object st sha OBJ_TREE, sha)
  | some _ => (st, sha)

/-! ## Claim C8: `lookup_commit` on an id of another kind -/

/-- A table holding one id registered as a tree. -/
def c8_state : OState :=
  ⟨fun i => if i = List.replicate 20 7 then
      some ⟨OBJ_TREE, false, none, [], 0, none⟩ else none⟩

/-- C8 counterexample: on an id previously registered with kind tree,
`lookup_commit` does not return the canonical handle — `check_commit`
reports an error and the lookup returns NULL. -/
theorem c8_counterexample :
    c8_state.objs (List.replicate 20 7) =
      some ⟨OBJ_TREE, false, none, [], 0, none⟩ ∧
    (lookup_commit c8_state (List.replicate 20 7)).2 = none := by
  constructor
  · decide
  · decide

/-- C8 as amended: on an id registered with a concrete non-commit kind,
`lookup_commit` keeps the table unchanged (the kind is kept) but fails,
returning NULL after an error report; only an id registered with the
unset kind (0) is claimed as a commit and its canonical handle
returned. -/
theorem c8_lookup_commit_kind (st : OState) (sha : Sha1) (o : ObjRec)
    (hreg : st.objs sha = some o) :
    (o.otype ≠ OBJ_NONE → o.otype ≠ OBJ_COMMIT →
      (lookup_commit st sha).2 = none ∧ (lookup_commit st sha).1 = st) ∧
    (o.otype = OBJ_NONE →
      (lookup_commit st sha).2 = some sha ∧
      (lookup_commit st sha).1.objs sha = some { o with otype := OBJ_COMMIT }) := by
  constructor
  · intro hne hnc
    simp only [lookup_commit, hreg, if_neg hne, check_commit, if_neg hnc]
    exact ⟨trivial, trivial⟩
  · intro h0
    simp only [lookup_commit, hreg, if_pos h0, check_commit]
    constructor
    · simp
    · simp [setObj]

/-- Witness for `c8_lookup_commit_kind` at the concrete tree-registered
table. -/
theorem c8_lookup_commit_kind_witness :
    ((⟨OBJ_TREE, false, none, [], 0, none⟩ : ObjRec).otype ≠ OBJ_NONE →
      (⟨OBJ_TREE, false, none, [], 0, none⟩ : ObjRec).otype ≠ OBJ_COMMIT →
      (lookup_commit c8_state (List.replicate 20 7)).2 = none ∧
      (lookup_commit c8_state (List.replicate 20 7)).1 = c8_state) ∧
    ((⟨OBJ_TREE, false, none, [], 0, none⟩ : ObjRec).otype = OBJ_NONE →
      (lookup_commit c8_state (List.replicate 20 7)).2 = some (List.replicate 20 7) ∧
      (lookup_commit c8_state (List.replicate 20 7)).1.objs (List.replicate 20 7) =
        some ⟨OBJ_COMMIT, false, none, [], 0, none⟩) :=
  c8_lookup_commit_kind c8_state (List.replicate 20 7)
    ⟨OBJ_TREE, false, none, [], 0, none⟩ (by decide)

/-! ## The commit parser (`parse_commit_date`, `parse_commit_buffer`,
`parse_commit`) -/

/-- Entry accessor: a missing entry reads as a zeroed node (the C caller
always passes an allocated node, which `alloc_commit_node` zeroes). -/
def getObj (st : OState) (sha : Sha1) : ObjRec :=
  (st.objs sha).getD ⟨OBJ_NONE, false, none, [], 0, none⟩

/-- The parent list of a commit node. -/
def parentsOf (st : OState) (sha : Sha1) : List Sha1 :=
  (getObj st sha).parentList

/-- `isspace` of the C library, for the byte values `strtoul` skips. -/
def isCSpace (c : Char) : Bool :=
  c = ' ' ∨ c = '\t' ∨ c = '\n' ∨ c = Char.ofNat 11 ∨ c = Char.ofNat 12 ∨ c = '\r'

/-- `while (*buf++ != c)`: drop through the first occurrence of `c`;
`none` when `c` never occurs before the end of the buffer. -/
def skipPast (c : Char) : List Char → Option (List Char)
  | [] => none
  | x :: rest => if x = c then some rest else skipPast c rest

/-- `strtoul(buf, NULL, 10)` as used on committer dates: skip spaces,
then read a run of decimal digits (0 when there is none). -/
def strtoul10 (l : List Char) : Nat :=
  ((l.dropWhile isCSpace).takeWhile (·.isDigit)).foldl
    (fun acc c => 10 * acc + (c.toNat - '0'.toNat)) 0

/-- `parse_commit_date(buf)`: requires an `author` line followed by a
`committer` line, and reads the decimal integer after the committer's
`>`; anything else yields 0.  (The `ULONG_MAX` overflow clamp of the
source has no analogue over `Nat`.) -/
def parse_commit_date (buf : List Char) : Nat :=
  if buf.take 6 = "author".toList then
    match skipPast '\n' buf with
    | none => 0
    | some rest =>
      if rest.take 9 = "committer".toList then
        match skipPast '>' rest with
        | none => 0
        | some rest2 => strtoul10 rest2
      else 0
  else 0

/-- `lookup_commit_graft(sha1)` over an explicit graft array (the
`prepare_commit_graft` lazy initialisation is the caller's state). -/
def lookup_commit_graft (grafts : List CommitGraft) (sha : Sha1) :
    Option CommitGraft :=
  let pos := commit_graft_pos grafts sha
  if pos < 0 then none else some (grafts.getD pos.toNat default)

/-- The `while (bufptr + 48 < tail && !memcmp(bufptr, "parent ", 7))`
loop of `parse_commit_buffer`.  Returns `none` on the `bad parents`
error; otherwise the table after the parent lookups, the remaining
buffer, and the accumulated parent handles (left empty when a graft is
present: the source `continue`s before the lookup).  Each iteration
consumes 48 bytes, so any fuel above the buffer length is enough. -/
def parse_parent_loop (grafted : Bool) :
    Nat → OState → List Char → List Sha1 → Option (OState × List Char × List Sha1)
  | 0, _, _, _ => none
  | fuel + 1, st, bufptr, acc =>
    if bufptr.length > 48 ∧ bufptr.take 7 = "parent ".toList then
      match get_sha1_hex (bufptr.drop 7) with
      | none => none
      | some parent =>
        if bufptr.get? 47 ≠ some '\n' then none
        else
          let bufptr' := bufptr.drop 48
          if grafted then parse_parent_loop grafted fuel st bufptr' acc
          else
            match lookup_commit st parent with
            | (st', some p) =>
              parse_parent_loop grafted fuel st' bufptr' (acc ++ [p])
            | (st', none) => parse_parent_loop grafted fuel st' bufptr' acc
    else some (st, bufptr, acc)

/-- The `for (i = 0; i < graft->nr_parent; i++)` loop: look up each
graft parent, skipping the ones `lookup_commit` rejects. -/
def graft_parents_loop : OState → List Sha1 → OState × List Sha1
  | st, [] => (st, [])
  | st, p :: ps =>
    match lookup_commit st p with
    | (st', some hp) =>
      let (st'', rest) := graft_parents_loop st' ps
      (st'', hp :: rest)
    | (st', none) => graft_parents_loop st' ps

/-- The part of `parse_commit_buffer` from `item->tree =
lookup_tree(parent)` onward: stores the tree handle, collects the
parent headers (or, when a graft matches the commit's id, the graft's
parents instead — the raw loop only consumes text then), and reads the
committer date.  The `track_object_refs` accounting drives the external
object-reference collaborator and is not part of the node state. -/
def parse_commit_tail (grafts : List CommitGraft) (st : OState)
    (sha : Sha1) (buffer : List Char) (treeSha : Sha1) : Int × OState :=
  match lookup_tree st treeSha with
  | (st, treeH) =>
    let st := setObj st sha { getObj st sha with tree := some treeH }
    let bufptr := buffer.drop 46
    let graft := lookup_commit_graft grafts sha
    match parse_parent_loop graft.isSome (bufptr.length + 1) st bufptr [] with
    | none => (-1, st)
    | some (st, bufrest, rawParents) =>
      match
        (match graft with
          | some g => graft_parents_loop st (g.parentIds.take g.nrParent.toNat)
          | none => (st, rawParents)) with
      | (st, parents) =>
        let st := setObj st sha
          { getObj st sha with parentList := parents,
                               cdate := parse_commit_date bufrest }
        (0, st)

/-- `parse_commit_buffer(item, buffer, size)`: no work when already
parsed; sets `parsed`, validates the `tree ` header byte-for-byte
(`"bogus commit object"` / `"bad tree pointer"` are the `-1` error
returns), then continues as `parse_commit_tail`. -/
def parse_commit_buffer (grafts : List CommitGraft) (st : OState)
    (sha : Sha1) (buffer : List Char) : Int × OState :=
  if (getObj st sha).parsed then (0, st)
  else
    let st := setObj st sha { getObj st sha with parsed := true }
    if buffer.length ≤ 5 ∨ ¬ buffer.take 5 = "tree ".toList then (-1, st)
    else
      match get_sha1_hex (buffer.drop 5) with
      | none => (-1, st)
      | some treeSha =>
        if buffer.length ≤ 45 then (-1, st)
        else parse_commit_tail grafts st sha buffer treeSha

/-- The collaborators `parse_commit` consumes: the object database read
and the process-wide graft array and `save_commit_buffer` switch. -/
structure ParseEnv where
  read_sha1_file : Sha1 → Option (Nat × List Char)
  grafts : List CommitGraft
  save_commit_buffer : Bool

/-- `parse_commit(item)`: no work when already parsed; otherwise read
the object (failing on a missing object or a non-commit kind), run
`parse_commit_buffer`, and retain the raw buffer on success when
`save_commit_buffer` is set. -/
def parse_commit (env : ParseEnv) (st : OState) (sha : Sha1) : Int × OState :=
  if (getObj st sha).parsed then (0, st)
  else
    match env.read_sha1_file sha with
    | none => (-1, st)
    | some (otype, buffer) =>
      if ¬ otype = OBJ_COMMIT then (-1, st)
      else
        match parse_commit_buffer env.grafts st sha buffer with
        | (ret, st) =>
          if env.save_commit_buffer ∧ ret = 0 then
            (0, setObj st sha { getObj st sha with buffer := some buffer })
          else (ret, st)

/-- `lookup_commit` never changes the `parsed` flag or the `tree`
pointer of any node (it only creates zeroed nodes or fills in a kind). -/
theorem lookup_commit_preserves (st : OState) (p sha : Sha1) :
    (getObj (lookup_commit st p).1 sha).parsed = (getObj st sha).parsed ∧
    (getObj (lookup_commit st p).1 sha).tree = (getObj st sha).tree := by
  unfold lookup_commit
  cases h : st.objs p with
  | none =>
    by_cases hps : sha = p
    · subst hps; simp [create_object, setObj, getObj, h]
    · simp [create_object, setObj, getObj, hps]
  | some o =>
    by_cases h0 : o.otype = OBJ_NONE
    · simp only [if_pos h0]
      by_cases hps : sha = p
      · subst hps; simp [setObj, getObj, h]
      · simp [setObj, getObj, hps]
    · simp [if_neg h0]

/-- `lookup_tree` never changes the `parsed` flag or the `tree` pointer
of any node. -/
theorem lookup_tree_preserves (st : OState) (p sha : Sha1) :
    (getObj (lookup_tree st p).1 sha).parsed = (getObj st sha).parsed ∧
    (getObj (lookup_tree st p).1 sha).tree = (getObj st sha).tree := by
  unfold lookup_tree
  cases h : st.objs p with
  | none =>
    by_cases hps : sha = p
    · subst hps; simp [create_object, setObj, getObj, h]
    · simp [create_object, setObj, getObj, hps]
  | some o => simp

/-- The raw-parent loop never changes the `parsed` flag or the `tree`
pointer of any node. -/
theorem parse_parent_loop_preserves (g : Bool) (sha : Sha1) :
    ∀ (fuel : Nat) (st : OState) (bufptr : List Char) (acc : List Sha1)
      (st' : OState) (rest : List Char) (acc' : List Sha1),
      parse_parent_loop g fuel st bufptr acc = some (st', rest, acc') →
      (getObj st' sha).parsed = (getObj st sha).parsed ∧
      (getObj st' sha).tree = (getObj st sha).tree := by
  intro fuel
  induction fuel with
  | zero => intro st b acc st' r acc' h; simp [parse_parent_loop] at h
  | succ n ih =>
    intro st b acc st' r acc' h
    rw [parse_parent_loop] at h
    by_cases hc : b.length > 48 ∧ b.take 7 = "parent ".toList
    · rw [if_pos hc] at h
      cases hhex : get_sha1_hex (b.drop 7) with
      | none => rw [hhex] at h; simp at h
      | some parent =>
        simp only [hhex] at h
        by_cases hnl : b.get? 47 ≠ some '\n'
        · rw [if_pos hnl] at h; simp at h
        · rw [if_neg hnl] at h
          cases g with
          | true =>
            simp only [if_pos] at h
            exact ih st (b.drop 48) acc st' r acc' h
          | false =>
            simp only [Bool.false_eq_true, if_neg, not_false_iff] at h
            rcases hlc : lookup_commit st parent with ⟨st2, h2⟩
            rw [hlc] at h
            have hpres := lookup_commit_preserves st parent sha
            rw [hlc] at hpres
            cases h2 with
            | some p =>
              have := ih st2 (b.drop 48) (acc ++ [p]) st' r acc' h
              exact ⟨this.1.trans hpres.1, this.2.trans hpres.2⟩
            | none =>
              have := ih st2 (b.drop 48) acc st' r acc' h
              exact ⟨this.1.trans hpres.1, this.2.trans hpres.2⟩
    · rw [if_neg hc] at h
      injection h with h
      injection h with h1 h2
      subst h1
      exact ⟨rfl, rfl⟩

/-- The graft-parent loop never changes the `parsed` flag or the `tree`
pointer of any node. -/
theorem graft_parents_loop_preserves (sha : Sha1) :
    ∀ (ps : List Sha1) (st : OState),
      (getObj (graft_parents_loop st ps).1 sha).parsed = (getObj st sha).parsed ∧
      (getObj (graft_parents_loop st ps).1 sha).tree = (getObj st sha).tree := by
  intro ps
  induction ps with
  | nil => intro st; exact ⟨rfl, rfl⟩
  | cons p rest ih =>
    intro st
    rw [graft_parents_loop]
    rcases hlc : lookup_commit st p with ⟨st2, h2⟩
    have hpres := lookup_commit_preserves st p sha
    rw [hlc] at hpres
    cases h2 with
    | some hp =>
      simp only
      rcases hgl : graft_parents_loop st2 rest with ⟨st3, ps3⟩
      have := ih st2
      rw [hgl] at this
      exact ⟨this.1.trans hpres.1, this.2.trans hpres.2⟩
    | none =>
      simp only
      have := ih st2
      exact ⟨this.1.trans hpres.1, this.2.trans hpres.2⟩


/-- Reading back the entry just stored. -/
theorem getObj_setObj_same (st : OState) (sha : Sha1) (o : ObjRec) :
    getObj (setObj st sha o) sha = o := by
  simp [getObj, setObj]

/-- `parse_commit_tail` keeps the node's `parsed` flag and always
leaves its `tree` pointer set (the tree handle is stored before any of
its return points). -/
theorem parse_commit_tail_spec1 (grafts : List CommitGraft) (st : OState)
    (sha : Sha1) (buffer : List Char) (treeSha : Sha1) :
    (getObj (parse_commit_tail grafts st sha buffer treeSha).2 sha).parsed
        = (getObj st sha).parsed ∧
    (getObj (parse_commit_tail grafts st sha buffer treeSha).2 sha).tree ≠ none := by
  rcases hlt : lookup_tree st treeSha with ⟨st2, treeH⟩
  have hpres2 := lookup_tree_preserves st treeSha sha
  rw [hlt] at hpres2
  simp only [parse_commit_tail, hlt]
  have hp3 : (getObj (setObj st2 sha { getObj st2 sha with tree := some treeH })
      sha).parsed = (getObj st sha).parsed := by
    rw [getObj_setObj_same]; exact hpres2.1
  have ht3 : (getObj (setObj st2 sha { getObj st2 sha with tree := some treeH })
      sha).tree = some treeH := by
    rw [getObj_setObj_same]
  cases hloop : parse_parent_loop (lookup_commit_graft grafts sha).isSome
      ((buffer.drop 46).length + 1)
      (setObj st2 sha { getObj st2 sha with tree := some treeH })
      (buffer.drop 46) [] with
  | none =>
    simp only [hloop]
    exact ⟨hp3, by rw [ht3]; simp⟩
  | some triple =>
    rcases triple with ⟨st4, bufrest, raw⟩
    simp only [hloop]
    have hpres4 := parse_parent_loop_preserves
      (lookup_commit_graft grafts sha).isSome sha
      ((buffer.drop 46).length + 1)
      (setObj st2 sha { getObj st2 sha with tree := some treeH })
      (buffer.drop 46) [] st4 bufrest raw hloop
    have hp4 : (getObj st4 sha).parsed = (getObj st sha).parsed := by
      rw [hpres4.1]; exact hp3
    have ht4 : (getObj st4 sha).tree = some treeH := by rw [hpres4.2]; exact ht3
    cases hg : lookup_commit_graft grafts sha with
    | none =>
      simp only [hg]
      have hfin := getObj_setObj_same st4 sha
        { getObj st4 sha with parentList := raw, cdate := parse_commit_date bufrest }
      exact ⟨by rw [hfin]; exact hp4, by rw [hfin]; simp [← ht4]; rw [ht4]; simp⟩
    | some g =>
      simp only [hg]
      rcases hgl : graft_parents_loop st4 (g.parentIds.take g.nrParent.toNat)
        with ⟨st5, ps5⟩
      simp only [hgl]
      have hpres5 := graft_parents_loop_preserves sha
        (g.parentIds.take g.nrParent.toNat) st4
      rw [hgl] at hpres5
      have hp5 : (getObj st5 sha).parsed = (getObj st sha).parsed := by
        rw [hpres5.1]; exact hp4
      have ht5 : (getObj st5 sha).tree = some treeH := by rw [hpres5.2]; exact ht4
      have hfin := getObj_setObj_same st5 sha
        { getObj st5 sha with parentList := ps5, cdate := parse_commit_date bufrest }
      refine ⟨by rw [hfin]; exact hp5, ?_⟩
      rw [hfin]
      show (getObj st5 sha).tree ≠ none
      rw [ht5]
      simp

/-- After a run of `parse_commit_buffer` on an unparsed node, the node's
`parsed` flag is set (even on the error returns), and on the success
return its `tree` pointer is set. -/
theorem parse_commit_buffer_spec1 (grafts : List CommitGraft) (st : OState)
    (sha : Sha1) (buffer : List Char) (h : (getObj st sha).parsed = false) :
    (getObj (parse_commit_buffer grafts st sha buffer).2 sha).parsed = true ∧
    ((parse_commit_buffer grafts st sha buffer).1 = 0 →
      (getObj (parse_commit_buffer grafts st sha buffer).2 sha).tree ≠ none) := by
  have hb : ¬ ((getObj st sha).parsed = true) := by simp [h]
  have hp1 : (getObj (setObj st sha { getObj st sha with parsed := true }) sha).parsed
      = true := by rw [getObj_setObj_same]
  rw [parse_commit_buffer, if_neg hb]
  by_cases hc1 : buffer.length ≤ 5 ∨ ¬ buffer.take 5 = "tree ".toList
  · rw [if_pos hc1]
    exact ⟨hp1, by intro h0; exact absurd h0 (by norm_num)⟩
  · rw [if_neg hc1]
    cases hhex : get_sha1_hex (buffer.drop 5) with
    | none =>
      simp only [hhex]
      exact ⟨hp1, by intro h0; exact absurd h0 (by norm_num)⟩
    | some treeSha =>
      simp only [hhex]
      by_cases hc2 : buffer.length ≤ 45
      · rw [if_pos hc2]
        exact ⟨hp1, by intro h0; exact absurd h0 (by norm_num)⟩
      · rw [if_neg hc2]
        have := parse_commit_tail_spec1 grafts
          (setObj st sha { getObj st sha with parsed := true }) sha buffer treeSha
        exact ⟨this.1.trans hp1, fun _ => this.2⟩

/-- Either `parse_commit` leaves the node parsed, or it left the table
untouched (the read/kind failures happen before anything is written). -/
theorem parse_commit_cases (env : ParseEnv) (st : OState) (sha : Sha1) :
    (getObj (parse_commit env st sha).2 sha).parsed = true ∨
    (parse_commit env st sha).2 = st := by
  by_cases hp : (getObj st sha).parsed = true
  · right; rw [parse_commit, if_pos hp]
  · have hpf : (getObj st sha).parsed = false := by
      cases h : (getObj st sha).parsed
      · rfl
      · exact absurd h hp
    rw [parse_commit, if_neg hp]
    cases hr : env.read_sha1_file sha with
    | none => right; rfl
    | some pair =>
      rcases pair with ⟨otype, buffer⟩
      simp only []
      by_cases hot : ¬ otype = OBJ_COMMIT
      · rw [if_pos hot]; right; rfl
      · rw [if_neg hot]
        rcases hpb : parse_commit_buffer env.grafts st sha buffer with ⟨ret, st2⟩
        simp only [hpb]
        have hspec := parse_commit_buffer_spec1 env.grafts st sha buffer hpf
        rw [hpb] at hspec
        by_cases hsave : env.save_commit_buffer = true ∧ ret = 0
        · rw [if_pos hsave]
          left
          rw [getObj_setObj_same]
          exact hspec.1
        · rw [if_neg hsave]
          left
          exact hspec.1

/-! ## Claim C6: idempotence of `parse_commit` -/

/-- C6: `parse_commit` is idempotent — running it a second time leaves
exactly the state the first run produced, and a call on an
already-parsed node returns success with the table untouched (no
work). -/
theorem c6_parse_commit_idempotent (env : ParseEnv) (st : OState) (sha : Sha1) :
    (parse_commit env (parse_commit env st sha).2 sha).2 =
      (parse_commit env st sha).2 ∧
    ((getObj st sha).parsed = true → parse_commit env st sha = (0, st)) := by
  constructor
  · rcases parse_commit_cases env st sha with hp | hst
    · rw [parse_commit, if_pos hp]
    · rw [hst]
      exact hst
  · intro hp
    rw [parse_commit, if_pos hp]

/-- The empty object table. -/
def emptyOState : OState := ⟨fun _ => none⟩

/-- A fixed 20-byte id used by the concrete parser scenarios. -/
def ex_commit_id : Sha1 := List.replicate 20 3

/-- A well-formed commit buffer for `ex_commit_id`. -/
def ex_ok_buffer : List Char :=
  "tree ".toList ++ List.replicate 40 '0' ++
    "\nauthor A U Thor <a@x> 7 +0000\ncommitter C O M <c@x> 9 +0000\n\nFix".toList

/-- An object database holding one well-formed commit. -/
def ex_ok_env : ParseEnv :=
  ⟨fun i => if i = ex_commit_id then some (OBJ_COMMIT, ex_ok_buffer) else none,
    [], true⟩

/-- An object database holding one commit whose bytes are bogus. -/
def ex_bogus_env : ParseEnv :=
  ⟨fun i => if i = ex_commit_id then some (OBJ_COMMIT, "bogus".toList) else none,
    [], true⟩

/-- A table where `ex_commit_id` is already marked parsed. -/
def ex_parsed_state : OState :=
  ⟨fun i => if i = ex_commit_id then some ⟨OBJ_COMMIT, true, none, [], 0, none⟩
    else none⟩

/-- Witness for `c6_parse_commit_idempotent` on the concrete
one-commit object database. -/
theorem c6_parse_commit_idempotent_witness :
    ((parse_commit ex_ok_env (parse_commit ex_ok_env emptyOState ex_commit_id).2
        ex_commit_id).2 = (parse_commit ex_ok_env emptyOState ex_commit_id).2) ∧
    parse_commit ex_ok_env ex_parsed_state ex_commit_id = (0, ex_parsed_state) :=
  ⟨(c6_parse_commit_idempotent ex_ok_env emptyOState ex_commit_id).1,
    (c6_parse_commit_idempotent ex_ok_env ex_parsed_state ex_commit_id).2 (by decide)⟩

/-! ## Claim C5: `parse_commit` success, `parsed` and `tree` -/

/-- C5 counterexample: a first parse of a bogus commit object fails but
marks the node parsed; the second `parse_commit` then returns success
while the node's tree pointer is still NULL. -/
theorem c5_counterexample :
    (parse_commit ex_bogus_env emptyOState ex_commit_id).1 = -1 ∧
    (parse_commit ex_bogus_env
        (parse_commit ex_bogus_env emptyOState ex_commit_id).2 ex_commit_id).1 = 0 ∧
    (getObj (parse_commit ex_bogus_env
        (parse_commit ex_bogus_env emptyOState ex_commit_id).2 ex_commit_id).2
      ex_commit_id).tree = none := by
  refine ⟨by decide, by decide, by decide⟩

/-- C5 as amended: when `parse_commit` returns success on a node that
was not already marked parsed, the node's parsed flag is true and its
tree pointer is non-null.  (An already-parsed node yields success with
whatever the earlier attempt left — NULL if that attempt failed on a
bogus buffer.) -/
theorem c5_parse_commit_success (env : ParseEnv) (st : OState) (sha : Sha1)
    (h : (getObj st sha).parsed = false)
    (hsucc : (parse_commit env st sha).1 = 0) :
    (getObj (parse_commit env st sha).2 sha).parsed = true ∧
    (getObj (parse_commit env st sha).2 sha).tree ≠ none := by
  have hp : ¬ ((getObj st sha).parsed = true) := by simp [h]
  rw [parse_commit, if_neg hp] at hsucc ⊢
  cases hr : env.read_sha1_file sha with
  | none =>
    rw [hr] at hsucc
    exact absurd hsucc (by norm_num)
  | some pair =>
    rcases pair with ⟨otype, buffer⟩
    rw [hr] at hsucc
    simp only [] at hsucc ⊢
    by_cases hot : ¬ otype = OBJ_COMMIT
    · rw [if_pos hot] at hsucc
      exact absurd hsucc (by norm_num)
    · rw [if_neg hot] at hsucc ⊢
      rcases hpb : parse_commit_buffer env.grafts st sha buffer with ⟨ret, st2⟩
      simp only [hpb] at hsucc ⊢
      have hspec := parse_commit_buffer_spec1 env.grafts st sha buffer h
      rw [hpb] at hspec
      by_cases hsave : env.save_commit_buffer = true ∧ ret = 0
      · rw [if_pos hsave] at hsucc ⊢
        simp only [getObj_setObj_same]
        exact ⟨hspec.1, hspec.2 hsave.2⟩
      · rw [if_neg hsave] at hsucc ⊢
        exact ⟨hspec.1, hspec.2 hsucc⟩

/-- Witness for `c5_parse_commit_success` on the concrete well-formed
commit. -/
theorem c5_parse_commit_success_witness :
    (getObj (parse_commit ex_ok_env emptyOState ex_commit_id).2 ex_commit_id).parsed
        = true ∧
    (getObj (parse_commit ex_ok_env emptyOState ex_commit_id).2 ex_commit_id).tree
        ≠ none :=
  c5_parse_commit_success ex_ok_env emptyOState ex_commit_id (by decide) (by decide)

/-! ## Claim C3: graft exclusivity -/

/-- The raw `parent ` header section of a commit buffer for a given
list of parent ids (one `parent <40-hex>\n` line each). -/
def mkParentLines (ps : List Sha1) : List Char :=
  ps.flatMap fun p => "parent ".toList ++ sha1_to_hex p ++ ['\n']

/-- A 20-byte object name with byte values. -/
def WfSha (p : Sha1) : Prop := p.length = 20 ∧ ∀ b ∈ p, b < 256

instance (p : Sha1) : Decidable (WfSha p) := by
  unfold WfSha
  infer_instance

/-- `hexval` decodes the hex digit characters `sha1_to_hex` emits. -/
theorem hexval_hexDigitChar (d : Nat) (hd : d < 16) :
    hexval (hexDigitChar d) = some d := by
  interval_cases d <;> rfl

/-- `sha1_to_hex` produces two characters per byte. -/
theorem length_sha1_to_hex (p : Sha1) : (sha1_to_hex p).length = 2 * p.length := by
  induction p with
  | nil => rfl
  | cons b rest ih =>
    simp only [sha1_to_hex, List.flatMap_cons] at ih ⊢
    simp [ih, List.length_flatMap] at ih ⊢
    omega

/-- Hex decoding inverts `sha1_to_hex`, also in front of any suffix. -/
theorem get_sha1_hexN_roundtrip :
    ∀ (p : Sha1) (r : List Char), (∀ b ∈ p, b < 256) →
      get_sha1_hexN p.length (sha1_to_hex p ++ r) = some p := by
  intro p
  induction p with
  | nil => intro r _; rfl
  | cons b rest ih =>
    intro r hb
    have hb0 : b < 256 := hb b (List.mem_cons_self b rest)
    have hdiv : b / 16 < 16 := by omega
    have hmod : b % 16 < 16 := by omega
    simp only [sha1_to_hex, List.flatMap_cons, List.length_cons]
    simp only [List.append_assoc, List.cons_append, List.nil_append]
    rw [get_sha1_hexN]
    rw [hexval_hexDigitChar _ hdiv, hexval_hexDigitChar _ hmod]
    have := ih r (fun x hx => hb x (List.mem_cons_of_mem b hx))
    simp only [sha1_to_hex] at this
    rw [this]
    simp only [Option.map_some]
    have : b / 16 * 16 + b % 16 = b := by omega
    rw [this]
    rfl

/-- In graft mode the raw-parent loop only consumes the `parent ` lines:
table and accumulator come back untouched, and the buffer pointer rests
on the first non-parent line. -/
theorem parse_parent_loop_grafted_run :
    ∀ (ps : List Sha1) (fuel : Nat) (st : OState) (tail : List Char) (acc : List Sha1),
      fuel ≥ ps.length + 1 →
      (∀ p ∈ ps, WfSha p) →
      tail ≠ [] →
      ¬ (tail.length > 48 ∧ tail.take 7 = "parent ".toList) →
      parse_parent_loop true fuel st (mkParentLines ps ++ tail) acc =
        some (st, tail, acc) := by
  intro ps
  induction ps with
  | nil =>
    intro fuel st tail acc hfuel hwf hne hstop
    obtain ⟨f, rfl⟩ : ∃ f, fuel = f + 1 := ⟨fuel - 1, by omega⟩
    have hnil : mkParentLines [] ++ tail = tail := by simp [mkParentLines]
    rw [hnil, parse_parent_loop, if_neg hstop]
  | cons p ps' ih =>
    intro fuel st tail acc hfuel hwf hne hstop
    obtain ⟨f, rfl⟩ : ∃ f, fuel = f + 1 := ⟨fuel - 1, by omega⟩
    have hwfp : WfSha p := hwf p (List.mem_cons_self p ps')
    have hlen40 : (sha1_to_hex p).length = 40 := by
      rw [length_sha1_to_hex, hwfp.1]
    have hbuf : mkParentLines (p :: ps') ++ tail =
        "parent ".toList ++ (sha1_to_hex p ++ '\n' :: (mkParentLines ps' ++ tail)) := by
      simp [mkParentLines, List.flatMap_cons, List.append_assoc]
    have htpos : 0 < tail.length := List.length_pos.mpr hne
    have hlenfull :
        ("parent ".toList ++ (sha1_to_hex p ++ '\n' :: (mkParentLines ps' ++ tail))).length
          = 48 + (mkParentLines ps').length + tail.length := by
      simp [hlen40]
      omega
    rw [hbuf, parse_parent_loop]
    have hcond : ("parent ".toList ++
        (sha1_to_hex p ++ '\n' :: (mkParentLines ps' ++ tail))).length > 48 ∧
        ("parent ".toList ++
          (sha1_to_hex p ++ '\n' :: (mkParentLines ps' ++ tail))).take 7
          = "parent ".toList := by
      constructor
      · rw [hlenfull]; omega
      · have : (7 : Nat) = ("parent ".toList).length := by rfl
        rw [this, List.take_left]
    rw [if_pos hcond]
    have hdrop7 : ("parent ".toList ++
        (sha1_to_hex p ++ '\n' :: (mkParentLines ps' ++ tail))).drop 7
        = sha1_to_hex p ++ '\n' :: (mkParentLines ps' ++ tail) := by
      have : (7 : Nat) = ("parent ".toList).length := by rfl
      rw [this, List.drop_left]
    have hget : get_sha1_hex (sha1_to_hex p ++ '\n' :: (mkParentLines ps' ++ tail))
        = some p := by
      rw [get_sha1_hex, show (20 : Nat) = p.length from hwfp.1.symm]
      exact get_sha1_hexN_roundtrip p _ hwfp.2
    rw [hdrop7]
    simp only [hget]
    have h47 : ("parent ".toList ++
        (sha1_to_hex p ++ '\n' :: (mkParentLines ps' ++ tail))).get? 47
        = some '\n' := by
      have hassoc : "parent ".toList ++
          (sha1_to_hex p ++ '\n' :: (mkParentLines ps' ++ tail)) =
          ("parent ".toList ++ sha1_to_hex p) ++ ('\n' :: (mkParentLines ps' ++ tail)) := by
        simp [List.append_assoc]
      have hlen47 : ("parent ".toList ++ sha1_to_hex p).length = 47 := by
        simp [hlen40]
      rw [hassoc, List.get?_eq_getElem?, List.getElem?_append_right (by omega), hlen47]
      simp
    rw [if_neg (by rw [h47]; simp)]
    rw [if_true]
    have hdrop48 : ("parent ".toList ++
        (sha1_to_hex p ++ '\n' :: (mkParentLines ps' ++ tail))).drop 48
        = mkParentLines ps' ++ tail := by
      have hassoc : "parent ".toList ++
          (sha1_to_hex p ++ '\n' :: (mkParentLines ps' ++ tail)) =
          ("parent ".toList ++ sha1_to_hex p ++ ['\n']) ++ (mkParentLines ps' ++ tail) := by
        simp [List.append_assoc]
      have hlen48 : ("parent ".toList ++ sha1_to_hex p ++ ['\n']).length = 48 := by
        simp [hlen40]
      rw [hassoc, show (48 : Nat) = ("parent ".toList ++ sha1_to_hex p ++ ['\n']).length
        from hlen48.symm, List.drop_left]
    rw [hdrop48]
    exact ih f st tail acc (by simp at hfuel; omega)
      (fun q hq => hwf q (List.mem_cons_of_mem p hq)) hne hstop

/-- A successful `lookup_commit` returns the canonical handle, i.e. the
id that was looked up. -/
theorem lookup_commit_handle (st : OState) (p h : Sha1) :
    (lookup_commit st p).2 = some h → h = p := by
  unfold lookup_commit
  cases hq : st.objs p with
  | none => intro hh; simp at hh; exact hh.symm
  | some o =>
    simp only []
    by_cases h0 : o.otype = OBJ_NONE
    · rw [if_pos h0]
      unfold check_commit
      by_cases hc : ({ o with otype := OBJ_COMMIT } : ObjRec).otype = OBJ_COMMIT
      · rw [if_pos hc]; intro hh; simp at hh; exact hh.symm
      · rw [if_neg hc]; intro hh; simp at hh
    · rw [if_neg h0]
      unfold check_commit
      by_cases hc : o.otype = OBJ_COMMIT
      · rw [if_pos hc]; intro hh; simp at hh; exact hh.symm
      · rw [if_neg hc]; intro hh; simp at hh

/-- An id whose table entry exists and is commit-compatible (kind unset
or commit). -/
def commitishS (st : OState) (p : Sha1) : Prop :=
  ∃ o, st.objs p = some o ∧ (o.otype = OBJ_NONE ∨ o.otype = OBJ_COMMIT)

/-- `lookup_commit` succeeds on a commit-compatible existing entry. -/
theorem lookup_commit_success (st : OState) (p : Sha1) (h : commitishS st p) :
    (lookup_commit st p).2 = some p := by
  obtain ⟨o, ho, hc⟩ := h
  unfold lookup_commit
  rw [ho]
  simp only []
  rcases hc with hc | hc
  · rw [if_pos hc]
    simp [check_commit]
  · by_cases h0 : o.otype = OBJ_NONE
    · rw [if_pos h0]; simp [check_commit]
    · rw [if_neg h0]; simp [check_commit, hc]

/-- `lookup_commit` keeps every id commit-compatible (it can only set
an unset kind to commit or create commit nodes). -/
theorem lookup_commit_keeps_commitishS (st : OState) (p q : Sha1)
    (h : commitishS st q) : commitishS (lookup_commit st p).1 q := by
  obtain ⟨o, ho, hc⟩ := h
  unfold lookup_commit
  cases hq : st.objs p with
  | none =>
    by_cases hpq : q = p
    · subst hpq; rw [ho] at hq; cases hq
    · exact ⟨o, by simp [create_object, setObj, hpq, ho], hc⟩
  | some o' =>
    simp only []
    by_cases h0 : o'.otype = OBJ_NONE
    · rw [if_pos h0]
      by_cases hpq : q = p
      · subst hpq
        rw [ho] at hq
        injection hq with hq
        subst hq
        exact ⟨{ o with otype := OBJ_COMMIT }, by simp [setObj], Or.inr rfl⟩
      · exact ⟨o, by simp [setObj, hpq, ho], hc⟩
    · rw [if_neg h0]
      exact ⟨o, ho, hc⟩

/-- Every handle collected by the graft loop is one of the graft's
parent ids. -/
theorem graft_parents_loop_subset :
    ∀ (l : List Sha1) (st : OState) (x : Sha1),
      x ∈ (graft_parents_loop st l).2 → x ∈ l := by
  intro l
  induction l with
  | nil => intro st x hx; simp [graft_parents_loop] at hx
  | cons p ps ih =>
    intro st x hx
    rw [graft_parents_loop] at hx
    rcases hlc : lookup_commit st p with ⟨st2, h2⟩
    rw [hlc] at hx
    cases h2 with
    | some hp =>
      simp only at hx
      rcases hgl : graft_parents_loop st2 ps with ⟨st3, ps3⟩
      rw [hgl] at hx
      simp only [List.mem_cons] at hx
      rcases hx with hx | hx
      · have hhp : hp = p := lookup_commit_handle st p hp (by rw [hlc])
        rw [hx, hhp]
        exact List.mem_cons_self p ps
      · right
        apply ih st2 x
        rw [hgl]
        exact hx
    | none =>
      simp only at hx
      exact List.mem_cons_of_mem p (ih st2 x hx)

/-- When every graft parent is commit-compatible in the table, the
graft loop collects exactly the graft's parent list. -/
theorem graft_parents_loop_exact :
    ∀ (l : List Sha1) (st : OState), (∀ p ∈ l, commitishS st p) →
      (graft_parents_loop st l).2 = l := by
  intro l
  induction l with
  | nil => intro st _; rfl
  | cons p ps ih =>
    intro st hall
    rw [graft_parents_loop]
    have hsucc := lookup_commit_success st p (hall p (List.mem_cons_self p ps))
    rcases hlc : lookup_commit st p with ⟨st2, h2⟩
    rw [hlc] at hsucc
    simp only at hsucc
    subst hsucc
    simp only
    rcases hgl : graft_parents_loop st2 ps with ⟨st3, ps3⟩
    have : ps3 = ps := by
      have := ih st2 (fun q hq => by
        have := lookup_commit_keeps_commitishS st p q (hall q (List.mem_cons_of_mem p hq))
        rw [hlc] at this
        exact this)
      rw [hgl] at this
      exact this
    rw [this]

/-- Storing a record with the same kind keeps every id
commit-compatible. -/
theorem setObj_keeps_commitishS (st : OState) (sha q : Sha1) (r : ObjRec)
    (hot : r.otype = (getObj st sha).otype)
    (h : commitishS st q) : commitishS (setObj st sha r) q := by
  obtain ⟨o, ho, hc⟩ := h
  by_cases hq : q = sha
  · subst hq
    refine ⟨r, by simp [setObj], ?_⟩
    rw [hot]
    have : getObj st q = o := by simp [getObj, ho]
    rw [this]
    exact hc
  · exact ⟨o, by simp [setObj, hq, ho], hc⟩

/-- `lookup_tree` keeps every id with an existing entry
commit-compatible (it only creates absent entries). -/
theorem lookup_tree_keeps_commitishS (st : OState) (p q : Sha1)
    (h : commitishS st q) : commitishS (lookup_tree st p).1 q := by
  obtain ⟨o, ho, hc⟩ := h
  unfold lookup_tree
  cases hq : st.objs p with
  | none =>
    simp only []
    by_cases hpq : q = p
    · subst hpq; rw [ho] at hq; cases hq
    · exact ⟨o, by simp [create_object, setObj, hpq, ho], hc⟩
  | some o' => exact ⟨o, ho, hc⟩

/-- Each well-formed `parent ` line is 48 bytes. -/
theorem length_mkParentLines (ps : List Sha1) (h : ∀ p ∈ ps, WfSha p) :
    (mkParentLines ps).length = 48 * ps.length := by
  induction ps with
  | nil => rfl
  | cons p rest ih =>
    have hp := h p (List.mem_cons_self p rest)
    have h40 : (sha1_to_hex p).length = 40 := by rw [length_sha1_to_hex, hp.1]
    have hih := ih fun q hq => h q (List.mem_cons_of_mem p hq)
    rw [mkParentLines, List.flatMap_cons]
    have hrest : (rest.flatMap fun q => "parent ".toList ++ sha1_to_hex q ++ ['\n'])
        = mkParentLines rest := rfl
    rw [hrest, List.length_append, hih]
    simp [h40]
    ring

/-- A commit buffer with the given tree, raw parent section and tail
(the `author`/`committer`/message part). -/
def mkCommitBuf (t : Sha1) (ps : List Sha1) (tail : List Char) : List Char :=
  "tree ".toList ++ sha1_to_hex t ++ '\n' :: (mkParentLines ps ++ tail)

/-- The node state `parse_commit_buffer` produces on a grafted commit:
`parsed` and the tree handle are set, and the parent list comes from
the graft loop alone. -/
def graftParseResult (st : OState) (sha : Sha1) (g : CommitGraft)
    (t : Sha1) (tail : List Char) : OState :=
  let st1 := setObj st sha { getObj st sha with parsed := true }
  let lt := lookup_tree st1 t
  let st3 := setObj lt.1 sha { getObj lt.1 sha with tree := some lt.2 }
  let gl := graft_parents_loop st3 (g.parentIds.take g.nrParent.toNat)
  setObj gl.1 sha
    { getObj gl.1 sha with parentList := gl.2,
                           cdate := parse_commit_date tail }

/-- Symbolic run of `parse_commit_buffer` on a grafted commit: the
parse succeeds and the resulting table is `graftParseResult` — in
particular it does not depend on the raw `parent ` headers. -/
theorem parse_commit_buffer_graft_run (grafts : List CommitGraft) (st : OState)
    (sha : Sha1) (g : CommitGraft) (t : Sha1) (tail : List Char)
    (hg : lookup_commit_graft grafts sha = some g)
    (hparsed : (getObj st sha).parsed = false)
    (ht : WfSha t) (htne : tail ≠ [])
    (hstop : ¬ (tail.length > 48 ∧ tail.take 7 = "parent ".toList))
    (ps : List Sha1) (hps : ∀ p ∈ ps, WfSha p) :
    parse_commit_buffer grafts st sha (mkCommitBuf t ps tail) =
      (0, graftParseResult st sha g t tail) := by
  have hb : ¬ ((getObj st sha).parsed = true) := by simp [hparsed]
  have hlen40 : (sha1_to_hex t).length = 40 := by rw [length_sha1_to_hex, ht.1]
  have hmklen : (mkParentLines ps).length = 48 * ps.length :=
    length_mkParentLines ps hps
  have htpos : 0 < tail.length := List.length_pos.mpr htne
  have hlenbuf : (mkCommitBuf t ps tail).length
      = 46 + 48 * ps.length + tail.length := by
    simp [mkCommitBuf, hlen40, hmklen]
    omega
  rw [parse_commit_buffer, if_neg hb]
  have htake5 : (mkCommitBuf t ps tail).take 5 = "tree ".toList := by
    rw [mkCommitBuf, List.append_assoc,
      show (5 : Nat) = ("tree ".toList).length from rfl, List.take_left]
  have hc1 : ¬ ((mkCommitBuf t ps tail).length ≤ 5 ∨
      ¬ (mkCommitBuf t ps tail).take 5 = "tree ".toList) := by
    rw [not_or]
    exact ⟨by omega, by simp [htake5]⟩
  rw [if_neg hc1]
  have hdrop5 : (mkCommitBuf t ps tail).drop 5
      = sha1_to_hex t ++ '\n' :: (mkParentLines ps ++ tail) := by
    rw [mkCommitBuf, List.append_assoc,
      show (5 : Nat) = ("tree ".toList).length from rfl, List.drop_left]
  have hgethex : get_sha1_hex ((mkCommitBuf t ps tail).drop 5) = some t := by
    rw [hdrop5, get_sha1_hex, show (20 : Nat) = t.length from ht.1.symm]
    exact get_sha1_hexN_roundtrip t _ ht.2
  simp only [hgethex]
  have hc2 : ¬ (mkCommitBuf t ps tail).length ≤ 45 := by omega
  rw [if_neg hc2]
  rcases hlt : lookup_tree (setObj st sha { getObj st sha with parsed := true }) t
    with ⟨st2, tH⟩
  simp only [parse_commit_tail, hlt]
  have hdrop46 : (mkCommitBuf t ps tail).drop 46 = mkParentLines ps ++ tail := by
    have hassoc : mkCommitBuf t ps tail =
        ("tree ".toList ++ sha1_to_hex t ++ ['\n']) ++ (mkParentLines ps ++ tail) := by
      simp [mkCommitBuf]
    rw [hassoc,
      show (46 : Nat) = ("tree ".toList ++ sha1_to_hex t ++ ['\n']).length from by
        simp [hlen40], List.drop_left]
  rw [hdrop46]
  simp only [hg, Option.isSome_some]
  have hloop := parse_parent_loop_grafted_run ps
    ((mkParentLines ps ++ tail).length + 1)
    (setObj st2 sha { getObj st2 sha with tree := some tH })
    tail [] (by rw [List.length_append, hmklen]; omega) hps htne hstop
  rw [hloop]
  simp only []
  rcases hgl : graft_parents_loop
      (setObj st2 sha { getObj st2 sha with tree := some tH })
      (g.parentIds.take g.nrParent.toNat) with ⟨st4, parents⟩
  simp only [hgl]
  simp only [graftParseResult, hlt, hgl]

/-- A fixed tree id for the graft scenarios. -/
def ex_tree_id : Sha1 := List.replicate 20 0

/-- A fixed grafted-commit id. -/
def ex_graft_commit : Sha1 := List.replicate 20 5

/-- A fixed graft-parent id. -/
def ex_graft_parent : Sha1 := List.replicate 20 9

/-- A one-record graft array mapping `ex_graft_commit` to one parent. -/
def ex_grafts : List CommitGraft := [⟨ex_graft_commit, 1, [ex_graft_parent]⟩]

/-- The message tail used by the graft scenarios. -/
def ex_tail : List Char := "author a <a> 1 +0000\n\nm".toList

/-- A table where the graft's parent id is registered as a tree. -/
def ex_tree_kind_state : OState :=
  ⟨fun i => if i = ex_graft_parent then some ⟨OBJ_TREE, false, none, [], 0, none⟩
    else none⟩

/-- C3 counterexample: the graft's parent id is registered as a tree,
so `lookup_commit` rejects it inside the graft loop; the parse still
succeeds but the node's parent list is empty — not "exactly the graft's
parent list" `[ex_graft_parent]`. -/
theorem c3_counterexample :
    (parse_commit_buffer ex_grafts ex_tree_kind_state ex_graft_commit
        (mkCommitBuf ex_tree_id [] ex_tail)).1 = 0 ∧
    parentsOf (parse_commit_buffer ex_grafts ex_tree_kind_state ex_graft_commit
        (mkCommitBuf ex_tree_id [] ex_tail)).2 ex_graft_commit = [] ∧
    (⟨ex_graft_commit, 1, [ex_graft_parent]⟩ : CommitGraft).parentIds.take
        (⟨ex_graft_commit, 1, [ex_graft_parent]⟩ : CommitGraft).nrParent.toNat
      = [ex_graft_parent] ∧
    ([] : List Sha1) ≠ [ex_graft_parent] := by
  refine ⟨by decide, by decide, by decide, by decide⟩

/-- C3 as amended: on a commit with a registered graft entry, a
successful `parse_commit_buffer` (i) succeeds, (ii) draws every parent
from the graft's parent list — never from the raw `parent ` headers,
whose content cannot influence the result at all (conjunct v), (iii)
yields the empty list for a shallow marker (`nr_parent ≤ 0`), and (iv)
yields exactly the graft's parent list when every graft parent id is
commit-compatible in the table (absent ids of other kinds are silently
dropped by `lookup_commit`). -/
theorem c3_graft_exclusivity (grafts : List CommitGraft) (st : OState)
    (sha : Sha1) (g : CommitGraft) (t : Sha1) (tail : List Char)
    (hg : lookup_commit_graft grafts sha = some g)
    (hparsed : (getObj st sha).parsed = false)
    (ht : WfSha t) (htne : tail ≠ [])
    (hstop : ¬ (tail.length > 48 ∧ tail.take 7 = "parent ".toList))
    (ps : List Sha1) (hps : ∀ p ∈ ps, WfSha p) :
    (parse_commit_buffer grafts st sha (mkCommitBuf t ps tail)).1 = 0 ∧
    (∀ x ∈ parentsOf (parse_commit_buffer grafts st sha (mkCommitBuf t ps tail)).2 sha,
        x ∈ g.parentIds.take g.nrParent.toNat) ∧
    (g.nrParent ≤ 0 →
      parentsOf (parse_commit_buffer grafts st sha (mkCommitBuf t ps tail)).2 sha = []) ∧
    ((∀ p ∈ g.parentIds.take g.nrParent.toNat, commitishS st p) →
      parentsOf (parse_commit_buffer grafts st sha (mkCommitBuf t ps tail)).2 sha
        = g.parentIds.take g.nrParent.toNat) ∧
    (∀ ps2, (∀ p ∈ ps2, WfSha p) →
      parse_commit_buffer grafts st sha (mkCommitBuf t ps2 tail) =
        parse_commit_buffer grafts st sha (mkCommitBuf t ps tail)) := by
  have hrun := parse_commit_buffer_graft_run grafts st sha g t tail hg hparsed ht
    htne hstop ps hps
  have hparents : parentsOf
      (parse_commit_buffer grafts st sha (mkCommitBuf t ps tail)).2 sha =
      (graft_parents_loop
        (setObj (lookup_tree (setObj st sha { getObj st sha with parsed := true }) t).1
          sha
          { getObj (lookup_tree (setObj st sha { getObj st sha with parsed := true }) t).1
              sha with
            tree := some (lookup_tree (setObj st sha { getObj st sha with parsed := true }) t).2 })
        (g.parentIds.take g.nrParent.toNat)).2 := by
    rw [hrun]
    show parentsOf (graftParseResult st sha g t tail) sha = _
    rw [graftParseResult, parentsOf]
    rw [getObj_setObj_same]
  refine ⟨by rw [hrun], ?_, ?_, ?_, ?_⟩
  · intro x hx
    rw [hparents] at hx
    exact graft_parents_loop_subset _ _ x hx
  · intro hnr
    rw [hparents]
    have : g.nrParent.toNat = 0 := Int.toNat_of_nonpos hnr
    rw [this]
    rfl
  · intro hres
    rw [hparents]
    apply graft_parents_loop_exact
    intro p hp
    apply setObj_keeps_commitishS
    · rfl
    · apply lookup_tree_keeps_commitishS
      apply setObj_keeps_commitishS
      · rfl
      · exact hres p hp
  · intro ps2 hps2
    rw [hrun,
      parse_commit_buffer_graft_run grafts st sha g t tail hg hparsed ht
        htne hstop ps2 hps2]

/-- A table where the graft's parent id is registered as a commit. -/
def ex_commit_kind_state : OState :=
  ⟨fun i => if i = ex_graft_parent then some ⟨OBJ_COMMIT, false, none, [], 0, none⟩
    else none⟩

/-- Witness for `c3_graft_exclusivity` at a graft whose parent resolves:
the parse succeeds and the parent list equals the graft's list. -/
theorem c3_graft_exclusivity_witness :
    (parse_commit_buffer ex_grafts ex_commit_kind_state ex_graft_commit
        (mkCommitBuf ex_tree_id [] ex_tail)).1 = 0 ∧
    parentsOf (parse_commit_buffer ex_grafts ex_commit_kind_state ex_graft_commit
        (mkCommitBuf ex_tree_id [] ex_tail)).2 ex_graft_commit
      = (⟨ex_graft_commit, 1, [ex_graft_parent]⟩ : CommitGraft).parentIds.take
          (⟨ex_graft_commit, 1, [ex_graft_parent]⟩ : CommitGraft).nrParent.toNat :=
  ⟨(c3_graft_exclusivity ex_grafts ex_commit_kind_state ex_graft_commit
      ⟨ex_graft_commit, 1, [ex_graft_parent]⟩ ex_tree_id ex_tail
      (by decide) (by decide) (by decide) (by decide) (by decide) [] (by decide)).1,
    (c3_graft_exclusivity ex_grafts ex_commit_kind_state ex_graft_commit
      ⟨ex_graft_commit, 1, [ex_graft_parent]⟩ ex_tree_id ex_tail
      (by decide) (by decide) (by decide) (by decide) (by decide) [] (by decide)).2.2.2.1
      (by intro p hp
          simp only [List.take, List.mem_singleton] at hp
          subst hp
          exact ⟨⟨OBJ_COMMIT, false, none, [], 0, none⟩, rfl, Or.inr rfl⟩)⟩

/-! ## The commit graph and the topological sorter
(`sort_in_topological_order_fn`)

For the graph algorithms a commit handle is a plain `Nat`; the lazily
materialized DAG is a parent map plus the committer dates, with a node
list bounding the portion the algorithms may touch. -/

/-- The commit DAG as the graph algorithms see it. -/
structure Graph where
  nodes : List Nat
  parents : Nat → List Nat
  date : Nat → Nat

/-- Point update of an auxiliary map (the `setter` of the sorter). -/
def updAux (a : Nat → Option Nat) (k : Nat) (v : Option Nat) : Nat → Option Nat :=
  fun n => if n = k then v else a n

/-- The `update the indegree` inner loop: one increment per occurrence
of a parent that carries a `sort_node`. -/
def topo_bump (aux : Nat → Option Nat) : List Nat → (Nat → Option Nat)
  | [] => aux
  | q :: ps =>
    match aux q with
    | some d => topo_bump (updAux aux q (some (d + 1))) ps
    | none => topo_bump aux ps

/-- The `update the indegree` outer loop over the list being sorted. -/
def topo_count (g : Graph) (aux : Nat → Option Nat) : List Nat → (Nat → Option Nat)
  | [] => aux
  | c :: cs => topo_count g (topo_bump aux (g.parents c)) cs

/-- The parent scan of one emitted work item: decrement each in-list
parent's indegree and enqueue it when the indegree reaches zero — at
the head when `lifo`, by date otherwise. -/
def topo_emit (g : Graph) (lifo : Bool) (aux : Nat → Option Nat)
    (work : List Nat) : List Nat → (Nat → Option Nat) × List Nat
  | [] => (aux, work)
  | p :: ps =>
    match aux p with
    | none => topo_emit g lifo aux work ps
    | some d =>
      let d' := d - 1
      let aux' := updAux aux p (some d')
      if d' = 0 then
        let work' := if lifo then p :: work else insert_by_date g.date p work
        topo_emit g lifo aux' work' ps
      else topo_emit g lifo aux' work ps

/-- The `while (work)` loop: pop a work item, scan its parents, emit
it and detach its `sort_node`.  One emission per iteration, so any fuel
above the list length is enough. -/
def topo_loop (g : Graph) (lifo : Bool) :
    Nat → (Nat → Option Nat) → List Nat → List Nat → (Nat → Option Nat) × List Nat
  | 0, aux, _, out => (aux, out)
  | fuel + 1, aux, work, out =>
    match pop_commit work with
    | (none, _) => (aux, out)
    | (some wi, work') =>
      match topo_emit g lifo aux work' (g.parents wi) with
      | (aux2, work2) => topo_loop g lifo fuel (updAux aux2 wi none) work2 (out ++ [wi])

/-- `sort_in_topological_order_fn(&list, lifo, setter, getter)`: one
`sort_node` with indegree 0 per element, the indegree pass, the
zero-indegree tips as the initial work queue (date-sorted unless
`lifo`), then the emission loop. -/
def sort_in_topological_order_fn (g : Graph) (list : List Nat) (lifo : Bool) :
    List Nat :=
  let count := list.length
  if count = 0 then list
  else
    let aux0 : Nat → Option Nat := fun n => if n ∈ list then some 0 else none
    let aux1 := topo_count g aux0 list
    let work := list.filter fun c => aux1 c = some 0
    let work := if lifo then work else sort_by_date g.date work
    (topo_loop g lifo (count + 1) aux1 work []).2

/-- `sort_in_topological_order(&list, lifo)` with the default
`util`-slot setter and getter. -/
def sort_in_topological_order (g : Graph) (list : List Nat) (lifo : Bool) :
    List Nat :=
  sort_in_topological_order_fn g list lifo

/-- What one parent scan does: each tracked parent's indegree drops by
its number of occurrences, and exactly the parents whose indegree hits
zero join the work queue (once, keeping it duplicate-free and
all-zero). -/
theorem topo_emit_spec (g : Graph) (lifo : Bool) :
    ∀ (ps : List Nat) (aux : Nat → Option Nat) (work : List Nat),
      (∀ n d, aux n = some d → ps.count n ≤ d) →
      (∀ q ∈ work, aux q = some 0) →
      work.Nodup →
      (∀ n, (topo_emit g lifo aux work ps).1 n =
        Option.map (fun d => d - ps.count n) (aux n)) ∧
      (∀ q, q ∈ (topo_emit g lifo aux work ps).2 ↔
        q ∈ work ∨ (1 ≤ ps.count q ∧ aux q = some (ps.count q))) ∧
      (topo_emit g lifo aux work ps).2.Nodup := by
  intro ps
  induction ps with
  | nil =>
    intro aux work hge hw0 hwn
    refine ⟨fun n => ?_, fun q => ?_, hwn⟩
    · cases h : aux n <;> simp [topo_emit, h]
    · simp [topo_emit]
  | cons p ps' ih =>
    intro aux work hge hw0 hwn
    rw [topo_emit]
    cases hap : aux p with
    | none =>
      simp only []
      have hge' : ∀ n d, aux n = some d → ps'.count n ≤ d := by
        intro n d hn
        have := hge n d hn
        by_cases hnp : n = p
        · subst hnp; rw [hn] at hap; cases hap
        · rw [List.count_cons_of_ne hnp] at this; exact this
      obtain ⟨e1, e2, e3⟩ := ih aux work hge' hw0 hwn
      refine ⟨fun n => ?_, fun q => ?_, e3⟩
      · rw [e1]
        by_cases hnp : n = p
        · subst hnp; rw [hap]; rfl
        · rw [List.count_cons_of_ne hnp]
      · rw [e2]
        by_cases hqp : q = p
        · subst hqp
          rw [hap]
          simp
        · rw [List.count_cons_of_ne hqp]
    | some d =>
      simp only []
      have hdge : ps'.count p + 1 ≤ d := by
        have := hge p d hap
        rw [List.count_cons_self] at this
        omega
      by_cases hd0 : d - 1 = 0
      · rw [if_pos hd0]
        have hd1 : d = 1 := by omega
        have hpz : ps'.count p = 0 := by omega
        have hpnotw : p ∉ work := by
          intro hmem
          have := hw0 p hmem
          rw [hap] at this
          injection this with this
          omega
        have hge' : ∀ n e, updAux aux p (some (d - 1)) n = some e → ps'.count n ≤ e := by
          intro n e hn
          unfold updAux at hn
          by_cases hnp : n = p
          · rw [if_pos hnp] at hn
            injection hn with hn
            subst hnp
            omega
          · rw [if_neg hnp] at hn
            have := hge n e hn
            rw [List.count_cons_of_ne hnp] at this
            exact this
        have hw0' : ∀ q ∈ (if lifo then p :: work else insert_by_date g.date p work),
            updAux aux p (some (d - 1)) q = some 0 := by
          intro q hq
          have hq' : q = p ∨ q ∈ work := by
            cases lifo with
            | true => simpa using hq
            | false =>
              rw [if_neg (by simp)] at hq
              exact (mem_insert_by_date g.date p work q).mp hq
          unfold updAux
          rcases hq' with hq' | hq'
          · subst hq'; rw [if_pos rfl, hd0]
          · have hqp : q ≠ p := fun h => hpnotw (h ▸ hq')
            rw [if_neg hqp]
            exact hw0 q hq'
        have hwn' : (if lifo then p :: work else insert_by_date g.date p work).Nodup := by
          cases lifo with
          | true => simpa [hpnotw] using hwn
          | false =>
            rw [if_neg (by simp)]
            exact ((insert_by_date_perm g.date p work).nodup_iff).mpr
              (by simp [hpnotw, hwn])
        obtain ⟨e1, e2, e3⟩ := ih (updAux aux p (some (d - 1)))
          (if lifo then p :: work else insert_by_date g.date p work) hge' hw0' hwn'
        refine ⟨fun n => ?_, fun q => ?_, e3⟩
        · rw [e1]
          unfold updAux
          by_cases hnp : n = p
          · subst hnp
            rw [if_pos rfl, hap, List.count_cons_self]
            simp
            omega
          · rw [if_neg hnp, List.count_cons_of_ne hnp]
        · rw [e2]
          by_cases hqp : q = p
          · subst hqp
            constructor
            · intro _
              right
              rw [hap, List.count_cons_self, hpz, hd1]
              simp
            · intro _
              left
              cases lifo with
              | true => simp
              | false =>
                rw [if_neg (by simp)]
                exact (mem_insert_by_date g.date q work q).mpr (Or.inl rfl)
          · have hmemiff : q ∈ (if lifo then p :: work else insert_by_date g.date p work)
                ↔ q ∈ work := by
              cases lifo with
              | true => simp [hqp]
              | false =>
                rw [if_neg (by simp), mem_insert_by_date]
                simp [hqp]
            rw [hmemiff]
            unfold updAux
            rw [if_neg hqp, List.count_cons_of_ne hqp]
      · rw [if_neg hd0]
        have hge' : ∀ n e, updAux aux p (some (d - 1)) n = some e → ps'.count n ≤ e := by
          intro n e hn
          unfold updAux at hn
          by_cases hnp : n = p
          · rw [if_pos hnp] at hn
            injection hn with hn
            subst hnp
            omega
          · rw [if_neg hnp] at hn
            have := hge n e hn
            rw [List.count_cons_of_ne hnp] at this
            exact this
        have hpnotw : p ∉ work := by
          intro hmem
          have := hw0 p hmem
          rw [hap] at this
          injection this with this
          omega
        have hw0' : ∀ q ∈ work, updAux aux p (some (d - 1)) q = some 0 := by
          intro q hq
          unfold updAux
          have hqp : q ≠ p := fun h => hpnotw (h ▸ hq)
          rw [if_neg hqp]
          exact hw0 q hq
        obtain ⟨e1, e2, e3⟩ := ih (updAux aux p (some (d - 1))) work hge' hw0' hwn
        refine ⟨fun n => ?_, fun q => ?_, e3⟩
        · rw [e1]
          unfold updAux
          by_cases hnp : n = p
          · subst hnp
            rw [if_pos rfl, hap, List.count_cons_self]
            simp
            omega
          · rw [if_neg hnp, List.count_cons_of_ne hnp]
        · rw [e2]
          by_cases hqp : q = p
          · subst hqp
            unfold updAux
            rw [if_pos rfl, hap, List.count_cons_self]
            constructor
            · intro h
              rcases h with h | ⟨h1, h2⟩
              · exact Or.inl h
              · injection h2 with h2
                right
                exact ⟨by omega, by congr 1; omega⟩
            · intro h
              rcases h with h | ⟨h1, h2⟩
              · exact Or.inl h
              · injection h2 with h2
                right
                refine ⟨by omega, ?_⟩
                congr 1
                omega
          · unfold updAux
            rw [if_neg hqp, List.count_cons_of_ne hqp]

/-- Number of edges from still-unemitted members of `L` into `p`
(counting multiplicity): the indegree the sorter still owes `p`. -/
def remDeg (g : Graph) (L out : List Nat) (p : Nat) : Nat :=
  ((L.filter fun c => decide (c ∉ out)).map fun c => (g.parents c).count p).sum

/-- Total in-list indegree of `p` (no one emitted yet). -/
def sumDeg (g : Graph) (L : List Nat) (p : Nat) : Nat :=
  (L.map fun c => (g.parents c).count p).sum

/-- The indegree bump pass adds one per tracked occurrence. -/
theorem topo_bump_spec :
    ∀ (ps : List Nat) (aux : Nat → Option Nat) (n : Nat),
      topo_bump aux ps n = Option.map (fun d => d + ps.count n) (aux n) := by
  intro ps
  induction ps with
  | nil => intro aux n; cases h : aux n <;> simp [topo_bump, h]
  | cons q ps' ih =>
    intro aux n
    rw [topo_bump]
    cases hq : aux q with
    | none =>
      simp only []
      rw [ih]
      by_cases hnq : n = q
      · subst hnq; rw [hq]; rfl
      · rw [List.count_cons_of_ne hnq]
    | some d =>
      simp only []
      rw [ih]
      unfold updAux
      by_cases hnq : n = q
      · subst hnq
        rw [if_pos rfl, hq, List.count_cons_self]
        simp
        omega
      · rw [if_neg hnq, List.count_cons_of_ne hnq]

/-- The indegree pass computes the full in-list indegree. -/
theorem topo_count_spec (g : Graph) :
    ∀ (cs : List Nat) (aux : Nat → Option Nat) (n : Nat),
      topo_count g aux cs n = Option.map (fun d => d + sumDeg g cs n) (aux n) := by
  intro cs
  induction cs with
  | nil => intro aux n; cases h : aux n <;> simp [topo_count, sumDeg, h]
  | cons c cs' ih =>
    intro aux n
    rw [topo_count, ih, topo_bump_spec]
    cases h : aux n with
    | none => rfl
    | some d =>
      simp only [Option.map_some']
      congr 1
      simp only [sumDeg, List.map_cons, List.sum_cons]
      omega

/-- With nobody emitted the remaining degree is the full indegree. -/
theorem remDeg_nil (g : Graph) (L : List Nat) (p : Nat) :
    remDeg g L [] p = sumDeg g L p := by
  simp [remDeg, sumDeg]

/-- Emitting a node not in `M` leaves `M`'s contribution unchanged. -/
theorem remDeg_append_not_mem (g : Graph) (M out : List Nat) (wi p : Nat)
    (h : wi ∉ M) : remDeg g M (out ++ [wi]) p = remDeg g M out p := by
  unfold remDeg
  have heq : (M.filter fun c => decide (c ∉ out ++ [wi]))
      = (M.filter fun c => decide (c ∉ out)) := by
    apply List.filter_congr
    intro c hc
    have hne : c ≠ wi := fun he => h (he ▸ hc)
    simp [hne]
  rw [heq]

/-- Emitting `wi` removes exactly `wi`'s parent occurrences from the
remaining degree. -/
theorem remDeg_append (g : Graph) (L out : List Nat) (wi p : Nat)
    (hnd : L.Nodup) (hwi : wi ∈ L) (hout : wi ∉ out) :
    remDeg g L (out ++ [wi]) p + (g.parents wi).count p = remDeg g L out p := by
  induction L with
  | nil => cases hwi
  | cons c L' ih =>
    have hnd' : L'.Nodup := hnd.of_cons
    by_cases hcwi : c = wi
    · subst hcwi
      have hcL' : c ∉ L' := (List.nodup_cons.mp hnd).1
      have hrec := remDeg_append_not_mem g L' out c p hcL'
      unfold remDeg at hrec ⊢
      rw [List.filter_cons_of_neg]
      · rw [List.filter_cons_of_pos]
        · rw [List.map_cons, List.sum_cons, hrec]
          omega
        · simp [hout]
      · simp
    · have hwi' : wi ∈ L' := by
        rcases List.mem_cons.mp hwi with h | h
        · exact absurd h.symm hcwi
        · exact h
      have hih := ih hnd' hwi'
      unfold remDeg at hih ⊢
      by_cases hcout : c ∈ out
      · rw [List.filter_cons_of_neg]
        · rw [List.filter_cons_of_neg]
          · exact hih
          · simp [hcout]
        · simp [hcout]
      · rw [List.filter_cons_of_pos]
        · rw [List.filter_cons_of_pos]
          · rw [List.map_cons, List.map_cons, List.sum_cons, List.sum_cons]
            omega
          · simp [hcout]
        · simp [hcout, hcwi]

/-- A still-unemitted child's occurrences bound the remaining degree. -/
theorem remDeg_ge_count (g : Graph) (L out : List Nat) (wi p : Nat)
    (hwi : wi ∈ L) (hout : wi ∉ out) :
    (g.parents wi).count p ≤ remDeg g L out p := by
  unfold remDeg
  apply List.single_le_sum (fun x _ => Nat.zero_le x)
  apply List.mem_map_of_mem
  rw [List.mem_filter]
  exact ⟨hwi, by simp [hout]⟩

/-- A zero remaining degree means no unemitted in-list child is left. -/
theorem remDeg_eq_zero (g : Graph) (L out : List Nat) (p : Nat)
    (h : remDeg g L out p = 0) :
    ∀ c ∈ L, c ∉ out → p ∉ g.parents c := by
  intro c hc hcout hp
  unfold remDeg at h
  rw [List.sum_eq_zero_iff] at h
  have hmem : (g.parents c).count p ∈
      ((L.filter fun c => decide (c ∉ out)).map fun c => (g.parents c).count p) := by
    apply List.mem_map_of_mem
    rw [List.mem_filter]
    exact ⟨hc, by simp [hcout]⟩
  have := h _ hmem
  rw [List.count_eq_zero] at this
  exact this hp

/-- `sort_by_date` permutes its input. -/
theorem sort_by_date_perm (date : Nat → Nat) (l : List Nat) :
    (sort_by_date date l).Perm l := by
  suffices h : ∀ (l acc : List Nat),
      (l.foldl (fun ret item => insert_by_date date item ret) acc).Perm (l ++ acc) by
    have := h l []
    simpa [sort_by_date] using this
  intro l
  induction l with
  | nil => intro acc; simp
  | cons x xs ih =>
    intro acc
    rw [List.foldl_cons]
    refine (ih (insert_by_date date x acc)).trans ?_
    have h1 : (insert_by_date date x acc).Perm (x :: acc) := insert_by_date_perm date x acc
    refine (List.Perm.append_left xs h1).trans ?_
    simp only [List.cons_append]
    exact (List.perm_middle).trans (List.Perm.refl _)

/-- Index of a fresh element appended at the back. -/
theorem indexOf_append_self (out : List Nat) (wi : Nat) (h : wi ∉ out) :
    (out ++ [wi]).indexOf wi = out.length := by
  induction out with
  | nil => simp
  | cons a out' ih =>
    have hne : wi ≠ a := fun he => h (by rw [he]; exact List.mem_cons_self a out')
    have h' : wi ∉ out' := fun he => h (List.mem_cons_of_mem a he)
    rw [List.cons_append, List.indexOf_cons_ne _ (Ne.symm hne), ih h', List.length_cons]

/-- The sorter's loop invariant over the sorted list `L`: exactly the
unemitted members of `L` carry a `sort_node`, its value is the remaining
in-list indegree, the work queue holds exactly the unemitted
zero-indegree nodes, and the emitted prefix already satisfies the
children-first order. -/
def TopoInv (g : Graph) (L : List Nat) (aux : Nat → Option Nat)
    (work out : List Nat) : Prop :=
  (∀ n, (aux n).isSome = true → n ∈ L ∧ n ∉ out) ∧
  (∀ p ∈ L, p ∉ out → aux p = some (remDeg g L out p)) ∧
  (∀ q ∈ work, aux q = some 0) ∧
  work.Nodup ∧
  (∀ p ∈ L, p ∉ out → remDeg g L out p = 0 → p ∈ work) ∧
  out.Nodup ∧
  (∀ c ∈ out, c ∈ L) ∧
  (∀ p ∈ out, ∀ c ∈ L, p ∈ g.parents c →
    c ∈ out ∧ out.indexOf c < out.indexOf p)

/-- Size of the still-attached `sort_node` population: the loop's
termination measure. -/
def topoPotential (L : List Nat) (aux : Nat → Option Nat) : Nat :=
  (L.filter fun n => (aux n).isSome).length

/-- Detaching one attached node's `sort_node` drops the measure by one
(when the rest of the map keeps its attachment pattern). -/
theorem topoPotential_drop (aux aux2 : Nat → Option Nat) (wi : Nat)
    (hsame : ∀ n, (aux2 n).isSome = (aux n).isSome)
    (hwiS : (aux wi).isSome = true) :
    ∀ L : List Nat, L.Nodup → wi ∈ L →
      topoPotential L (updAux aux2 wi none) + 1 = topoPotential L aux := by
  intro L
  induction L with
  | nil => intro _ h; cases h
  | cons c L' ih =>
    intro hnd hwiL
    have hnd' := hnd.of_cons
    unfold topoPotential at *
    by_cases hc : c = wi
    · subst hc
      have hcL' : c ∉ L' := (List.nodup_cons.mp hnd).1
      rw [List.filter_cons_of_neg, List.filter_cons_of_pos]
      · have heq : (L'.filter fun n => (updAux aux2 c none n).isSome)
            = L'.filter fun n => (aux n).isSome := by
          apply List.filter_congr
          intro n hn
          have hnwi : n ≠ c := fun he => hcL' (he ▸ hn)
          unfold updAux
          rw [if_neg hnwi, hsame n]
        rw [heq, List.length_cons]
      · exact hwiS
      · unfold updAux
        rw [if_pos rfl]
        simp
    · have hwiL' : wi ∈ L' := by
        rcases List.mem_cons.mp hwiL with h | h
        · exact absurd h.symm hc
        · exact h
      have hrec := ih hnd' hwiL'
      have hcond : (updAux aux2 wi none c).isSome = (aux c).isSome := by
        unfold updAux
        rw [if_neg hc]
        exact hsame c
      cases hAC : (aux c).isSome with
      | false =>
        rw [List.filter_cons_of_neg, List.filter_cons_of_neg]
        · exact hrec
        · simp [hAC]
        · simp [hcond, hAC]
      | true =>
        rw [List.filter_cons_of_pos, List.filter_cons_of_pos]
        · rw [List.length_cons, List.length_cons]
          omega
        · exact hAC
        · rw [hcond]; exact hAC

/-- One loop iteration (pop `wi`, scan its parents, emit it, detach its
`sort_node`) preserves the invariant and drops the measure by one. -/
theorem topo_step (g : Graph) (lifo : Bool) (L : List Nat) (hnd : L.Nodup)
    (aux : Nat → Option Nat) (wi : Nat) (work' out : List Nat)
    (aux2 : Nat → Option Nat) (work2 : List Nat)
    (hemit : topo_emit g lifo aux work' (g.parents wi) = (aux2, work2))
    (hinv : TopoInv g L aux (wi :: work') out) :
    TopoInv g L (updAux aux2 wi none) work2 (out ++ [wi]) ∧
    topoPotential L (updAux aux2 wi none) + 1 = topoPotential L aux := by
  obtain ⟨i1, i3, iw0, iwn, i6, isub_out, isubL, iord⟩ := hinv
  have hwi0 : aux wi = some 0 := iw0 wi (List.mem_cons_self wi work')
  have hwiS : (aux wi).isSome = true := by rw [hwi0]; rfl
  have hwiL : wi ∈ L := (i1 wi hwiS).1
  have hwiout : wi ∉ out := (i1 wi hwiS).2
  have hrd0 : remDeg g L out wi = 0 := by
    have h := i3 wi hwiL hwiout
    rw [hwi0] at h
    exact (Option.some.inj h).symm
  have hge : ∀ n d, aux n = some d → (g.parents wi).count n ≤ d := by
    intro n d hn
    have hS : (aux n).isSome = true := by rw [hn]; rfl
    have hnL := (i1 n hS).1
    have hnout := (i1 n hS).2
    have h3 := i3 n hnL hnout
    rw [hn] at h3
    have hd : d = remDeg g L out n := Option.some.inj h3
    subst hd
    exact remDeg_ge_count g L out wi n hwiL hwiout
  have hw0' : ∀ q ∈ work', aux q = some 0 :=
    fun q hq => iw0 q (List.mem_cons_of_mem wi hq)
  have hwn' : work'.Nodup := iwn.of_cons
  have hwinw : wi ∉ work' := (List.nodup_cons.mp iwn).1
  obtain ⟨e1, e2, e3⟩ :=
    topo_emit_spec g lifo (g.parents wi) aux work' hge hw0' hwn'
  rw [hemit] at e1 e2 e3
  simp only [] at e1 e2 e3
  constructor
  · refine ⟨?_, ?_, ?_, e3, ?_, ?_, ?_, ?_⟩
    · intro n hS
      unfold updAux at hS
      by_cases hn : n = wi
      · rw [if_pos hn] at hS
        simp at hS
      · rw [if_neg hn, e1 n, Option.isSome_map'] at hS
        have hni := i1 n hS
        refine ⟨hni.1, ?_⟩
        intro hmem
        rcases List.mem_append.mp hmem with h | h
        · exact hni.2 h
        · exact hn (List.mem_singleton.mp h)
    · intro p hpL hpout
      have hpo : p ∉ out := fun hh => hpout (List.mem_append.mpr (Or.inl hh))
      have hpwi : p ≠ wi := by
        intro hh
        exact hpout (List.mem_append.mpr (Or.inr (by rw [hh]; exact List.mem_singleton_self wi)))
      show updAux aux2 wi none p = _
      unfold updAux
      rw [if_neg hpwi, e1 p, i3 p hpL hpo]
      simp only [Option.map_some']
      congr 1
      have := remDeg_append g L out wi p hnd hwiL hwiout
      omega
    · intro q hq
      rcases (e2 q).mp hq with hql | ⟨hc1, hceq⟩
      · have hq0 := hw0' q hql
        have hqwi : q ≠ wi := fun hh => hwinw (hh ▸ hql)
        show updAux aux2 wi none q = some 0
        unfold updAux
        rw [if_neg hqwi, e1 q, hq0]
        simp
      · have hqwi : q ≠ wi := by
          intro hh
          subst hh
          rw [hwi0] at hceq
          have := Option.some.inj hceq
          omega
        show updAux aux2 wi none q = some 0
        unfold updAux
        rw [if_neg hqwi, e1 q, hceq]
        simp
    · intro p hpL hpout hrd
      have hpo : p ∉ out := fun hh => hpout (List.mem_append.mpr (Or.inl hh))
      have hpwi : p ≠ wi := by
        intro hh
        exact hpout (List.mem_append.mpr (Or.inr (by rw [hh]; exact List.mem_singleton_self wi)))
      have hadd := remDeg_append g L out wi p hnd hwiL hwiout
      rw [hrd] at hadd
      by_cases hc : (g.parents wi).count p = 0
      · have hz : remDeg g L out p = 0 := by omega
        have hpw := i6 p hpL hpo hz
        have hpw' : p ∈ work' := by
          rcases List.mem_cons.mp hpw with h | h
          · exact absurd h hpwi
          · exact h
        exact (e2 p).mpr (Or.inl hpw')
      · have h3 := i3 p hpL hpo
        have hz : remDeg g L out p = (g.parents wi).count p := by omega
        rw [hz] at h3
        exact (e2 p).mpr (Or.inr ⟨by omega, h3⟩)
    · rw [List.nodup_append]
      refine ⟨isub_out, List.nodup_singleton wi, ?_⟩
      intro a ha hb
      rw [List.mem_singleton] at hb
      subst hb
      exact hwiout ha
    · intro c hc
      rcases List.mem_append.mp hc with h | h
      · exact isubL c h
      · rw [List.mem_singleton] at h
        subst h
        exact hwiL
    · intro p hp c hcL hpc
      rcases List.mem_append.mp hp with hpo | hpwi
      · obtain ⟨hco, hidx⟩ := iord p hpo c hcL hpc
        refine ⟨List.mem_append.mpr (Or.inl hco), ?_⟩
        rw [List.indexOf_append_of_mem hco, List.indexOf_append_of_mem hpo]
        exact hidx
      · rw [List.mem_singleton] at hpwi
        subst hpwi
        have hco : c ∈ out := by
          by_contra hcon
          exact remDeg_eq_zero g L out p hrd0 c hcL hcon hpc
        refine ⟨List.mem_append.mpr (Or.inl hco), ?_⟩
        rw [List.indexOf_append_of_mem hco, indexOf_append_self out p hwiout]
        exact List.indexOf_lt_length.mpr hco
  · have hsame : ∀ n, (aux2 n).isSome = (aux n).isSome := by
      intro n
      rw [e1 n, Option.isSome_map']
    exact topoPotential_drop aux aux2 wi hsame hwiS L hnd hwiL

/-- Running the emission loop with enough fuel lands in a state with an
empty work queue that still satisfies the invariant. -/
theorem topo_loop_run (g : Graph) (lifo : Bool) (L : List Nat) (hnd : L.Nodup) :
    ∀ (fuel : Nat) (aux : Nat → Option Nat) (work out : List Nat),
      TopoInv g L aux work out →
      topoPotential L aux < fuel →
      TopoInv g L (topo_loop g lifo fuel aux work out).1 []
        (topo_loop g lifo fuel aux work out).2 := by
  intro fuel
  induction fuel with
  | zero =>
    intro aux work out _ hpot
    omega
  | succ f ih =>
    intro aux work out hinv hpot
    cases work with
    | nil =>
      simp only [topo_loop, pop_commit]
      exact hinv
    | cons wi work' =>
      simp only [topo_loop, pop_commit]
      cases hemit : topo_emit g lifo aux work' (g.parents wi) with
      | mk aux2 work2 =>
        obtain ⟨hinv', hdrop⟩ :=
          topo_step g lifo L hnd aux wi work' out aux2 work2 hemit hinv
        simp only []
        exact ih (updAux aux2 wi none) work2 (out ++ [wi]) hinv' (by omega)

/-- The two setup passes (indegree count, zero-indegree work queue)
establish the invariant with nothing emitted. -/
theorem topo_init (g : Graph) (L : List Nat) (work : List Nat)
    (hw : ∀ q, q ∈ work ↔ q ∈ L ∧
      topo_count g (fun n => if n ∈ L then some 0 else none) L q = some 0)
    (hwn : work.Nodup) :
    TopoInv g L (topo_count g (fun n => if n ∈ L then some 0 else none) L)
      work [] := by
  have haux1 : ∀ n, topo_count g (fun n => if n ∈ L then some 0 else none) L n
      = if n ∈ L then some (sumDeg g L n) else none := by
    intro n
    rw [topo_count_spec]
    by_cases hn : n ∈ L
    · simp [hn]
    · simp [hn]
  refine ⟨?_, ?_, ?_, hwn, ?_, List.nodup_nil, ?_, ?_⟩
  · intro n hS
    rw [haux1 n] at hS
    by_cases hn : n ∈ L
    · exact ⟨hn, List.not_mem_nil n⟩
    · rw [if_neg hn] at hS
      simp at hS
  · intro p hpL _
    rw [haux1 p, if_pos hpL, remDeg_nil]
  · intro q hq
    have h := (hw q).mp hq
    exact h.2
  · intro p hpL _ hrd
    rw [remDeg_nil] at hrd
    refine (hw p).mpr ⟨hpL, ?_⟩
    rw [haux1 p, if_pos hpL, hrd]
  · intro c hc
    exact absurd hc (List.not_mem_nil c)
  · intro p hp
    exact absurd hp (List.not_mem_nil p)

/-- With an empty work queue the invariant forces every in-list node to
have been emitted; a rank certificate supplies the cycle-freeness. -/
theorem topo_complete (g : Graph) (L : List Nat)
    (aux : Nat → Option Nat) (out : List Nat)
    (hinv : TopoInv g L aux [] out)
    (rank : Nat → Nat)
    (hrank : ∀ c ∈ L, ∀ p ∈ g.parents c, p ∈ L → rank p < rank c) :
    ∀ p ∈ L, p ∈ out := by
  obtain ⟨i1, i3, iw0, iwn, i6, ion, isub, iord⟩ := hinv
  have key : ∀ (m : Nat), ∀ p ∈ L, (L.map rank).sum + 1 - rank p ≤ m → p ∈ out := by
    intro m
    induction m with
    | zero =>
      intro p hp hle
      exfalso
      have : rank p ≤ (L.map rank).sum :=
        List.single_le_sum (fun x _ => Nat.zero_le x) (rank p)
          (List.mem_map_of_mem rank hp)
      omega
    | succ m ih =>
      intro p hp hle
      by_contra hpout
      have hrdne : remDeg g L out p ≠ 0 := by
        intro h0
        exact (List.not_mem_nil p) (i6 p hp hpout h0)
      have hex : ∃ c ∈ L, c ∉ out ∧ p ∈ g.parents c := by
        by_contra hnone
        push_neg at hnone
        apply hrdne
        unfold remDeg
        rw [List.sum_eq_zero_iff]
        intro x hx
        rw [List.mem_map] at hx
        obtain ⟨c, hcf, hxe⟩ := hx
        rw [List.mem_filter] at hcf
        obtain ⟨hcL, hcd⟩ := hcf
        have hcout : c ∉ out := by simpa using hcd
        have hno := hnone c hcL hcout
        rw [← hxe, List.count_eq_zero]
        exact hno
      obtain ⟨c, hcL, hcout, hpc⟩ := hex
      have hlt : rank p < rank c := hrank c hcL p hpc hp
      have hrc : rank c ≤ (L.map rank).sum :=
        List.single_le_sum (fun x _ => Nat.zero_le x) (rank c)
          (List.mem_map_of_mem rank hcL)
      have hms : (L.map rank).sum + 1 - rank c ≤ m := by omega
      exact hcout (ih c hcL hms)
  intro p hp
  exact key ((L.map rank).sum + 1 - rank p) p hp le_rfl

/-- On a non-empty duplicate-free list the sorter's output is an
invariant-satisfying final state. -/
theorem sort_topo_final (g : Graph) (L : List Nat) (lifo : Bool)
    (hnd : L.Nodup) (hL : ¬ L.length = 0) :
    ∃ aux', TopoInv g L aux' [] (sort_in_topological_order g L lifo) := by
  simp only [sort_in_topological_order, sort_in_topological_order_fn, if_neg hL]
  set aux1 := topo_count g (fun n => if n ∈ L then some 0 else none) L with haux1
  set work0 := L.filter (fun c => aux1 c = some 0) with hwork0
  have hw0mem : ∀ q, q ∈ work0 ↔ q ∈ L ∧ aux1 q = some 0 := by
    intro q
    rw [hwork0, List.mem_filter]
    simp
  have hw0nd : work0.Nodup := hnd.filter _
  have hinv0 : TopoInv g L aux1
      (if lifo then work0 else sort_by_date g.date work0) [] := by
    by_cases hl : lifo
    · rw [if_pos hl]
      exact topo_init g L work0 hw0mem hw0nd
    · rw [if_neg hl]
      refine topo_init g L _ ?_ ?_
      · intro q
        rw [(sort_by_date_perm g.date work0).mem_iff]
        exact hw0mem q
      · exact (sort_by_date_perm g.date work0).nodup_iff.mpr hw0nd
  have hpot : topoPotential L aux1 < L.length + 1 := by
    have : (L.filter fun n => (aux1 n).isSome).length ≤ L.length :=
      List.length_filter_le _ _
    unfold topoPotential
    omega
  exact ⟨_, topo_loop_run g lifo L hnd (L.length + 1) aux1
    (if lifo then work0 else sort_by_date g.date work0) [] hinv0 hpot⟩

/-- Descendant-to-ancestor reachability through parent edges whose two
endpoints both lie in `L`. -/
def ReachWithin (g : Graph) (L : List Nat) : Nat → Nat → Prop :=
  Relation.TransGen fun x y => y ∈ g.parents x ∧ x ∈ L ∧ y ∈ L

/-- C2: after `sort_in_topological_order(L, lifo)` on a duplicate-free,
cycle-free list (cycle-freeness witnessed by a rank certificate on
in-list parent edges), the output permutes the input, every child
appears before each of its in-list parents, and for every pair of
positions i < j the entry at j is not a descendant of the entry at i
via parent edges that stay within the list. -/
theorem c2_topo_order (g : Graph) (L : List Nat) (lifo : Bool)
    (hnd : L.Nodup) (rank : Nat → Nat)
    (hrank : ∀ c ∈ L, ∀ p ∈ g.parents c, p ∈ L → rank p < rank c) :
    (sort_in_topological_order g L lifo).Perm L ∧
    (∀ c ∈ L, ∀ p ∈ g.parents c, p ∈ L →
      (sort_in_topological_order g L lifo).indexOf c
        < (sort_in_topological_order g L lifo).indexOf p) ∧
    (∀ i j : Fin (sort_in_topological_order g L lifo).length, i < j →
      ¬ ReachWithin g L ((sort_in_topological_order g L lifo).get j)
        ((sort_in_topological_order g L lifo).get i)) := by
  by_cases hL : L.length = 0
  · have hnil0 : L = [] := List.length_eq_zero.mp hL
    subst hnil0
    have hnil : sort_in_topological_order g [] lifo = [] := rfl
    refine ⟨?_, ?_, ?_⟩
    · rw [hnil]
    · intro c hc
      exact absurd hc (List.not_mem_nil c)
    · intro i j _ _
      have hi := i.isLt
      have hlen : (sort_in_topological_order g [] lifo).length = 0 := by
        simp [hnil]
      omega
  · obtain ⟨aux', hinv⟩ := sort_topo_final g L lifo hnd hL
    have hcomp := topo_complete g L aux' _ hinv rank hrank
    obtain ⟨i1, i3, iw0, iwn, i6, ion, isub, iord⟩ := hinv
    set out := sort_in_topological_order g L lifo with hout
    have hedge : ∀ c ∈ L, ∀ p ∈ g.parents c, p ∈ L →
        out.indexOf c < out.indexOf p := by
      intro c hcL p hpc hpL
      exact (iord p (hcomp p hpL) c hcL hpc).2
    refine ⟨?_, hedge, ?_⟩
    · exact (List.perm_ext_iff_of_nodup ion hnd).mpr fun a => ⟨isub a, hcomp a⟩
    · intro i j hij hre
      have hkey : ∀ a b, ReachWithin g L a b → out.indexOf a < out.indexOf b := by
        intro a b hr
        induction hr with
        | single h => exact hedge _ h.2.1 _ h.1 h.2.2
        | tail hab hbc ih =>
          exact lt_trans ih (hedge _ hbc.2.1 _ hbc.1 hbc.2.2)
      have hidx := hkey _ _ hre
      rw [List.get_indexOf ion, List.get_indexOf ion] at hidx
      rw [Fin.lt_def] at hij
      omega

/-- A three-commit chain exercising the topological sorter. -/
def exTopoGraph : Graph :=
  { nodes := [0, 1, 2]
  , parents := fun n => if n = 0 then [1] else if n = 1 then [2] else []
  , date := fun n => n }

/-- The sorter's guarantees, instantiated on the three-commit chain. -/
theorem c2_topo_order_witness :
    (([0, 1, 2] : List Nat).Nodup ∧
      (∀ c ∈ ([0, 1, 2] : List Nat), ∀ p ∈ exTopoGraph.parents c,
        p ∈ ([0, 1, 2] : List Nat) → 2 - p < 2 - c)) ∧
    ((sort_in_topological_order exTopoGraph [0, 1, 2] true).Perm [0, 1, 2] ∧
      (∀ c ∈ ([0, 1, 2] : List Nat), ∀ p ∈ exTopoGraph.parents c,
        p ∈ ([0, 1, 2] : List Nat) →
        (sort_in_topological_order exTopoGraph [0, 1, 2] true).indexOf c
          < (sort_in_topological_order exTopoGraph [0, 1, 2] true).indexOf p) ∧
      (∀ i j : Fin (sort_in_topological_order exTopoGraph [0, 1, 2] true).length,
        i < j →
        ¬ ReachWithin exTopoGraph [0, 1, 2]
          ((sort_in_topological_order exTopoGraph [0, 1, 2] true).get j)
          ((sort_in_topological_order exTopoGraph [0, 1, 2] true).get i))) :=
  ⟨⟨by decide, by decide⟩,
    c2_topo_order exTopoGraph [0, 1, 2] true (by decide) (fun n => 2 - n)
      (by decide)⟩

/-- The four algorithm-reserved flag bits PARENT1 (1<<16), PARENT2
(1<<17), STALE (1<<18) and RESULT (1<<19).  Bits #0..15 belong to the
callers and are never touched by the merge-base engine (`all_flags`
masks exactly these four), so the reserved part of `object.flags` is
modelled as a record of four independent bits. -/
structure FlagSet where
  p1 : Bool
  p2 : Bool
  stale : Bool
  result : Bool
deriving DecidableEq

/-- The all-clear flag state (no reserved bit set). -/
def mbClean : FlagSet := ⟨false, false, false, false⟩

/-- `a | b` on the four reserved bits. -/
def FlagSet.union (a b : FlagSet) : FlagSet :=
  ⟨a.p1 || b.p1, a.p2 || b.p2, a.stale || b.stale, a.result || b.result⟩

/-- `(b & a) == a`: every bit of `a` is set in `b`. -/
def FlagSet.subsetOf (a b : FlagSet) : Bool :=
  (!a.p1 || b.p1) && (!a.p2 || b.p2) && (!a.stale || b.stale)
    && (!a.result || b.result)

/-- `flags & all_flags` is nonzero. -/
def mbAny (f : FlagSet) : Bool := f.p1 || f.p2 || f.stale || f.result

/-- Point update of a flag map. -/
def updFlags (m : Nat → FlagSet) (k : Nat) (v : FlagSet) : Nat → FlagSet :=
  fun n => if n = k then v else m n

/-- `interesting(list)`: some list entry is not STALE. -/
def interesting (flags : Nat → FlagSet) : List Nat → Bool
  | [] => false
  | c :: cs => if (flags c).stale then interesting flags cs else true

/-- The parent scan of `merge_bases`: each parent not already carrying
all of `fl` gets `fl` or-ed in and is inserted into the date-ordered
list (`parse_commit` on it is a no-op in the parsed-graph model). -/
def mbScan (g : Graph) (fl : FlagSet) :
    (Nat → FlagSet) → List Nat → List Nat → (Nat → FlagSet) × List Nat
  | flags, list, [] => (flags, list)
  | flags, list, p :: ps =>
    if fl.subsetOf (flags p) then mbScan g fl flags list ps
    else mbScan g fl (updFlags flags p ((flags p).union fl))
      (insert_by_date g.date p list) ps

/-- The `while (interesting(list))` loop of `merge_bases`: pop the head,
record a PARENT1|PARENT2 node as RESULT and make the propagated flags
STALE, then scan its parents. -/
def mbLoop (g : Graph) :
    Nat → (Nat → FlagSet) → List Nat → List Nat → (Nat → FlagSet) × List Nat
  | 0, flags, _, result => (flags, result)
  | fuel + 1, flags, list, result =>
    if interesting flags list then
      match list with
      | [] => (flags, result)
      | commit :: rest =>
        let f0 := flags commit
        if f0.p1 && f0.p2 && !f0.stale then
          let flags1 := if f0.result then flags
            else updFlags flags commit ⟨f0.p1, f0.p2, f0.stale, true⟩
          let result1 := if f0.result then result
            else insert_by_date g.date commit result
          match mbScan g ⟨f0.p1, f0.p2, true, false⟩ flags1 rest
              (g.parents commit) with
          | (flags2, list2) => mbLoop g fuel flags2 list2 result1
        else
          match mbScan g ⟨f0.p1, f0.p2, f0.stale, false⟩ flags rest
              (g.parents commit) with
          | (flags2, list2) => mbLoop g fuel flags2 list2 result
    else (flags, result)

/-- The cleanup pass at the end of `merge_bases`: keep the non-STALE
result entries, re-inserted by date. -/
def mbFilter (g : Graph) (flags : Nat → FlagSet) :
    List Nat → List Nat → List Nat
  | [], acc => acc
  | c :: cs, acc =>
    mbFilter g flags cs
      (if (flags c).stale then acc else insert_by_date g.date c acc)

/-- Fuel ample for `mbLoop`: every iteration pops one entry and every
insertion strictly raises a parent's 3-bit flag count, so the measure
`|list| + Σ (3 - popcount3)` bounds the iteration count. -/
def mbFuel (g : Graph) : Nat := 3 * g.nodes.length + 3

/-- `merge_bases(one, two)`: identical endpoints short-circuit (no flag
is set); otherwise mark PARENT1/PARENT2, seed the list and run the
traversal, then drop STALE results. -/
def merge_bases (g : Graph) (flags : Nat → FlagSet) (one two : Nat) :
    (Nat → FlagSet) × List Nat :=
  if one = two then (flags, [one])
  else
    let flagsA := updFlags flags one { flags one with p1 := true }
    let flagsB := updFlags flagsA two { flagsA two with p2 := true }
    let list0 := insert_by_date g.date two (insert_by_date g.date one [])
    match mbLoop g (mbFuel g) flagsB list0 [] with
    | (flagsC, res) => (flagsC, mbFilter g flagsC res [])

/-- Recursion depth ample for `clear_commit_marks`: along any call chain
every entered node was flagged and is cleared on entry, so the depth is
bounded by the flagged population. -/
def ccmFuel (g : Graph) : Nat := g.nodes.length + 2

/-- `clear_commit_marks(commit, all_flags)`: clear the four reserved
bits on the node, then recurse into each parent that still carries any
of them. -/
def clear_commit_marks (g : Graph) :
    Nat → (Nat → FlagSet) → Nat → (Nat → FlagSet)
  | 0, flags, _ => flags
  | fuel + 1, flags, commit =>
    (g.parents commit).foldl
      (fun fl p => if mbAny (fl p) then clear_commit_marks g fuel fl p else fl)
      (updFlags flags commit mbClean)

/-- One body of the pairwise reduction of `get_merge_bases`: if slots
`i` and `j` still hold commits, compute their merge bases, clear the
marks, and null every slot among the two whose commit shows up. -/
def pairStep (g : Graph) (st : (Nat → FlagSet) × List (Option Nat))
    (i j : Nat) : (Nat → FlagSet) × List (Option Nat) :=
  match st.2.getD i none, st.2.getD j none with
  | some a, some b =>
    match merge_bases g st.1 a b with
    | (flags1, res2) =>
      let flags2 := clear_commit_marks g (ccmFuel g)
        (clear_commit_marks g (ccmFuel g) flags1 a) b
      let rslt1 := if a ∈ res2 then st.2.set i none else st.2
      let rslt2 := if b ∈ res2 then rslt1.set j none else rslt1
      (flags2, rslt2)
  | _, _ => st

/-- `get_merge_bases(one, two, cleanup)`: one `merge_bases` run;
identical endpoints and 0- or 1-element results return directly (with
marks cleared when `cleanup`); otherwise the marks are cleared and every
pair of candidates is reduced, the surviving slots being re-inserted by
date. -/
def get_merge_bases (g : Graph) (flags : Nat → FlagSet) (one two : Nat)
    (cleanup : Bool) : (Nat → FlagSet) × List Nat :=
  match merge_bases g flags one two with
  | (flags1, result) =>
    if one = two then (flags1, result)
    else if result.length ≤ 1 then
      if cleanup then
        (clear_commit_marks g (ccmFuel g)
          (clear_commit_marks g (ccmFuel g) flags1 one) two, result)
      else (flags1, result)
    else
      let cnt := result.length
      let flags2 := clear_commit_marks g (ccmFuel g)
        (clear_commit_marks g (ccmFuel g) flags1 one) two
      match (List.range (cnt - 1)).foldl
          (fun st i => (List.range' (i + 1) (cnt - 1 - i)).foldl
            (fun st2 j => pairStep g st2 i j) st)
          (flags2, result.map some) with
      | (flags3, rslt) =>
        (flags3, rslt.foldl
          (fun acc x => match x with
            | some v => insert_by_date g.date v acc
            | none => acc) [])

/-- Ancestor reachability: `Reach g a b` holds when following parent
edges from `a` reaches `b` (every commit is its own ancestor). -/
def Reach (g : Graph) : Nat → Nat → Prop :=
  Relation.ReflTransGen fun a b => b ∈ g.parents a

/-- Proper-ancestor reachability (at least one parent edge). -/
def ReachP (g : Graph) : Nat → Nat → Prop :=
  Relation.TransGen fun a b => b ∈ g.parents a

/-- The graph's node list is closed under parent edges. -/
def ParentsClosed (g : Graph) : Prop :=
  ∀ n ∈ g.nodes, ∀ p ∈ g.parents n, p ∈ g.nodes

/-- A rank certificate: parents rank strictly below their children.
Its existence makes the parent graph cycle-free. -/
def RankCert (g : Graph) (rank : Nat → Nat) : Prop :=
  ∀ c ∈ g.nodes, ∀ p ∈ g.parents c, rank p < rank c

theorem reach_mem (g : Graph) (hc : ParentsClosed g) {a b : Nat}
    (ha : a ∈ g.nodes) (h : Reach g a b) : b ∈ g.nodes := by
  induction h with
  | refl => exact ha
  | tail hxy hyz ih => exact hc _ ih _ hyz

theorem reach_rank_le (g : Graph) (rank : Nat → Nat) (hc : ParentsClosed g)
    (hrank : RankCert g rank) {a b : Nat} (ha : a ∈ g.nodes)
    (h : Reach g a b) : rank b ≤ rank a := by
  induction h with
  | refl => exact le_rfl
  | tail hxy hyz ih =>
    have hx := reach_mem g hc ha hxy
    exact le_trans (le_of_lt (hrank _ hx _ hyz)) ih

theorem reachP_rank_lt (g : Graph) (rank : Nat → Nat) (hc : ParentsClosed g)
    (hrank : RankCert g rank) {a b : Nat} (ha : a ∈ g.nodes)
    (h : ReachP g a b) : rank b < rank a := by
  induction h with
  | single hxy => exact hrank _ ha _ hxy
  | tail hxy hyz ih =>
    have hx : _ ∈ g.nodes :=
      reach_mem g hc ha (Relation.TransGen.to_reflTransGen hxy)
    exact lt_trans (hrank _ hx _ hyz) ih

theorem reach_to_reachP (g : Graph) {a b : Nat} (h : Reach g a b)
    (hne : a ≠ b) : ReachP g a b := by
  rcases (Relation.reflTransGen_iff_eq_or_transGen.mp h) with he | ht
  · exact absurd he.symm hne
  · exact ht

theorem reach_antisym (g : Graph) (rank : Nat → Nat) (hc : ParentsClosed g)
    (hrank : RankCert g rank) {a b : Nat} (ha : a ∈ g.nodes)
    (hab : Reach g a b) (hba : Reach g b a) : a = b := by
  by_contra hne
  have h1 := reachP_rank_lt g rank hc hrank ha (reach_to_reachP g hab hne)
  have hb := reach_mem g hc ha hab
  have h2 := reach_rank_le g rank hc hrank hb hba
  omega

/-- The three propagated bits (PARENT1, PARENT2, STALE) set in `f`. -/
def pc3 (f : FlagSet) : Nat :=
  (if f.p1 then 1 else 0) + (if f.p2 then 1 else 0) + (if f.stale then 1 else 0)

theorem subsetOf_union (a fl : FlagSet) : fl.subsetOf (a.union fl) = true := by
  cases a with
  | mk a1 a2 a3 a4 =>
    cases fl with
    | mk b1 b2 b3 b4 => revert a1 a2 a3 a4 b1 b2 b3 b4; decide

theorem subsetOf_union_left (a fl : FlagSet) : a.subsetOf (a.union fl) = true := by
  cases a with
  | mk a1 a2 a3 a4 =>
    cases fl with
    | mk b1 b2 b3 b4 => revert a1 a2 a3 a4 b1 b2 b3 b4; decide

theorem subsetOf_refl (a : FlagSet) : a.subsetOf a = true := by
  cases a with
  | mk a1 a2 a3 a4 => revert a1 a2 a3 a4; decide

theorem subsetOf_trans {a b c : FlagSet} (h1 : a.subsetOf b = true)
    (h2 : b.subsetOf c = true) : a.subsetOf c = true := by
  cases a with
  | mk a1 a2 a3 a4 =>
    cases b with
    | mk b1 b2 b3 b4 =>
      cases c with
      | mk c1 c2 c3 c4 =>
        revert a1 a2 a3 a4 b1 b2 b3 b4 c1 c2 c3 c4 h1 h2
        decide

theorem pc3_union_lt (a fl : FlagSet) (hres : fl.result = false)
    (hsub : fl.subsetOf a = false) : pc3 a + 1 ≤ pc3 (a.union fl) := by
  cases a with
  | mk a1 a2 a3 a4 =>
    cases fl with
    | mk b1 b2 b3 b4 =>
      revert a1 a2 a3 a4 b1 b2 b3 b4 hres hsub
      decide

theorem pc3_le_three (a : FlagSet) : pc3 a ≤ 3 := by
  cases a with
  | mk a1 a2 a3 a4 => revert a1 a2 a3 a4; decide

theorem subsetOf_bits {a b : FlagSet} (h : a.subsetOf b = true) :
    (a.p1 = true → b.p1 = true) ∧ (a.p2 = true → b.p2 = true) ∧
    (a.stale = true → b.stale = true) ∧ (a.result = true → b.result = true) := by
  cases a with
  | mk a1 a2 a3 a4 =>
    cases b with
    | mk b1 b2 b3 b4 => revert a1 a2 a3 a4 b1 b2 b3 b4 h; decide

theorem subsetOf_clean_ne {a b : FlagSet} (h : a.subsetOf b = true)
    (hne : a ≠ mbClean) : b ≠ mbClean := by
  cases a with
  | mk a1 a2 a3 a4 =>
    cases b with
    | mk b1 b2 b3 b4 => revert a1 a2 a3 a4 b1 b2 b3 b4 h hne; decide

/-- What the parent scan does to the flag map: each scanned node that
did not already carry all of `fl` now carries the union; the list gains
exactly the bumped nodes. -/
theorem mbScan_spec (g : Graph) (fl : FlagSet) :
    ∀ (ps : List Nat) (flags : Nat → FlagSet) (list : List Nat),
      (∀ n, (mbScan g fl flags list ps).1 n =
        if n ∈ ps ∧ fl.subsetOf (flags n) = false then (flags n).union fl
        else flags n) ∧
      (∀ q, q ∈ (mbScan g fl flags list ps).2 ↔
        q ∈ list ∨ (q ∈ ps ∧ fl.subsetOf (flags q) = false)) := by
  intro ps
  induction ps with
  | nil =>
    intro flags list
    constructor
    · intro n
      simp [mbScan]
    · intro q
      simp [mbScan]
  | cons p ps' ih =>
    intro flags list
    rw [mbScan]
    by_cases hsub : fl.subsetOf (flags p) = true
    · rw [if_pos hsub]
      obtain ⟨e1, e2⟩ := ih flags list
      constructor
      · intro n
        rw [e1 n]
        by_cases hnp : n = p
        · rw [if_neg, if_neg]
          · intro hcon
            rw [hnp] at hcon
            rw [hsub] at hcon
            simp at hcon
          · intro hcon
            rw [hnp] at hcon
            rw [hsub] at hcon
            simp at hcon
        · by_cases hmem : n ∈ ps' ∧ fl.subsetOf (flags n) = false
          · rw [if_pos hmem, if_pos ⟨List.mem_cons_of_mem p hmem.1, hmem.2⟩]
          · rw [if_neg hmem, if_neg]
            intro hcon
            rcases List.mem_cons.mp hcon.1 with h | h
            · exact hnp h
            · exact hmem ⟨h, hcon.2⟩
      · intro q
        rw [e2 q]
        constructor
        · rintro (h | h)
          · exact Or.inl h
          · exact Or.inr ⟨List.mem_cons_of_mem p h.1, h.2⟩
        · rintro (h | h)
          · exact Or.inl h
          · rcases List.mem_cons.mp h.1 with hc | hc
            · exfalso
              have h2 := h.2
              rw [hc] at h2
              rw [hsub] at h2
              simp at h2
            · exact Or.inr ⟨hc, h.2⟩
    · rw [if_neg hsub]
      rw [Bool.not_eq_true] at hsub
      obtain ⟨e1, e2⟩ := ih (updFlags flags p ((flags p).union fl))
        (insert_by_date g.date p list)
      constructor
      · intro n
        rw [e1 n]
        by_cases hnp : n = p
        · have hupd : updFlags flags p ((flags p).union fl) n
              = (flags p).union fl := by
            unfold updFlags
            rw [if_pos hnp]
          have hA : ¬ (n ∈ ps' ∧ fl.subsetOf ((flags p).union fl) = false) := by
            intro hcon
            rw [subsetOf_union] at hcon
            exact absurd hcon.2 (by simp)
          have hB : n ∈ p :: ps' ∧ fl.subsetOf (flags n) = false :=
            ⟨by rw [hnp]; exact List.mem_cons_self p ps',
             by rw [hnp]; exact hsub⟩
          rw [hupd, if_neg hA, if_pos hB, hnp]
        · have hupd : updFlags flags p ((flags p).union fl) n = flags n := by
            unfold updFlags
            rw [if_neg hnp]
          rw [hupd]
          by_cases hmem : n ∈ ps' ∧ fl.subsetOf (flags n) = false
          · rw [if_pos hmem, if_pos ⟨List.mem_cons_of_mem p hmem.1, hmem.2⟩]
          · rw [if_neg hmem, if_neg]
            intro hcon
            rcases List.mem_cons.mp hcon.1 with h | h
            · exact hnp h
            · exact hmem ⟨h, hcon.2⟩
      · intro q
        rw [e2 q, mem_insert_by_date]
        by_cases hqp : q = p
        · constructor
          · intro _
            refine Or.inr ⟨?_, ?_⟩
            · rw [hqp]
              exact List.mem_cons_self p ps'
            · rw [hqp]
              exact hsub
          · intro _
            exact Or.inl (Or.inl hqp)
        · have hupd : updFlags flags p ((flags p).union fl) q = flags q := by
            unfold updFlags
            rw [if_neg hqp]
          rw [hupd]
          constructor
          · rintro ((h | h) | h)
            · exact absurd h hqp
            · exact Or.inl h
            · exact Or.inr ⟨List.mem_cons_of_mem p h.1, h.2⟩
          · rintro (h | h)
            · exact Or.inl (Or.inr h)
            · rcases List.mem_cons.mp h.1 with hc | hc
              · exact absurd hc hqp
              · exact Or.inr ⟨hc, h.2⟩

/-- A parent chain from `s` to `n` whose every node after `s` still
carries some reserved bit: the shape `clear_commit_marks` can follow. -/
def ChainFlagged (g : Graph) (flags : Nat → FlagSet) (s n : Nat) : Prop :=
  Relation.ReflTransGen (fun a b => b ∈ g.parents a ∧ flags b ≠ mbClean) s n

theorem chain_mono (g : Graph) {flags flags' : Nat → FlagSet}
    (h : ∀ m, flags m ≠ mbClean → flags' m ≠ mbClean) {s n : Nat}
    (hc : ChainFlagged g flags s n) : ChainFlagged g flags' s n := by
  induction hc with
  | refl => exact Relation.ReflTransGen.refl
  | tail hxy hyz ih =>
    exact Relation.ReflTransGen.tail ih ⟨hyz.1, h _ hyz.2⟩

theorem chain_snoc (g : Graph) {flags : Nat → FlagSet} {s a b : Nat}
    (hc : ChainFlagged g flags s a) (hab : b ∈ g.parents a)
    (hb : flags b ≠ mbClean) : ChainFlagged g flags s b :=
  Relation.ReflTransGen.tail hc ⟨hab, hb⟩

theorem length_insert_by_date (date : Nat → Nat) (item : Nat) :
    ∀ l : List Nat, (insert_by_date date item l).length = l.length + 1 := by
  intro l
  induction l with
  | nil => rfl
  | cons x xs ih =>
    rw [insert_by_date]
    by_cases h : date x < date item
    · rw [if_pos h]
      rfl
    · rw [if_neg h, List.length_cons, List.length_cons, ih]

theorem nodup_insert_by_date (date : Nat → Nat) (item : Nat) (l : List Nat)
    (hmem : item ∉ l) (hnd : l.Nodup) : (insert_by_date date item l).Nodup := by
  refine (insert_by_date_perm date item l).nodup_iff.mpr ?_
  rw [List.nodup_cons]
  exact ⟨hmem, hnd⟩

theorem subsetOf_set_result (a : FlagSet) :
    a.subsetOf ⟨a.p1, a.p2, a.stale, true⟩ = true := by
  cases a with
  | mk a1 a2 a3 a4 => revert a1 a2 a3 a4; decide

/-- The loop invariant of `merge_bases(one, two)` over state
(flag map, date-ordered work list, result list). -/
structure MBInv (g : Graph) (one two : Nat) (flags : Nat → FlagSet)
    (list result : List Nat) : Prop where
  m1 : ∀ n, (flags n).p1 = true → Reach g one n
  m2 : ∀ n, (flags n).p2 = true → Reach g two n
  m3 : ∀ n, (flags n).stale = true →
    ∃ o, (flags o).p1 = true ∧ (flags o).p2 = true ∧ ReachP g o n
  m4 : ∀ n, (flags n).result = true →
    (flags n).p1 = true ∧ (flags n).p2 = true
  m5 : ∀ n, (flags n).result = true ↔ n ∈ result
  m5nd : result.Nodup
  m6a : (flags one).p1 = true
  m6b : (flags two).p2 = true
  m7a : ∀ n ∈ list, n ∈ g.nodes
  m7b : ∀ n, flags n ≠ mbClean → n ∈ g.nodes
  lf : ∀ n ∈ list, flags n ≠ mbClean
  ch : ∀ n, flags n ≠ mbClean →
    ChainFlagged g flags one n ∨ ChainFlagged g flags two n
  w2 : ∀ n, (flags n).p2 = true → (flags n).stale = false →
    n ∈ list ∨ ((∀ p ∈ g.parents n, (flags p).p2 = true)
      ∧ (flags n).p1 = false) ∨ (flags n).result = true
  w1 : ∀ n, (flags n).p1 = true → (flags n).stale = false →
    n ∈ list ∨ ((∀ p ∈ g.parents n, (flags p).p1 = true)
      ∧ (flags n).p2 = false) ∨ (flags n).result = true

/-- Marking the popped PARENT1|PARENT2 node RESULT and inserting it into
the result list preserves the invariant. -/
theorem mb_mark_result (g : Graph) (one two c : Nat)
    (flags : Nat → FlagSet) (rest result : List Nat)
    (hinv : MBInv g one two flags (c :: rest) result)
    (hp1 : (flags c).p1 = true) (hp2 : (flags c).p2 = true)
    (hres : (flags c).result = false) :
    MBInv g one two
      (updFlags flags c ⟨(flags c).p1, (flags c).p2, (flags c).stale, true⟩)
      (c :: rest) (insert_by_date g.date c result) := by
  set v : FlagSet := ⟨(flags c).p1, (flags c).p2, (flags c).stale, true⟩ with hv
  have hgrow : ∀ n, (flags n).subsetOf (updFlags flags c v n) = true := by
    intro n
    unfold updFlags
    by_cases hn : n = c
    · rw [if_pos hn, hv, hn]
      exact subsetOf_set_result (flags c)
    · rw [if_neg hn]
      exact subsetOf_refl (flags n)
  have hbits : ∀ n,
      ((updFlags flags c v n).p1 = (flags n).p1) ∧
      ((updFlags flags c v n).p2 = (flags n).p2) ∧
      ((updFlags flags c v n).stale = (flags n).stale) := by
    intro n
    unfold updFlags
    by_cases hn : n = c
    · rw [if_pos hn, hv, hn]
      exact ⟨rfl, rfl, rfl⟩
    · rw [if_neg hn]
      exact ⟨rfl, rfl, rfl⟩
  have hne : ∀ n, flags n ≠ mbClean → updFlags flags c v n ≠ mbClean :=
    fun n h => subsetOf_clean_ne (hgrow n) h
  refine ⟨?_, ?_, ?_, ?_, ?_, ?_, ?_, ?_, hinv.m7a, ?_, ?_, ?_, ?_, ?_⟩
  · intro n h
    rw [(hbits n).1] at h
    exact hinv.m1 n h
  · intro n h
    rw [(hbits n).2.1] at h
    exact hinv.m2 n h
  · intro n h
    rw [(hbits n).2.2] at h
    obtain ⟨o, h1, h2, h3⟩ := hinv.m3 n h
    exact ⟨o, by rw [(hbits o).1]; exact h1, by rw [(hbits o).2.1]; exact h2, h3⟩
  · intro n h
    rw [(hbits n).1, (hbits n).2.1]
    unfold updFlags at h
    by_cases hn : n = c
    · rw [hn]
      exact ⟨hp1, hp2⟩
    · rw [if_neg hn] at h
      exact hinv.m4 n h
  · intro n
    rw [mem_insert_by_date]
    unfold updFlags
    by_cases hn : n = c
    · rw [if_pos hn]
      simp [hv, hn]
    · rw [if_neg hn]
      rw [hinv.m5 n]
      constructor
      · intro h
        exact Or.inr h
      · rintro (h | h)
        · exact absurd h hn
        · exact h
  · refine nodup_insert_by_date g.date c result ?_ hinv.m5nd
    intro hmem
    rw [← hinv.m5 c] at hmem
    rw [hres] at hmem
    cases hmem
  · rw [(hbits one).1]
    exact hinv.m6a
  · rw [(hbits two).2.1]
    exact hinv.m6b
  · intro n h
    by_cases hn : n = c
    · subst hn
      exact hinv.m7b n (by
        intro hcl
        rw [hcl] at hp1
        cases hp1)
    · refine hinv.m7b n ?_
      unfold updFlags at h
      rw [if_neg hn] at h
      exact h
  · intro n hmem
    exact hne n (hinv.lf n hmem)
  · intro n h
    by_cases hn : n = c
    · subst hn
      have hfc : flags n ≠ mbClean := by
        intro hcl
        rw [hcl] at hp1
        cases hp1
      rcases hinv.ch n hfc with hch | hch
      · exact Or.inl (chain_mono g hne hch)
      · exact Or.inr (chain_mono g hne hch)
    · have h' : flags n ≠ mbClean := by
        unfold updFlags at h
        rw [if_neg hn] at h
        exact h
      rcases hinv.ch n h' with hch | hch
      · exact Or.inl (chain_mono g hne hch)
      · exact Or.inr (chain_mono g hne hch)
  · intro n h2 hst
    rw [(hbits n).2.1] at h2
    rw [(hbits n).2.2] at hst
    by_cases hn : n = c
    · refine Or.inr (Or.inr ?_)
      subst hn
      unfold updFlags
      rw [if_pos rfl]
    · rcases hinv.w2 n h2 hst with h | ⟨ha, hb⟩ | h
      · exact Or.inl h
      · refine Or.inr (Or.inl ⟨?_, ?_⟩)
        · intro p hp
          rw [(hbits p).2.1]
          exact ha p hp
        · rw [(hbits n).1]
          exact hb
      · refine Or.inr (Or.inr ?_)
        unfold updFlags
        rw [if_neg hn]
        exact h
  · intro n h1 hst
    rw [(hbits n).1] at h1
    rw [(hbits n).2.2] at hst
    by_cases hn : n = c
    · refine Or.inr (Or.inr ?_)
      subst hn
      unfold updFlags
      rw [if_pos rfl]
    · rcases hinv.w1 n h1 hst with h | ⟨ha, hb⟩ | h
      · exact Or.inl h
      · refine Or.inr (Or.inl ⟨?_, ?_⟩)
        · intro p hp
          rw [(hbits p).1]
          exact ha p hp
        · rw [(hbits n).2.1]
          exact hb
      · refine Or.inr (Or.inr ?_)
        unfold updFlags
        rw [if_neg hn]
        exact h

theorem union_p1 (a b : FlagSet) : (a.union b).p1 = (a.p1 || b.p1) := rfl

theorem union_p2 (a b : FlagSet) : (a.union b).p2 = (a.p2 || b.p2) := rfl

theorem union_stale (a b : FlagSet) : (a.union b).stale = (a.stale || b.stale) := rfl

theorem union_result (a b : FlagSet) : (a.union b).result = (a.result || b.result) := rfl

/-- The parent scan of one popped node preserves the invariant, given
that the propagated template `fl` is justified by the popped node. -/
theorem mb_scan_pres (g : Graph) (one two c : Nat)
    (flags : Nat → FlagSet) (rest result : List Nat) (fl : FlagSet)
    (hinv : MBInv g one two flags (c :: rest) result)
    (hclos : ParentsClosed g)
    (hA : fl.p1 = true → Reach g one c)
    (hB : fl.p2 = true → Reach g two c)
    (hC : fl.stale = true →
      ∃ o, (flags o).p1 = true ∧ (flags o).p2 = true ∧ Reach g o c)
    (hD : fl ≠ mbClean)
    (hE : fl.result = false)
    (hW2c : (flags c).result = true ∨ ((flags c).p2 = true →
      (flags c).stale = false → (flags c).p1 = false ∧ fl.p2 = true))
    (hW1c : (flags c).result = true ∨ ((flags c).p1 = true →
      (flags c).stale = false → (flags c).p2 = false ∧ fl.p1 = true)) :
    MBInv g one two (mbScan g fl flags rest (g.parents c)).1
      (mbScan g fl flags rest (g.parents c)).2 result := by
  obtain ⟨e1, e2⟩ := mbScan_spec g fl (g.parents c) flags rest
  have hcnodes : c ∈ g.nodes := hinv.m7a c (List.mem_cons_self c rest)
  have hgrow : ∀ n,
      (flags n).subsetOf ((mbScan g fl flags rest (g.parents c)).1 n) = true := by
    intro n
    rw [e1 n]
    by_cases h : n ∈ g.parents c ∧ fl.subsetOf (flags n) = false
    · rw [if_pos h]
      exact subsetOf_union_left _ _
    · rw [if_neg h]
      exact subsetOf_refl _
  have hne : ∀ n, flags n ≠ mbClean →
      (mbScan g fl flags rest (g.parents c)).1 n ≠ mbClean :=
    fun n h => subsetOf_clean_ne (hgrow n) h
  have hkeep : ∀ n,
      ((flags n).p1 = true → ((mbScan g fl flags rest (g.parents c)).1 n).p1 = true) ∧
      ((flags n).p2 = true → ((mbScan g fl flags rest (g.parents c)).1 n).p2 = true) ∧
      ((flags n).stale = true → ((mbScan g fl flags rest (g.parents c)).1 n).stale = true) :=
    fun n =>
      ⟨(subsetOf_bits (hgrow n)).1, (subsetOf_bits (hgrow n)).2.1,
       (subsetOf_bits (hgrow n)).2.2.1⟩
  have hres : ∀ n, ((mbScan g fl flags rest (g.parents c)).1 n).result
      = (flags n).result := by
    intro n
    rw [e1 n]
    by_cases h : n ∈ g.parents c ∧ fl.subsetOf (flags n) = false
    · rw [if_pos h, union_result, hE, Bool.or_false]
    · rw [if_neg h]
  have hp1case : ∀ n, ((mbScan g fl flags rest (g.parents c)).1 n).p1 = true →
      (flags n).p1 = true ∨ (fl.p1 = true ∧ n ∈ g.parents c) := by
    intro n h
    rw [e1 n] at h
    by_cases hb : n ∈ g.parents c ∧ fl.subsetOf (flags n) = false
    · rw [if_pos hb, union_p1] at h
      rcases Bool.or_eq_true_iff.mp h with h | h
      · exact Or.inl h
      · exact Or.inr ⟨h, hb.1⟩
    · rw [if_neg hb] at h
      exact Or.inl h
  have hp2case : ∀ n, ((mbScan g fl flags rest (g.parents c)).1 n).p2 = true →
      (flags n).p2 = true ∨ (fl.p2 = true ∧ n ∈ g.parents c) := by
    intro n h
    rw [e1 n] at h
    by_cases hb : n ∈ g.parents c ∧ fl.subsetOf (flags n) = false
    · rw [if_pos hb, union_p2] at h
      rcases Bool.or_eq_true_iff.mp h with h | h
      · exact Or.inl h
      · exact Or.inr ⟨h, hb.1⟩
    · rw [if_neg hb] at h
      exact Or.inl h
  have hstcase : ∀ n, ((mbScan g fl flags rest (g.parents c)).1 n).stale = true →
      (flags n).stale = true ∨ (fl.stale = true ∧ n ∈ g.parents c) := by
    intro n h
    rw [e1 n] at h
    by_cases hb : n ∈ g.parents c ∧ fl.subsetOf (flags n) = false
    · rw [if_pos hb, union_stale] at h
      rcases Bool.or_eq_true_iff.mp h with h | h
      · exact Or.inl h
      · exact Or.inr ⟨h, hb.1⟩
    · rw [if_neg hb] at h
      exact Or.inl h
  have hunb : ∀ n, ¬ (n ∈ g.parents c ∧ fl.subsetOf (flags n) = false) →
      (mbScan g fl flags rest (g.parents c)).1 n = flags n := by
    intro n h
    rw [e1 n, if_neg h]
  refine ⟨?_, ?_, ?_, ?_, ?_, hinv.m5nd, ?_, ?_, ?_, ?_, ?_, ?_, ?_, ?_⟩
  · intro n h
    rcases hp1case n h with h | ⟨h, hmem⟩
    · exact hinv.m1 n h
    · exact Relation.ReflTransGen.tail (hA h) hmem
  · intro n h
    rcases hp2case n h with h | ⟨h, hmem⟩
    · exact hinv.m2 n h
    · exact Relation.ReflTransGen.tail (hB h) hmem
  · intro n h
    rcases hstcase n h with h | ⟨h, hmem⟩
    · obtain ⟨o, h1, h2, h3⟩ := hinv.m3 n h
      exact ⟨o, (hkeep o).1 h1, (hkeep o).2.1 h2, h3⟩
    · obtain ⟨o, h1, h2, h3⟩ := hC h
      exact ⟨o, (hkeep o).1 h1, (hkeep o).2.1 h2,
        Relation.TransGen.tail' h3 hmem⟩
  · intro n h
    rw [hres n] at h
    obtain ⟨h1, h2⟩ := hinv.m4 n h
    exact ⟨(hkeep n).1 h1, (hkeep n).2.1 h2⟩
  · intro n
    rw [hres n]
    exact hinv.m5 n
  · exact (hkeep one).1 hinv.m6a
  · exact (hkeep two).2.1 hinv.m6b
  · intro n hmem
    rcases (e2 n).mp hmem with h | ⟨h, _⟩
    · exact hinv.m7a n (List.mem_cons_of_mem c h)
    · exact hclos c hcnodes n h
  · intro n h
    by_cases hb : n ∈ g.parents c ∧ fl.subsetOf (flags n) = false
    · exact hclos c hcnodes n hb.1
    · rw [hunb n hb] at h
      exact hinv.m7b n h
  · intro n hmem
    rcases (e2 n).mp hmem with h | ⟨h, hsub⟩
    · exact hne n (hinv.lf n (List.mem_cons_of_mem c h))
    · have : (mbScan g fl flags rest (g.parents c)).1 n = (flags n).union fl := by
        rw [e1 n, if_pos ⟨h, hsub⟩]
      rw [this]
      exact subsetOf_clean_ne (subsetOf_union (flags n) fl) hD
  · intro n h
    by_cases hfn : flags n ≠ mbClean
    · rcases hinv.ch n hfn with hch | hch
      · exact Or.inl (chain_mono g hne hch)
      · exact Or.inr (chain_mono g hne hch)
    · rw [Classical.not_not] at hfn
      by_cases hb : n ∈ g.parents c ∧ fl.subsetOf (flags n) = false
      · have hcfl : flags c ≠ mbClean := hinv.lf c (List.mem_cons_self c rest)
        rcases hinv.ch c hcfl with hch | hch
        · exact Or.inl (chain_snoc g (chain_mono g hne hch) hb.1 h)
        · exact Or.inr (chain_snoc g (chain_mono g hne hch) hb.1 h)
      · rw [hunb n hb, hfn] at h
        exact absurd rfl h
  · intro n h2 hst
    by_cases hb : n ∈ g.parents c ∧ fl.subsetOf (flags n) = false
    · exact Or.inl ((e2 n).mpr (Or.inr hb))
    · rw [hunb n hb] at h2 hst
      by_cases hnc : n = c
      · subst hnc
        rcases hW2c with h | himp
        · refine Or.inr (Or.inr ?_)
          rw [hres n]
          exact h
        · obtain ⟨hnp1, hflp2⟩ := himp h2 hst
          refine Or.inr (Or.inl ⟨?_, ?_⟩)
          · intro p hp
            by_cases hpb : p ∈ g.parents n ∧ fl.subsetOf (flags p) = false
            · have : (mbScan g fl flags rest (g.parents n)).1 p
                  = (flags p).union fl := by
                rw [e1 p, if_pos hpb]
              rw [this, union_p2, hflp2, Bool.or_true]
            · rw [hunb p hpb]
              have hsub : fl.subsetOf (flags p) = true := by
                rcases Bool.eq_false_or_eq_true (fl.subsetOf (flags p)) with h | h
                · exact h
                · exact absurd ⟨hp, h⟩ hpb
              exact (subsetOf_bits hsub).2.1 hflp2
          · rw [hunb n hb]
            exact hnp1
      · rcases hinv.w2 n h2 hst with h | ⟨ha, hp1f⟩ | h
        · rcases List.mem_cons.mp h with h | h
          · exact absurd h hnc
          · exact Or.inl ((e2 n).mpr (Or.inl h))
        · refine Or.inr (Or.inl ⟨?_, ?_⟩)
          · intro p hp
            exact (hkeep p).2.1 (ha p hp)
          · rw [hunb n hb]
            exact hp1f
        · refine Or.inr (Or.inr ?_)
          rw [hres n]
          exact h
  · intro n h1 hst
    by_cases hb : n ∈ g.parents c ∧ fl.subsetOf (flags n) = false
    · exact Or.inl ((e2 n).mpr (Or.inr hb))
    · rw [hunb n hb] at h1 hst
      by_cases hnc : n = c
      · subst hnc
        rcases hW1c with h | himp
        · refine Or.inr (Or.inr ?_)
          rw [hres n]
          exact h
        · obtain ⟨hnp2, hflp1⟩ := himp h1 hst
          refine Or.inr (Or.inl ⟨?_, ?_⟩)
          · intro p hp
            by_cases hpb : p ∈ g.parents n ∧ fl.subsetOf (flags p) = false
            · have : (mbScan g fl flags rest (g.parents n)).1 p
                  = (flags p).union fl := by
                rw [e1 p, if_pos hpb]
              rw [this, union_p1, hflp1, Bool.or_true]
            · rw [hunb p hpb]
              have hsub : fl.subsetOf (flags p) = true := by
                rcases Bool.eq_false_or_eq_true (fl.subsetOf (flags p)) with h | h
                · exact h
                · exact absurd ⟨hp, h⟩ hpb
              exact (subsetOf_bits hsub).1 hflp1
          · rw [hunb n hb]
            exact hnp2
      · rcases hinv.w1 n h1 hst with h | ⟨ha, hp2f⟩ | h
        · rcases List.mem_cons.mp h with h | h
          · exact absurd h hnc
          · exact Or.inl ((e2 n).mpr (Or.inl h))
        · refine Or.inr (Or.inl ⟨?_, ?_⟩)
          · intro p hp
            exact (hkeep p).1 (ha p hp)
          · rw [hunb n hb]
            exact hp2f
        · refine Or.inr (Or.inr ?_)
          rw [hres n]
          exact h

/-- Termination measure of the traversal: pending list length plus the
unset propagated bits over all nodes. -/
def mbPhi (g : Graph) (flags : Nat → FlagSet) (list : List Nat) : Nat :=
  list.length + ((g.nodes.map fun n => 3 - pc3 (flags n)).sum)

theorem flag_ne_clean_of_p1 (f : FlagSet) (h : f.p1 = true) : f ≠ mbClean := by
  cases f with
  | mk a1 a2 a3 a4 => revert a1 a2 a3 a4 h; decide

theorem flag_ne_clean_of_p2 (f : FlagSet) (h : f.p2 = true) : f ≠ mbClean := by
  cases f with
  | mk a1 a2 a3 a4 => revert a1 a2 a3 a4 h; decide

theorem flag_ne_clean_of_stale (f : FlagSet) (h : f.stale = true) : f ≠ mbClean := by
  cases f with
  | mk a1 a2 a3 a4 => revert a1 a2 a3 a4 h; decide

theorem ne_clean_cases (f : FlagSet) (h : f ≠ mbClean) :
    f.p1 = true ∨ f.p2 = true ∨ f.stale = true ∨ f.result = true := by
  cases f with
  | mk a1 a2 a3 a4 => revert a1 a2 a3 a4 h; decide

theorem map_pc3_congr (f f' : Nat → FlagSet)
    (h : ∀ n, pc3 (f n) = pc3 (f' n)) :
    ∀ L : List Nat, (L.map fun n => 3 - pc3 (f n))
      = L.map fun n => 3 - pc3 (f' n) := by
  intro L
  induction L with
  | nil => rfl
  | cons x xs ih =>
    rw [List.map_cons, List.map_cons, ih, h x]

theorem map_upd_not_mem (flags : Nat → FlagSet) (p : Nat) (v : FlagSet) :
    ∀ M : List Nat, p ∉ M →
      (M.map fun n => 3 - pc3 (updFlags flags p v n))
        = M.map fun n => 3 - pc3 (flags n) := by
  intro M
  induction M with
  | nil => intro _; rfl
  | cons x xs ih =>
    intro h
    have hx : x ≠ p := fun he => h (by rw [he]; exact List.mem_cons_self p xs)
    have h' : p ∉ xs := fun he => h (List.mem_cons_of_mem x he)
    rw [List.map_cons, List.map_cons, ih h']
    unfold updFlags
    rw [if_neg hx]

theorem sum_upd_flags (flags : Nat → FlagSet) (p : Nat) (v : FlagSet) :
    ∀ L : List Nat, L.Nodup → p ∈ L →
      (L.map fun n => 3 - pc3 (updFlags flags p v n)).sum + (3 - pc3 (flags p))
        = (L.map fun n => 3 - pc3 (flags n)).sum + (3 - pc3 v) := by
  intro L
  induction L with
  | nil => intro _ h; cases h
  | cons x xs ih =>
    intro hnd hp
    by_cases hxp : x = p
    · subst hxp
      have hxs : x ∉ xs := (List.nodup_cons.mp hnd).1
      rw [List.map_cons, List.map_cons, List.sum_cons, List.sum_cons,
        map_upd_not_mem flags x v xs hxs]
      unfold updFlags
      rw [if_pos rfl]
      omega
    · have hp' : p ∈ xs := by
        rcases List.mem_cons.mp hp with h | h
        · exact absurd h.symm hxp
        · exact h
      have hrec := ih (List.nodup_cons.mp hnd).2 hp'
      rw [List.map_cons, List.map_cons, List.sum_cons, List.sum_cons]
      have hx : updFlags flags p v x = flags x := by
        unfold updFlags
        rw [if_neg hxp]
      rw [hx]
      omega

theorem mbScan_phi (g : Graph) (fl : FlagSet) (hnd : g.nodes.Nodup)
    (hE : fl.result = false) :
    ∀ (ps : List Nat), (∀ p ∈ ps, p ∈ g.nodes) →
      ∀ (flags : Nat → FlagSet) (list : List Nat),
        mbPhi g (mbScan g fl flags list ps).1 (mbScan g fl flags list ps).2
          ≤ mbPhi g flags list := by
  intro ps
  induction ps with
  | nil =>
    intro _ flags list
    simp [mbScan]
  | cons p ps' ih =>
    intro hmem flags list
    have hp : p ∈ g.nodes := hmem p (List.mem_cons_self p ps')
    have hmem' : ∀ q ∈ ps', q ∈ g.nodes :=
      fun q hq => hmem q (List.mem_cons_of_mem p hq)
    rw [mbScan]
    by_cases hsub : fl.subsetOf (flags p) = true
    · rw [if_pos hsub]
      exact ih hmem' flags list
    · rw [if_neg hsub]
      rw [Bool.not_eq_true] at hsub
      refine le_trans (ih hmem' _ _) ?_
      unfold mbPhi
      rw [length_insert_by_date]
      have hsum := sum_upd_flags flags p ((flags p).union fl) g.nodes hnd hp
      have hlt := pc3_union_lt (flags p) fl hE hsub
      have hb1 := pc3_le_three (flags p)
      have hb2 := pc3_le_three ((flags p).union fl)
      omega

theorem pc3_set_result (a : FlagSet) :
    pc3 ⟨a.p1, a.p2, a.stale, true⟩ = pc3 a := rfl

/-- Running the traversal loop with enough fuel reaches an
invariant-satisfying state where nothing in the list is interesting. -/
theorem mbLoop_run (g : Graph) (one two : Nat) (hclos : ParentsClosed g)
    (hnd : g.nodes.Nodup) :
    ∀ (fuel : Nat) (flags : Nat → FlagSet) (list result : List Nat),
      MBInv g one two flags list result →
      mbPhi g flags list < fuel →
      ∃ flagsF listF resultF,
        mbLoop g fuel flags list result = (flagsF, resultF) ∧
        MBInv g one two flagsF listF resultF ∧
        interesting flagsF listF = false := by
  intro fuel
  induction fuel with
  | zero =>
    intro flags list result _ hpot
    omega
  | succ f ih =>
    intro flags list result hinv hpot
    by_cases hint : interesting flags list = true
    · cases list with
      | nil => cases hint
      | cons c rest =>
        simp only [mbLoop]
        rw [if_pos hint]
        by_cases hbb : ((flags c).p1 && (flags c).p2 && !(flags c).stale) = true
        · rw [if_pos hbb]
          have hp1 : (flags c).p1 = true := by
            rcases Bool.and_eq_true_iff.mp hbb with ⟨h1, _⟩
            exact (Bool.and_eq_true_iff.mp h1).1
          have hp2 : (flags c).p2 = true := by
            rcases Bool.and_eq_true_iff.mp hbb with ⟨h1, _⟩
            exact (Bool.and_eq_true_iff.mp h1).2
          have hstf : (flags c).stale = false := by
            rcases Bool.and_eq_true_iff.mp hbb with ⟨_, h2⟩
            rw [Bool.not_eq_true'] at h2
            exact h2
          by_cases hr : (flags c).result = true
          · rw [if_pos hr, if_pos hr]
            have hinv2 := mb_scan_pres g one two c flags rest result
              ⟨(flags c).p1, (flags c).p2, true, false⟩ hinv hclos
              (fun _ => hinv.m1 c hp1) (fun _ => hinv.m2 c hp2)
              (fun _ => ⟨c, hp1, hp2, Relation.ReflTransGen.refl⟩)
              (flag_ne_clean_of_stale _ rfl) rfl (Or.inl hr) (Or.inl hr)
            have hphi : mbPhi g
                (mbScan g ⟨(flags c).p1, (flags c).p2, true, false⟩ flags rest (g.parents c)).1
                (mbScan g ⟨(flags c).p1, (flags c).p2, true, false⟩ flags rest (g.parents c)).2
                ≤ mbPhi g flags rest := by
              refine mbScan_phi g _ hnd rfl (g.parents c) ?_ flags rest
              intro p hp
              exact hclos c (hinv.m7a c (List.mem_cons_self c rest)) p hp
            have hpot' : mbPhi g flags rest + 1 = mbPhi g flags (c :: rest) := by
              unfold mbPhi
              rw [List.length_cons]
              omega
            cases hscan : mbScan g ⟨(flags c).p1, (flags c).p2, true, false⟩
                flags rest (g.parents c) with
            | mk flags2 list2 =>
              rw [hscan] at hinv2 hphi
              simp only [] at hinv2 hphi
              exact ih flags2 list2 result hinv2 (by omega)
          · rw [if_neg hr, if_neg hr]
            rw [Bool.not_eq_true] at hr
            have hinv1 := mb_mark_result g one two c flags rest result hinv
              hp1 hp2 hr
            have hc1 : (updFlags flags c
                ⟨(flags c).p1, (flags c).p2, (flags c).stale, true⟩ c)
                = ⟨(flags c).p1, (flags c).p2, (flags c).stale, true⟩ := by
              unfold updFlags
              rw [if_pos rfl]
            have hinv2 := mb_scan_pres g one two c
              (updFlags flags c ⟨(flags c).p1, (flags c).p2, (flags c).stale, true⟩)
              rest (insert_by_date g.date c result)
              ⟨(flags c).p1, (flags c).p2, true, false⟩ hinv1 hclos
              (fun _ => hinv.m1 c hp1) (fun _ => hinv.m2 c hp2)
              (fun _ => ⟨c, by rw [hc1]; exact hp1, by rw [hc1]; exact hp2,
                Relation.ReflTransGen.refl⟩)
              (flag_ne_clean_of_stale _ rfl) rfl
              (Or.inl (by rw [hc1])) (Or.inl (by rw [hc1]))
            have hphi : mbPhi g
                (mbScan g ⟨(flags c).p1, (flags c).p2, true, false⟩
                  (updFlags flags c ⟨(flags c).p1, (flags c).p2, (flags c).stale, true⟩)
                  rest (g.parents c)).1
                (mbScan g ⟨(flags c).p1, (flags c).p2, true, false⟩
                  (updFlags flags c ⟨(flags c).p1, (flags c).p2, (flags c).stale, true⟩)
                  rest (g.parents c)).2
                ≤ mbPhi g
                  (updFlags flags c ⟨(flags c).p1, (flags c).p2, (flags c).stale, true⟩)
                  rest := by
              refine mbScan_phi g _ hnd rfl (g.parents c) ?_ _ rest
              intro p hp
              exact hclos c (hinv.m7a c (List.mem_cons_self c rest)) p hp
            have hsame : mbPhi g
                (updFlags flags c ⟨(flags c).p1, (flags c).p2, (flags c).stale, true⟩)
                rest = mbPhi g flags rest := by
              unfold mbPhi
              congr 1
              congr 1
              refine map_pc3_congr _ _ ?_ g.nodes
              intro n
              unfold updFlags
              by_cases hn : n = c
              · rw [if_pos hn, hn]
                exact pc3_set_result (flags c)
              · rw [if_neg hn]
            have hpot' : mbPhi g flags rest + 1 = mbPhi g flags (c :: rest) := by
              unfold mbPhi
              rw [List.length_cons]
              omega
            cases hscan : mbScan g ⟨(flags c).p1, (flags c).p2, true, false⟩
                (updFlags flags c ⟨(flags c).p1, (flags c).p2, (flags c).stale, true⟩)
                rest (g.parents c) with
            | mk flags2 list2 =>
              rw [hscan] at hinv2 hphi
              simp only [] at hinv2 hphi
              exact ih flags2 list2 (insert_by_date g.date c result) hinv2 (by omega)
        · rw [if_neg hbb]
          have hcne : flags c ≠ mbClean := hinv.lf c (List.mem_cons_self c rest)
          have hflne : (⟨(flags c).p1, (flags c).p2, (flags c).stale, false⟩ : FlagSet)
              ≠ mbClean := by
            rcases ne_clean_cases (flags c) hcne with h | h | h | h
            · exact flag_ne_clean_of_p1 _ h
            · exact flag_ne_clean_of_p2 _ h
            · exact flag_ne_clean_of_stale _ h
            · exact flag_ne_clean_of_p1 _ (hinv.m4 c h).1
          have hbw2 : (flags c).p2 = true → (flags c).stale = false →
              (flags c).p1 = false := by
            intro h2 hs
            rcases Bool.eq_false_or_eq_true ((flags c).p1) with h | h
            · exfalso
              apply hbb
              rw [h, h2, hs]
              rfl
            · exact h
          have hbw1 : (flags c).p1 = true → (flags c).stale = false →
              (flags c).p2 = false := by
            intro h1 hs
            rcases Bool.eq_false_or_eq_true ((flags c).p2) with h | h
            · exfalso
              apply hbb
              rw [h, h1, hs]
              rfl
            · exact h
          have hinv2 := mb_scan_pres g one two c flags rest result
            ⟨(flags c).p1, (flags c).p2, (flags c).stale, false⟩ hinv hclos
            (fun h => hinv.m1 c h) (fun h => hinv.m2 c h)
            (fun h => by
              obtain ⟨o, h1, h2, h3⟩ := hinv.m3 c h
              exact ⟨o, h1, h2, Relation.TransGen.to_reflTransGen h3⟩)
            hflne rfl
            (Or.inr fun h2 hs => ⟨hbw2 h2 hs, h2⟩)
            (Or.inr fun h1 hs => ⟨hbw1 h1 hs, h1⟩)
          have hphi : mbPhi g
              (mbScan g ⟨(flags c).p1, (flags c).p2, (flags c).stale, false⟩
                flags rest (g.parents c)).1
              (mbScan g ⟨(flags c).p1, (flags c).p2, (flags c).stale, false⟩
                flags rest (g.parents c)).2
              ≤ mbPhi g flags rest := by
            refine mbScan_phi g _ hnd rfl (g.parents c) ?_ flags rest
            intro p hp
            exact hclos c (hinv.m7a c (List.mem_cons_self c rest)) p hp
          have hpot' : mbPhi g flags rest + 1 = mbPhi g flags (c :: rest) := by
            unfold mbPhi
            rw [List.length_cons]
            omega
          cases hscan : mbScan g ⟨(flags c).p1, (flags c).p2, (flags c).stale, false⟩
              flags rest (g.parents c) with
          | mk flags2 list2 =>
            rw [hscan] at hinv2 hphi
            simp only [] at hinv2 hphi
            exact ih flags2 list2 result hinv2 (by omega)
    · rw [Bool.not_eq_true] at hint
      refine ⟨flags, list, result, ?_, hinv, hint⟩
      simp only [mbLoop]
      rw [hint]
      rfl

theorem interesting_false (flags : Nat → FlagSet) :
    ∀ l : List Nat, interesting flags l = false →
      ∀ q ∈ l, (flags q).stale = true := by
  intro l
  induction l with
  | nil => intro _ q hq; cases hq
  | cons c cs ih =>
    intro h q hq
    rw [interesting] at h
    by_cases hc : (flags c).stale = true
    · rw [if_pos hc] at h
      rcases List.mem_cons.mp hq with he | he
      · rw [he]
        exact hc
      · exact ih h q he
    · rw [if_neg hc] at h
      cases h

theorem mbFilter_mem (g : Graph) (flags : Nat → FlagSet) :
    ∀ (res acc : List Nat) (q : Nat),
      q ∈ mbFilter g flags res acc ↔
        q ∈ acc ∨ (q ∈ res ∧ (flags q).stale = false) := by
  intro res
  induction res with
  | nil =>
    intro acc q
    rw [mbFilter]
    constructor
    · intro h
      exact Or.inl h
    · rintro (h | h)
      · exact h
      · cases h.1
  | cons c cs ih =>
    intro acc q
    rw [mbFilter, ih]
    by_cases hst : (flags c).stale = true
    · rw [if_pos hst]
      constructor
      · rintro (h | h)
        · exact Or.inl h
        · exact Or.inr ⟨List.mem_cons_of_mem c h.1, h.2⟩
      · rintro (h | ⟨h1, h2⟩)
        · exact Or.inl h
        · rcases List.mem_cons.mp h1 with he | he
          · rw [he] at h2
            rw [hst] at h2
            cases h2
          · exact Or.inr ⟨he, h2⟩
    · rw [if_neg hst]
      rw [Bool.not_eq_true] at hst
      constructor
      · rintro (h | h)
        · rw [mem_insert_by_date] at h
          rcases h with he | he
          · exact Or.inr ⟨by rw [he]; exact List.mem_cons_self c cs, by rw [he]; exact hst⟩
          · exact Or.inl he
        · exact Or.inr ⟨List.mem_cons_of_mem c h.1, h.2⟩
      · rintro (h | ⟨h1, h2⟩)
        · exact Or.inl ((mem_insert_by_date g.date c acc q).mpr (Or.inr h))
        · rcases List.mem_cons.mp h1 with he | he
          · exact Or.inl ((mem_insert_by_date g.date c acc q).mpr (Or.inl he))
          · exact Or.inr ⟨he, h2⟩

theorem mbFilter_nodup (g : Graph) (flags : Nat → FlagSet) :
    ∀ (res acc : List Nat), res.Nodup → acc.Nodup →
      (∀ q ∈ acc, q ∉ res) → (mbFilter g flags res acc).Nodup := by
  intro res
  induction res with
  | nil =>
    intro acc _ hacc _
    rw [mbFilter]
    exact hacc
  | cons c cs ih =>
    intro acc hres hacc hdisj
    rw [mbFilter]
    have hccs : c ∉ cs := (List.nodup_cons.mp hres).1
    by_cases hst : (flags c).stale = true
    · rw [if_pos hst]
      refine ih acc (List.nodup_cons.mp hres).2 hacc ?_
      intro q hq hmem
      exact hdisj q hq (List.mem_cons_of_mem c hmem)
    · rw [if_neg hst]
      refine ih _ (List.nodup_cons.mp hres).2 ?_ ?_
      · refine nodup_insert_by_date g.date c acc ?_ hacc
        intro hmem
        exact hdisj c hmem (List.mem_cons_self c cs)
      · intro q hq hmem
        rw [mem_insert_by_date] at hq
        rcases hq with he | he
        · rw [he] at hmem
          exact hccs hmem
        · exact hdisj q he (List.mem_cons_of_mem c hmem)

theorem sum_three_bound (f : Nat → FlagSet) :
    ∀ L : List Nat, ((L.map fun n => 3 - pc3 (f n)).sum) ≤ 3 * L.length := by
  intro L
  induction L with
  | nil => simp
  | cons x xs ih =>
    rw [List.map_cons, List.sum_cons, List.length_cons]
    have := pc3_le_three (f x)
    omega

/-- A clean-start `merge_bases(one, two)` run with distinct endpoints:
the returned pair is the filtered image of an invariant-satisfying final
state whose pending list has gone entirely STALE. -/
theorem merge_bases_spec (g : Graph) (one two : Nat)
    (hclos : ParentsClosed g) (hnd : g.nodes.Nodup)
    (hone : one ∈ g.nodes) (htwo : two ∈ g.nodes) (hne : ¬ one = two)
    (flags0 : Nat → FlagSet) (hclean : ∀ n, flags0 n = mbClean) :
    ∃ flagsF listF resultF,
      merge_bases g flags0 one two = (flagsF, mbFilter g flagsF resultF []) ∧
      MBInv g one two flagsF listF resultF ∧
      interesting flagsF listF = false := by
  have hfB : ∀ n,
      updFlags (updFlags flags0 one { flags0 one with p1 := true }) two
        { updFlags flags0 one { flags0 one with p1 := true } two with p2 := true } n
      = if n = two then ⟨false, true, false, false⟩
        else if n = one then ⟨true, false, false, false⟩ else mbClean := by
    intro n
    unfold updFlags
    by_cases h2 : n = two
    · rw [if_pos h2, if_pos h2]
      have : ¬ two = one := fun h => hne h.symm
      rw [if_neg this, hclean two]
      rfl
    · rw [if_neg h2, if_neg h2]
      by_cases h1 : n = one
      · rw [if_pos h1, if_pos h1, hclean one]
        rfl
      · rw [if_neg h1, if_neg h1, hclean n]
  set flagsB := updFlags (updFlags flags0 one { flags0 one with p1 := true }) two
    { updFlags flags0 one { flags0 one with p1 := true } two with p2 := true }
    with hflagsB
  set list0 := insert_by_date g.date two (insert_by_date g.date one []) with hlist0
  have hmem0 : ∀ q, q ∈ list0 ↔ q = two ∨ q = one := by
    intro q
    rw [hlist0, mem_insert_by_date, mem_insert_by_date]
    simp
  have hinv0 : MBInv g one two flagsB list0 [] := by
    refine ⟨?_, ?_, ?_, ?_, ?_, List.nodup_nil, ?_, ?_, ?_, ?_, ?_, ?_, ?_, ?_⟩
    · intro n h
      rw [hfB n] at h
      by_cases h2 : n = two
      · rw [if_pos h2] at h
        cases h
      · rw [if_neg h2] at h
        by_cases h1 : n = one
        · rw [h1]
          exact Relation.ReflTransGen.refl
        · rw [if_neg h1] at h
          cases h
    · intro n h
      rw [hfB n] at h
      by_cases h2 : n = two
      · rw [h2]
        exact Relation.ReflTransGen.refl
      · rw [if_neg h2] at h
        by_cases h1 : n = one
        · rw [if_pos h1] at h
          cases h
        · rw [if_neg h1] at h
          cases h
    · intro n h
      rw [hfB n] at h
      by_cases h2 : n = two
      · rw [if_pos h2] at h
        cases h
      · rw [if_neg h2] at h
        by_cases h1 : n = one
        · rw [if_pos h1] at h
          cases h
        · rw [if_neg h1] at h
          cases h
    · intro n h
      rw [hfB n] at h
      by_cases h2 : n = two
      · rw [if_pos h2] at h
        cases h
      · rw [if_neg h2] at h
        by_cases h1 : n = one
        · rw [if_pos h1] at h
          cases h
        · rw [if_neg h1] at h
          cases h
    · intro n
      constructor
      · intro h
        rw [hfB n] at h
        by_cases h2 : n = two
        · rw [if_pos h2] at h
          cases h
        · rw [if_neg h2] at h
          by_cases h1 : n = one
          · rw [if_pos h1] at h
            cases h
          · rw [if_neg h1] at h
            cases h
      · intro h
        cases h
    · rw [hfB one]
      have : ¬ one = two := hne
      rw [if_neg this]
      rw [if_pos rfl]
    · rw [hfB two]
      rw [if_pos rfl]
    · intro n hmem
      rcases (hmem0 n).mp hmem with h | h
      · rw [h]
        exact htwo
      · rw [h]
        exact hone
    · intro n h
      rw [hfB n] at h
      by_cases h2 : n = two
      · rw [h2]
        exact htwo
      · rw [if_neg h2] at h
        by_cases h1 : n = one
        · rw [h1]
          exact hone
        · rw [if_neg h1] at h
          exact absurd rfl h
    · intro n hmem
      rw [hfB n]
      rcases (hmem0 n).mp hmem with h | h
      · rw [if_pos h]
        intro hcon
        cases hcon
      · by_cases h2 : n = two
        · rw [if_pos h2]
          intro hcon
          cases hcon
        · rw [if_neg h2, if_pos h]
          intro hcon
          cases hcon
    · intro n h
      rw [hfB n] at h
      by_cases h2 : n = two
      · rw [h2]
        exact Or.inr Relation.ReflTransGen.refl
      · rw [if_neg h2] at h
        by_cases h1 : n = one
        · rw [h1]
          exact Or.inl Relation.ReflTransGen.refl
        · rw [if_neg h1] at h
          exact absurd rfl h
    · intro n h _
      rw [hfB n] at h
      by_cases h2 : n = two
      · exact Or.inl ((hmem0 n).mpr (Or.inl h2))
      · rw [if_neg h2] at h
        by_cases h1 : n = one
        · rw [if_pos h1] at h
          cases h
        · rw [if_neg h1] at h
          cases h
    · intro n h _
      rw [hfB n] at h
      by_cases h2 : n = two
      · rw [if_pos h2] at h
        cases h
      · rw [if_neg h2] at h
        by_cases h1 : n = one
        · exact Or.inl ((hmem0 n).mpr (Or.inr h1))
        · rw [if_neg h1] at h
          cases h
  have hphi : mbPhi g flagsB list0 < mbFuel g := by
    unfold mbPhi mbFuel
    have hlen : list0.length = 2 := by
      rw [hlist0, length_insert_by_date, length_insert_by_date]
      rfl
    have hsum := sum_three_bound flagsB g.nodes
    omega
  obtain ⟨fF, lF, rF, heq, hinvF, hintF⟩ :=
    mbLoop_run g one two hclos hnd (mbFuel g) flagsB list0 [] hinv0 hphi
  refine ⟨fF, lF, rF, ?_, hinvF, hintF⟩
  unfold merge_bases
  rw [if_neg hne]
  show (match mbLoop g (mbFuel g) flagsB list0 [] with
    | (flagsC, res) => (flagsC, mbFilter g flagsC res []))
    = (fF, mbFilter g fF rF [])
  rw [heq]

/-- Everything in the filtered output carries RESULT, hence PARENT1 and
PARENT2, hence descends from both endpoints. -/
theorem mb_exit_sound (g : Graph) (one two : Nat) (flagsF : Nat → FlagSet)
    (lF rF : List Nat) (hinv : MBInv g one two flagsF lF rF) :
    ∀ m ∈ mbFilter g flagsF rF [], Reach g one m ∧ Reach g two m := by
  intro m hm
  rcases (mbFilter_mem g flagsF rF [] m).mp hm with h | ⟨h1, _⟩
  · cases h
  · have hres := (hinv.m5 m).mpr h1
    obtain ⟨hp1, hp2⟩ := hinv.m4 m hres
    exact ⟨hinv.m1 m hp1, hinv.m2 m hp2⟩

/-- No node that reaches `one` by parent edges is ever STALE: a STALE
node is a proper ancestor of a PARENT1|PARENT2 node, and the rank
certificate rules the resulting cycle out. -/
theorem mb_no_stale_one (g : Graph) (rank : Nat → Nat) (one two : Nat)
    (hclos : ParentsClosed g) (hrank : RankCert g rank)
    (hone : one ∈ g.nodes) (flagsF : Nat → FlagSet) (lF rF : List Nat)
    (hinv : MBInv g one two flagsF lF rF) :
    ∀ n, Reach g n one → (flagsF n).stale = false := by
  intro n hreach
  rcases Bool.eq_false_or_eq_true ((flagsF n).stale) with h | h
  swap
  · exact h
  · exfalso
    obtain ⟨o, ho1, _, hop⟩ := hinv.m3 n h
    have hnn : n ∈ g.nodes :=
      hinv.m7b n (flag_ne_clean_of_stale _ h)
    have hon : o ∈ g.nodes :=
      hinv.m7b o (flag_ne_clean_of_p1 _ ho1)
    have hr1 : rank n < rank o := reachP_rank_lt g rank hclos hrank hon hop
    have hr2 : rank o ≤ rank one :=
      reach_rank_le g rank hclos hrank hone (hinv.m1 o ho1)
    have hr3 : rank one ≤ rank n := reach_rank_le g rank hclos hrank hnn hreach
    omega

theorem mb_no_stale_two (g : Graph) (rank : Nat → Nat) (one two : Nat)
    (hclos : ParentsClosed g) (hrank : RankCert g rank)
    (htwo : two ∈ g.nodes) (flagsF : Nat → FlagSet) (lF rF : List Nat)
    (hinv : MBInv g one two flagsF lF rF) :
    ∀ n, Reach g n two → (flagsF n).stale = false := by
  intro n hreach
  rcases Bool.eq_false_or_eq_true ((flagsF n).stale) with h | h
  swap
  · exact h
  · exfalso
    obtain ⟨o, _, ho2, hop⟩ := hinv.m3 n h
    have hnn : n ∈ g.nodes :=
      hinv.m7b n (flag_ne_clean_of_stale _ h)
    have hon : o ∈ g.nodes :=
      hinv.m7b o (flag_ne_clean_of_p2 _ ho2)
    have hr1 : rank n < rank o := reachP_rank_lt g rank hclos hrank hon hop
    have hr2 : rank o ≤ rank two :=
      reach_rank_le g rank hclos hrank htwo (hinv.m2 o ho2)
    have hr3 : rank two ≤ rank n := reach_rank_le g rank hclos hrank hnn hreach
    omega

/-- Liveness, first endpoint: if `one` is an ancestor of `two`, the
exhausted traversal has marked `one` RESULT and it survives the STALE
filter. -/
theorem mb_live_one (g : Graph) (rank : Nat → Nat) (one two : Nat)
    (hclos : ParentsClosed g) (hrank : RankCert g rank)
    (hone : one ∈ g.nodes) (flagsF : Nat → FlagSet) (lF rF : List Nat)
    (hinv : MBInv g one two flagsF lF rF)
    (hint : interesting flagsF lF = false)
    (hanc : Reach g two one) :
    one ∈ mbFilter g flagsF rF [] := by
  have hnsp := mb_no_stale_one g rank one two hclos hrank hone flagsF lF rF hinv
  have key : ∀ k, ∀ n, rank n ≤ k → (flagsF n).p2 = true →
      Reach g n one → (flagsF one).result = true := by
    intro k
    induction k with
    | zero =>
      intro n hrk hp2 hreach
      have hst := hnsp n hreach
      rcases hinv.w2 n hp2 hst with h | ⟨hpar, hp1f⟩ | h
      · have := interesting_false flagsF lF hint n h
        rw [hst] at this
        cases this
      · have hnone : n ≠ one := by
          intro he
          rw [he] at hp1f
          rw [hinv.m6a] at hp1f
          cases hp1f
        rcases Relation.ReflTransGen.cases_head hreach with he | ⟨b, hb, _⟩
        · exact absurd he hnone
        · exfalso
          have hnn : n ∈ g.nodes :=
            hinv.m7b n (flag_ne_clean_of_p2 _ hp2)
          have := hrank n hnn b hb
          omega
      · have hres := (hinv.m5 n).mpr ((hinv.m5 n).mp h)
        obtain ⟨hp1, _⟩ := hinv.m4 n h
        have hnn : n ∈ g.nodes := hinv.m7b n (flag_ne_clean_of_p1 _ hp1)
        have hno : n = one := reach_antisym g rank hclos hrank hnn hreach
          (by
            have h1 : Reach g one n := hinv.m1 n hp1
            exact h1)
        rw [← hno]
        exact h
    | succ k ih =>
      intro n hrk hp2 hreach
      have hst := hnsp n hreach
      rcases hinv.w2 n hp2 hst with h | ⟨hpar, hp1f⟩ | h
      · have := interesting_false flagsF lF hint n h
        rw [hst] at this
        cases this
      · have hnone : n ≠ one := by
          intro he
          rw [he] at hp1f
          rw [hinv.m6a] at hp1f
          cases hp1f
        rcases Relation.ReflTransGen.cases_head hreach with he | ⟨b, hb, hbr⟩
        · exact absurd he hnone
        · have hnn : n ∈ g.nodes :=
            hinv.m7b n (flag_ne_clean_of_p2 _ hp2)
          have hlt := hrank n hnn b hb
          exact ih b (by omega) (hpar b hb) hbr
      · obtain ⟨hp1, _⟩ := hinv.m4 n h
        have hnn : n ∈ g.nodes := hinv.m7b n (flag_ne_clean_of_p1 _ hp1)
        have hno : n = one := reach_antisym g rank hclos hrank hnn hreach
          (hinv.m1 n hp1)
        rw [← hno]
        exact h
  have hres := key (rank two) two le_rfl hinv.m6b hanc
  refine (mbFilter_mem g flagsF rF [] one).mpr
    (Or.inr ⟨(hinv.m5 one).mp hres, hnsp one Relation.ReflTransGen.refl⟩)

/-- Liveness, second endpoint: if `two` is an ancestor of `one`, `two`
is in the filtered output. -/
theorem mb_live_two (g : Graph) (rank : Nat → Nat) (one two : Nat)
    (hclos : ParentsClosed g) (hrank : RankCert g rank)
    (htwo : two ∈ g.nodes) (flagsF : Nat → FlagSet) (lF rF : List Nat)
    (hinv : MBInv g one two flagsF lF rF)
    (hint : interesting flagsF lF = false)
    (hanc : Reach g one two) :
    two ∈ mbFilter g flagsF rF [] := by
  have hnsp := mb_no_stale_two g rank one two hclos hrank htwo flagsF lF rF hinv
  have key : ∀ k, ∀ n, rank n ≤ k → (flagsF n).p1 = true →
      Reach g n two → (flagsF two).result = true := by
    intro k
    induction k with
    | zero =>
      intro n hrk hp1 hreach
      have hst := hnsp n hreach
      rcases hinv.w1 n hp1 hst with h | ⟨hpar, hp2f⟩ | h
      · have := interesting_false flagsF lF hint n h
        rw [hst] at this
        cases this
      · have hntwo : n ≠ two := by
          intro he
          rw [he] at hp2f
          rw [hinv.m6b] at hp2f
          cases hp2f
        rcases Relation.ReflTransGen.cases_head hreach with he | ⟨b, hb, _⟩
        · exact absurd he hntwo
        · exfalso
          have hnn : n ∈ g.nodes :=
            hinv.m7b n (flag_ne_clean_of_p1 _ hp1)
          have := hrank n hnn b hb
          omega
      · obtain ⟨_, hp2⟩ := hinv.m4 n h
        have hnn : n ∈ g.nodes := hinv.m7b n (flag_ne_clean_of_p2 _ hp2)
        have hno : n = two := reach_antisym g rank hclos hrank hnn hreach
          (hinv.m2 n hp2)
        rw [← hno]
        exact h
    | succ k ih =>
      intro n hrk hp1 hreach
      have hst := hnsp n hreach
      rcases hinv.w1 n hp1 hst with h | ⟨hpar, hp2f⟩ | h
      · have := interesting_false flagsF lF hint n h
        rw [hst] at this
        cases this
      · have hntwo : n ≠ two := by
          intro he
          rw [he] at hp2f
          rw [hinv.m6b] at hp2f
          cases hp2f
        rcases Relation.ReflTransGen.cases_head hreach with he | ⟨b, hb, hbr⟩
        · exact absurd he hntwo
        · have hnn : n ∈ g.nodes :=
            hinv.m7b n (flag_ne_clean_of_p1 _ hp1)
          have hlt := hrank n hnn b hb
          exact ih b (by omega) (hpar b hb) hbr
      · obtain ⟨_, hp2⟩ := hinv.m4 n h
        have hnn : n ∈ g.nodes := hinv.m7b n (flag_ne_clean_of_p2 _ hp2)
        have hno : n = two := reach_antisym g rank hclos hrank hnn hreach
          (hinv.m2 n hp2)
        rw [← hno]
        exact h
  have hres := key (rank one) one le_rfl hinv.m6a hanc
  refine (mbFilter_mem g flagsF rF [] two).mpr
    (Or.inr ⟨(hinv.m5 two).mp hres, hnsp two Relation.ReflTransGen.refl⟩)

/-- `b` differs from `a` only by clearing nodes completely. -/
def OC (a b : Nat → FlagSet) : Prop :=
  ∀ n, b n = a n ∨ b n = mbClean

theorem oc_refl (a : Nat → FlagSet) : OC a a := fun _ => Or.inl rfl

theorem oc_trans {a b c : Nat → FlagSet} (h1 : OC a b) (h2 : OC b c) :
    OC a c := by
  intro n
  rcases h2 n with h | h
  · rw [h]
    exact h1 n
  · exact Or.inr h

/-- Number of nodes still carrying any reserved bit. -/
def flaggedCnt (g : Graph) (flags : Nat → FlagSet) : Nat :=
  (g.nodes.filter fun n => flags n ≠ mbClean).length

theorem mbany_true (f : FlagSet) (h : mbAny f = true) : f ≠ mbClean := by
  cases f with
  | mk a1 a2 a3 a4 => revert a1 a2 a3 a4 h; decide

theorem mbany_false (f : FlagSet) (h : mbAny f = false) : f = mbClean := by
  cases f with
  | mk a1 a2 a3 a4 => revert a1 a2 a3 a4 h; decide

theorem cnt_le_of_oc (g : Graph) {a b : Nat → FlagSet} (h : OC a b) :
    flaggedCnt g b ≤ flaggedCnt g a := by
  unfold flaggedCnt
  induction g.nodes with
  | nil => exact le_rfl
  | cons x xs ih =>
    rw [List.filter_cons, List.filter_cons]
    by_cases hb : b x ≠ mbClean
    · have ha : a x ≠ mbClean := by
        rcases h x with he | he
        · rw [← he]
          exact hb
        · exact absurd he hb
      rw [if_pos (by simpa using hb), if_pos (by simpa using ha),
        List.length_cons, List.length_cons]
      omega
    · rw [if_neg (by simpa using hb)]
      by_cases ha : a x ≠ mbClean
      · rw [if_pos (by simpa using ha), List.length_cons]
        omega
      · rw [if_neg (by simpa using ha)]
        exact ih

theorem supp_of_oc (g : Graph) {a b : Nat → FlagSet} (h : OC a b)
    (hs : ∀ n, a n ≠ mbClean → n ∈ g.nodes) :
    ∀ n, b n ≠ mbClean → n ∈ g.nodes := by
  intro n hb
  rcases h n with he | he
  · rw [he] at hb
    exact hs n hb
  · exact absurd he hb

theorem cnt_clear_lt_aux (flags : Nat → FlagSet) (c : Nat)
    (hf : flags c ≠ mbClean) :
    ∀ L : List Nat, L.Nodup → c ∈ L →
      (L.filter fun n => updFlags flags c mbClean n ≠ mbClean).length + 1
        ≤ (L.filter fun n => flags n ≠ mbClean).length := by
  intro L
  induction L with
  | nil => intro _ h; cases h
  | cons x xs ih =>
    intro hnd hc
    have hnd' := hnd.of_cons
    rw [List.filter_cons, List.filter_cons]
    by_cases hxc : x = c
    · subst hxc
      have hxs : x ∉ xs := (List.nodup_cons.mp hnd).1
      have hu : updFlags flags x mbClean x = mbClean := by
        unfold updFlags
        rw [if_pos rfl]
      rw [if_neg (by simp [hu]), if_pos (by simpa using hf), List.length_cons]
      have heq : (xs.filter fun n => decide (updFlags flags x mbClean n ≠ mbClean))
          = xs.filter fun n => decide (flags n ≠ mbClean) := by
        apply List.filter_congr
        intro n hn
        have hnx : n ≠ x := fun he => hxs (he ▸ hn)
        unfold updFlags
        rw [if_neg hnx]
      rw [heq]
    · have hc' : c ∈ xs := by
        rcases List.mem_cons.mp hc with h | h
        · exact absurd h.symm hxc
        · exact h
      have hrec := ih hnd' hc'
      have hu : updFlags flags c mbClean x = flags x := by
        unfold updFlags
        rw [if_neg hxc]
      by_cases hx : flags x ≠ mbClean
      · rw [if_pos (by simp [hu]; exact hx), if_pos (by simpa using hx),
          List.length_cons, List.length_cons]
        omega
      · rw [if_neg (by simp [hu]; exact not_not.mp hx),
          if_neg (by simpa using hx)]
        exact hrec

theorem cnt_clear_lt (g : Graph) (hnd : g.nodes.Nodup)
    (flags : Nat → FlagSet) (c : Nat) (hc : c ∈ g.nodes)
    (hf : flags c ≠ mbClean) :
    flaggedCnt g (updFlags flags c mbClean) + 1 ≤ flaggedCnt g flags :=
  cnt_clear_lt_aux flags c hf g.nodes hnd hc

/-- The parent loop of `clear_commit_marks`: assuming the recursive
calls obey the clearing contract, the fold only clears, clears every
listed parent, and any node it clears has all its parents clear at the
end. -/
theorem ccm_fold (g : Graph) (fuel : Nat) (K : Nat)
    (H : ∀ (fl : Nat → FlagSet) (c : Nat),
      (∀ n, fl n ≠ mbClean → n ∈ g.nodes) → flaggedCnt g fl ≤ K →
      fl c ≠ mbClean →
      OC fl (clear_commit_marks g fuel fl c) ∧
      (∀ p, p = c ∨ p ∈ g.parents c →
        (clear_commit_marks g fuel fl c) p = mbClean) ∧
      (∀ m, fl m ≠ mbClean → (clear_commit_marks g fuel fl c) m = mbClean →
        ∀ p ∈ g.parents m, (clear_commit_marks g fuel fl c) p = mbClean)) :
    ∀ (ps : List Nat) (fl0 : Nat → FlagSet),
      (∀ n, fl0 n ≠ mbClean → n ∈ g.nodes) → flaggedCnt g fl0 ≤ K →
      OC fl0 (ps.foldl (fun fl p =>
        if mbAny (fl p) then clear_commit_marks g fuel fl p else fl) fl0) ∧
      (∀ q ∈ ps, (ps.foldl (fun fl p =>
        if mbAny (fl p) then clear_commit_marks g fuel fl p else fl) fl0) q
        = mbClean) ∧
      (∀ m, fl0 m ≠ mbClean → (ps.foldl (fun fl p =>
        if mbAny (fl p) then clear_commit_marks g fuel fl p else fl) fl0) m
          = mbClean →
        ∀ q ∈ g.parents m, (ps.foldl (fun fl p =>
          if mbAny (fl p) then clear_commit_marks g fuel fl p else fl) fl0) q
          = mbClean) := by
  intro ps
  induction ps with
  | nil =>
    intro fl0 hsupp hcnt
    refine ⟨oc_refl fl0, ?_, ?_⟩
    · intro q hq
      cases hq
    · intro m hm1 hm2
      exact absurd hm2 hm1
  | cons p ps' ih =>
    intro fl0 hsupp hcnt
    rw [List.foldl_cons]
    by_cases hAny : mbAny (fl0 p) = true
    · rw [if_pos hAny]
      obtain ⟨hOC1, hPC1, hP31⟩ := H fl0 p hsupp hcnt (mbany_true _ hAny)
      have hsupp1 := supp_of_oc g hOC1 hsupp
      have hcnt1 : flaggedCnt g (clear_commit_marks g fuel fl0 p) ≤ K :=
        le_trans (cnt_le_of_oc g hOC1) hcnt
      obtain ⟨hOC2, hPC2, hP32⟩ := ih (clear_commit_marks g fuel fl0 p) hsupp1 hcnt1
      refine ⟨oc_trans hOC1 hOC2, ?_, ?_⟩
      · intro q hq
        rcases List.mem_cons.mp hq with he | he
        · have h1 : clear_commit_marks g fuel fl0 p q = mbClean := by
            rw [he]
            exact hPC1 p (Or.inl rfl)
          rcases hOC2 q with h | h
          · rw [h, h1]
          · exact h
        · exact hPC2 q he
      · intro m hm1 hm2
        by_cases h1 : clear_commit_marks g fuel fl0 p m = mbClean
        · intro q hq
          have hqc := hP31 m hm1 h1 q hq
          rcases hOC2 q with h | h
          · rw [h, hqc]
          · exact h
        · exact hP32 m h1 hm2
    · rw [if_neg hAny]
      rw [Bool.not_eq_true] at hAny
      obtain ⟨hOC2, hPC2, hP32⟩ := ih fl0 hsupp hcnt
      refine ⟨hOC2, ?_, hP32⟩
      intro q hq
      rcases List.mem_cons.mp hq with he | he
      · have h1 : fl0 q = mbClean := by
          rw [he]
          exact mbany_false _ hAny
        rcases hOC2 q with h | h
        · rw [h, h1]
        · exact h
      · exact hPC2 q he

/-- The clearing contract of `clear_commit_marks` on a flagged start
node, with fuel above the flagged population: the walk only clears, it
clears the node and all its parents, and every node it clears ends with
all parents clear. -/
theorem ccm_spec (g : Graph) (hnd : g.nodes.Nodup) :
    ∀ (k fuel : Nat) (flags : Nat → FlagSet) (c : Nat),
      (∀ n, flags n ≠ mbClean → n ∈ g.nodes) →
      flaggedCnt g flags ≤ k → k + 1 ≤ fuel → flags c ≠ mbClean →
      OC flags (clear_commit_marks g fuel flags c) ∧
      (∀ p, p = c ∨ p ∈ g.parents c →
        (clear_commit_marks g fuel flags c) p = mbClean) ∧
      (∀ m, flags m ≠ mbClean → (clear_commit_marks g fuel flags c) m = mbClean →
        ∀ p ∈ g.parents m, (clear_commit_marks g fuel flags c) p = mbClean) := by
  intro k
  induction k with
  | zero =>
    intro fuel flags c hsupp hcnt _ hc
    exfalso
    have hcn : c ∈ g.nodes := hsupp c hc
    have : 1 ≤ flaggedCnt g flags := by
      unfold flaggedCnt
      have : c ∈ g.nodes.filter fun n => flags n ≠ mbClean := by
        rw [List.mem_filter]
        exact ⟨hcn, by simpa using hc⟩
      have hpos := List.length_pos.mpr (List.ne_nil_of_mem this)
      omega
    omega
  | succ k ih =>
    intro fuel flags c hsupp hcnt hfuel hc
    obtain ⟨f, rfl⟩ : ∃ f, fuel = f + 1 := ⟨fuel - 1, by omega⟩
    simp only [clear_commit_marks]
    have hcn : c ∈ g.nodes := hsupp c hc
    have hocu : OC flags (updFlags flags c mbClean) := by
      intro n
      unfold updFlags
      by_cases hn : n = c
      · rw [if_pos hn]
        exact Or.inr rfl
      · rw [if_neg hn]
        exact Or.inl rfl
    have hsuppu := supp_of_oc g hocu hsupp
    have hcntu : flaggedCnt g (updFlags flags c mbClean) ≤ k := by
      have := cnt_clear_lt g hnd flags c hcn hc
      omega
    have hH : ∀ (fl : Nat → FlagSet) (c' : Nat),
        (∀ n, fl n ≠ mbClean → n ∈ g.nodes) → flaggedCnt g fl ≤ k →
        fl c' ≠ mbClean →
        OC fl (clear_commit_marks g f fl c') ∧
        (∀ p, p = c' ∨ p ∈ g.parents c' →
          (clear_commit_marks g f fl c') p = mbClean) ∧
        (∀ m, fl m ≠ mbClean → (clear_commit_marks g f fl c') m = mbClean →
          ∀ p ∈ g.parents m, (clear_commit_marks g f fl c') p = mbClean) := by
      intro fl c' hs hcnt' hfl
      exact ih f fl c' hs hcnt' (by omega) hfl
    obtain ⟨hOC2, hPC2, hP32⟩ :=
      ccm_fold g f k hH (g.parents c) (updFlags flags c mbClean) hsuppu hcntu
    have hcclean : (updFlags flags c mbClean) c = mbClean := by
      unfold updFlags
      rw [if_pos rfl]
    refine ⟨oc_trans hocu hOC2, ?_, ?_⟩
    · intro p hp
      rcases hp with he | he
      · rw [he]
        rcases hOC2 c with h | h
        · rw [h, hcclean]
        · exact h
      · exact hPC2 p he
    · intro m hm1 hm2
      by_cases hmc : m = c
      · intro p hp
        rw [hmc] at hp
        exact hPC2 p hp
      · have hmu : (updFlags flags c mbClean) m = flags m := by
          unfold updFlags
          rw [if_neg hmc]
        refine hP32 m ?_ hm2
        rw [hmu]
        exact hm1

/-- The clearing contract for an arbitrary (possibly already clean)
start node, as used by the two top-level cleanup calls. -/
theorem ccm_spec_any (g : Graph) (hnd : g.nodes.Nodup)
    (k fuel : Nat) (flags : Nat → FlagSet) (c : Nat)
    (hsupp : ∀ n, flags n ≠ mbClean → n ∈ g.nodes)
    (hcnt : flaggedCnt g flags ≤ k) (hfuel : k + 2 ≤ fuel) :
    OC flags (clear_commit_marks g fuel flags c) ∧
    (∀ p, p = c ∨ p ∈ g.parents c →
      (clear_commit_marks g fuel flags c) p = mbClean) ∧
    (∀ m, flags m ≠ mbClean → (clear_commit_marks g fuel flags c) m = mbClean →
      ∀ p ∈ g.parents m, (clear_commit_marks g fuel flags c) p = mbClean) := by
  by_cases hc : flags c ≠ mbClean
  · exact ccm_spec g hnd k fuel flags c hsupp hcnt (by omega) hc
  · rw [Classical.not_not] at hc
    obtain ⟨f, rfl⟩ : ∃ f, fuel = f + 1 := ⟨fuel - 1, by omega⟩
    simp only [clear_commit_marks]
    have hocu : OC flags (updFlags flags c mbClean) := by
      intro n
      unfold updFlags
      by_cases hn : n = c
      · rw [if_pos hn]
        exact Or.inr rfl
      · rw [if_neg hn]
        exact Or.inl rfl
    have hsuppu := supp_of_oc g hocu hsupp
    have hcntu : flaggedCnt g (updFlags flags c mbClean) ≤ k :=
      le_trans (cnt_le_of_oc g hocu) hcnt
    have hH : ∀ (fl : Nat → FlagSet) (c' : Nat),
        (∀ n, fl n ≠ mbClean → n ∈ g.nodes) → flaggedCnt g fl ≤ k →
        fl c' ≠ mbClean →
        OC fl (clear_commit_marks g f fl c') ∧
        (∀ p, p = c' ∨ p ∈ g.parents c' →
          (clear_commit_marks g f fl c') p = mbClean) ∧
        (∀ m, fl m ≠ mbClean → (clear_commit_marks g f fl c') m = mbClean →
          ∀ p ∈ g.parents m, (clear_commit_marks g f fl c') p = mbClean) := by
      intro fl c' hs hcnt' hfl
      exact ccm_spec g hnd k f fl c' hs hcnt' (by omega) hfl
    obtain ⟨hOC2, hPC2, hP32⟩ :=
      ccm_fold g f k hH (g.parents c) (updFlags flags c mbClean) hsuppu hcntu
    have hcclean : (updFlags flags c mbClean) c = mbClean := by
      unfold updFlags
      rw [if_pos rfl]
    refine ⟨oc_trans hocu hOC2, ?_, ?_⟩
    · intro p hp
      rcases hp with he | he
      · rw [he]
        rcases hOC2 c with h | h
        · rw [h, hcclean]
        · exact h
      · exact hPC2 p he
    · intro m hm1 hm2
      by_cases hmc : m = c
      · rw [hmc] at hm1
        exact absurd hc hm1
      · have hmu : (updFlags flags c mbClean) m = flags m := by
          unfold updFlags
          rw [if_neg hmc]
        refine hP32 m ?_ hm2
        rw [hmu]
        exact hm1

/-- Clearing from `one` and then from `two` wipes every node whose
flags are connected to one of the endpoints by a flagged chain. -/
theorem ccm_double_clean (g : Graph) (hnd : g.nodes.Nodup) (one two : Nat)
    (k fuel : Nat) (flags : Nat → FlagSet)
    (hsupp : ∀ n, flags n ≠ mbClean → n ∈ g.nodes)
    (hcnt : flaggedCnt g flags ≤ k) (hfuel : k + 2 ≤ fuel)
    (hchain : ∀ n, flags n ≠ mbClean →
      ChainFlagged g flags one n ∨ ChainFlagged g flags two n)
    (hof : flags one ≠ mbClean) (htf : flags two ≠ mbClean) :
    ∀ n, clear_commit_marks g fuel
      (clear_commit_marks g fuel flags one) two n = mbClean := by
  obtain ⟨hOC1, hPC1, hP31⟩ :=
    ccm_spec_any g hnd k fuel flags one hsupp hcnt hfuel
  have hsupp1 := supp_of_oc g hOC1 hsupp
  have hcnt1 : flaggedCnt g (clear_commit_marks g fuel flags one) ≤ k :=
    le_trans (cnt_le_of_oc g hOC1) hcnt
  obtain ⟨hOC2, hPC2, hP32⟩ :=
    ccm_spec_any g hnd k fuel (clear_commit_marks g fuel flags one) two
      hsupp1 hcnt1 hfuel
  have hOC := oc_trans hOC1 hOC2
  have hP3 : ∀ m, flags m ≠ mbClean →
      clear_commit_marks g fuel (clear_commit_marks g fuel flags one) two m
        = mbClean →
      ∀ p ∈ g.parents m,
        clear_commit_marks g fuel (clear_commit_marks g fuel flags one) two p
          = mbClean := by
    intro m hm1 hm2 p hp
    by_cases hm : clear_commit_marks g fuel flags one m = mbClean
    · have hpc := hP31 m hm1 hm p hp
      rcases hOC2 p with h | h
      · rw [h, hpc]
      · exact h
    · exact hP32 m hm hm2 p hp
  have honec : clear_commit_marks g fuel
      (clear_commit_marks g fuel flags one) two one = mbClean := by
    have h1 := hPC1 one (Or.inl rfl)
    rcases hOC2 one with h | h
    · rw [h, h1]
    · exact h
  have htwoc : clear_commit_marks g fuel
      (clear_commit_marks g fuel flags one) two two = mbClean :=
    hPC2 two (Or.inl rfl)
  have key : ∀ s n, flags s ≠ mbClean →
      clear_commit_marks g fuel (clear_commit_marks g fuel flags one) two s
        = mbClean →
      ChainFlagged g flags s n →
      flags n ≠ mbClean ∧
      clear_commit_marks g fuel (clear_commit_marks g fuel flags one) two n
        = mbClean := by
    intro s n hsf hsc hchn
    induction hchn with
    | refl => exact ⟨hsf, hsc⟩
    | tail hxy hyz ih =>
      obtain ⟨haf, hac⟩ := ih
      exact ⟨hyz.2, hP3 _ haf hac _ hyz.1⟩
  intro n
  by_cases hn : flags n = mbClean
  · rcases hOC n with h | h
    · rw [h, hn]
    · exact h
  · rcases hchain n hn with hch | hch
    · exact (key one n hof honec hch).2
    · exact (key two n htf htwoc hch).2

/-- The post-run cleanup of `get_merge_bases` (clear from `one`, then
from `two`) leaves every node fully clear. -/
theorem mb_cleanup_clean (g : Graph) (hnd : g.nodes.Nodup) (one two : Nat)
    (flagsF : Nat → FlagSet) (lF rF : List Nat)
    (hinv : MBInv g one two flagsF lF rF) :
    ∀ n, clear_commit_marks g (ccmFuel g)
      (clear_commit_marks g (ccmFuel g) flagsF one) two n = mbClean := by
  refine ccm_double_clean g hnd one two g.nodes.length (ccmFuel g) flagsF
    hinv.m7b ?_ ?_ hinv.ch
    (flag_ne_clean_of_p1 _ hinv.m6a) (flag_ne_clean_of_p2 _ hinv.m6b)
  · unfold flaggedCnt
    exact List.length_filter_le _ _
  · unfold ccmFuel
    omega

theorem flaggedCnt_clean (g : Graph) (flags : Nat → FlagSet)
    (h : ∀ n, flags n = mbClean) : flaggedCnt g flags = 0 := by
  unfold flaggedCnt
  rw [List.length_eq_zero, List.filter_eq_nil_iff]
  intro n _
  simp [h n]

/-- Clearing marks on an already-clean map keeps it clean. -/
theorem ccm_clean_stays (g : Graph) (hnd : g.nodes.Nodup)
    (flags : Nat → FlagSet) (h : ∀ n, flags n = mbClean) (c : Nat) :
    ∀ n, clear_commit_marks g (ccmFuel g) flags c n = mbClean := by
  obtain ⟨hOC, _, _⟩ :=
    ccm_spec_any g hnd 0 (ccmFuel g) flags c
      (fun n hn => absurd (h n) hn)
      (by rw [flaggedCnt_clean g flags h])
      (by unfold ccmFuel; omega)
  intro n
  rcases hOC n with he | he
  · rw [he, h n]
  · exact he

theorem foldl_pres {α β : Type} (P : α → Prop) (f : α → β → α)
    (hf : ∀ st x, P st → P (f st x)) :
    ∀ (l : List β) (st : α), P st → P (l.foldl f st) := by
  intro l
  induction l with
  | nil => intro st h; exact h
  | cons x xs ih =>
    intro st h
    rw [List.foldl_cons]
    exact ih (f st x) (hf st x h)

theorem getD_some_mem (l : List (Option Nat)) (i : Nat) (a : Nat)
    (h : l.getD i none = some a) : some a ∈ l := by
  rw [List.getD_eq_getElem?_getD] at h
  cases hq : l[i]? with
  | none =>
    rw [hq] at h
    cases h
  | some x =>
    rw [hq] at h
    have hx : x = some a := h
    rw [hx] at hq
    exact List.getElem?_mem hq

theorem slots_set_none (g : Graph) (l : List (Option Nat))
    (hl : ∀ x ∈ l, ∀ v, x = some v → v ∈ g.nodes) (idx : Nat) :
    ∀ x ∈ l.set idx none, ∀ v, x = some v → v ∈ g.nodes := by
  intro x hx v hv
  rcases List.mem_or_eq_of_mem_set hx with h | h
  · exact hl x h v hv
  · rw [h] at hv
    cases hv

/-- One pairwise-reduction body keeps the flag map all-clear and the
slot list node-supported. -/
theorem pairStep_clean (g : Graph) (hclos : ParentsClosed g)
    (hnd : g.nodes.Nodup) (st : (Nat → FlagSet) × List (Option Nat))
    (i j : Nat) (hclean : ∀ n, st.1 n = mbClean)
    (hslots : ∀ x ∈ st.2, ∀ v, x = some v → v ∈ g.nodes) :
    (∀ n, (pairStep g st i j).1 n = mbClean) ∧
    (∀ x ∈ (pairStep g st i j).2, ∀ v, x = some v → v ∈ g.nodes) := by
  unfold pairStep
  cases hgi : st.2.getD i none with
  | none => exact ⟨hclean, hslots⟩
  | some a =>
    cases hgj : st.2.getD j none with
    | none => exact ⟨hclean, hslots⟩
    | some b =>
      simp only []
      have ha : a ∈ g.nodes := hslots (some a) (getD_some_mem st.2 i a hgi) a rfl
      have hb : b ∈ g.nodes := hslots (some b) (getD_some_mem st.2 j b hgj) b rfl
      by_cases hab : a = b
      · have hmb : merge_bases g st.1 a b = (st.1, [a]) := by
          unfold merge_bases
          rw [if_pos hab]
        rw [hmb]
        constructor
        · intro n
          exact ccm_clean_stays g hnd _
            (ccm_clean_stays g hnd st.1 hclean a) b n
        · intro x hx v hv
          have h1 : ∀ x ∈ (if a ∈ [a] then st.2.set i none else st.2),
              ∀ v, x = some v → v ∈ g.nodes := by
            by_cases h : a ∈ [a]
            · rw [if_pos h]
              exact slots_set_none g st.2 hslots i
            · rw [if_neg h]
              exact hslots
          have h2 := slots_set_none g _ h1 j
          by_cases h : b ∈ [a]
          · rw [if_pos h] at hx
            exact h2 x hx v hv
          · rw [if_neg h] at hx
            exact h1 x hx v hv
      · obtain ⟨fF, lF, rF, heq, hinv, hint⟩ :=
          merge_bases_spec g a b hclos hnd ha hb hab st.1 hclean
        rw [heq]
        constructor
        · intro n
          exact mb_cleanup_clean g hnd a b fF lF rF hinv n
        · intro x hx v hv
          have h1 : ∀ x ∈ (if a ∈ mbFilter g fF rF [] then st.2.set i none
              else st.2), ∀ v, x = some v → v ∈ g.nodes := by
            by_cases h : a ∈ mbFilter g fF rF []
            · rw [if_pos h]
              exact slots_set_none g st.2 hslots i
            · rw [if_neg h]
              exact hslots
          have h2 := slots_set_none g _ h1 j
          by_cases h : b ∈ mbFilter g fF rF []
          · rw [if_pos h] at hx
            exact h2 x hx v hv
          · rw [if_neg h] at hx
            exact h1 x hx v hv

/-- C4: after `get_merge_bases(A, B, cleanup=1)` starting from a clean
flag map, the four reserved flag bits (PARENT1, PARENT2, STALE, RESULT)
are zero on every node — in particular on A, on B, and on every node the
computation set them on. -/
theorem c4_flag_hygiene (g : Graph) (one two : Nat)
    (hclos : ParentsClosed g) (hnd : g.nodes.Nodup)
    (hone : one ∈ g.nodes) (htwo : two ∈ g.nodes) :
    ∀ n, (get_merge_bases g (fun _ => mbClean) one two true).1 n = mbClean := by
  intro n
  by_cases h12 : one = two
  · have hmb : merge_bases g (fun _ => mbClean) one two
        = (fun _ => mbClean, [one]) := by
      unfold merge_bases
      rw [if_pos h12]
    unfold get_merge_bases
    rw [hmb]
    simp only []
    rw [if_pos h12]
  · obtain ⟨fF, lF, rF, heq, hinv, hint⟩ :=
      merge_bases_spec g one two hclos hnd hone htwo h12
        (fun _ => mbClean) (fun _ => rfl)
    unfold get_merge_bases
    rw [heq]
    simp only []
    rw [if_neg h12]
    by_cases hlen : (mbFilter g fF rF []).length ≤ 1
    · rw [if_pos hlen, if_pos trivial]
      exact mb_cleanup_clean g hnd one two fF lF rF hinv n
    · rw [if_neg hlen]
      have hstep : ∀ (st : (Nat → FlagSet) × List (Option Nat)) (i : Nat),
          ((∀ m, st.1 m = mbClean) ∧
            (∀ x ∈ st.2, ∀ v, x = some v → v ∈ g.nodes)) →
          ((∀ m, ((List.range' (i + 1)
              ((mbFilter g fF rF []).length - 1 - i)).foldl
              (fun st2 j => pairStep g st2 i j) st).1 m = mbClean) ∧
            (∀ x ∈ ((List.range' (i + 1)
              ((mbFilter g fF rF []).length - 1 - i)).foldl
              (fun st2 j => pairStep g st2 i j) st).2,
              ∀ v, x = some v → v ∈ g.nodes)) := by
        intro st i hp
        exact foldl_pres
          (fun st : (Nat → FlagSet) × List (Option Nat) =>
            (∀ m, st.1 m = mbClean) ∧
            (∀ x ∈ st.2, ∀ v, x = some v → v ∈ g.nodes))
          (fun st2 j => pairStep g st2 i j)
          (fun st2 j hp2 => pairStep_clean g hclos hnd st2 i j hp2.1 hp2.2)
          (List.range' (i + 1) ((mbFilter g fF rF []).length - 1 - i)) st hp
      have hP := foldl_pres
        (fun st : (Nat → FlagSet) × List (Option Nat) =>
          (∀ m, st.1 m = mbClean) ∧
          (∀ x ∈ st.2, ∀ v, x = some v → v ∈ g.nodes))
        (fun st i => (List.range' (i + 1)
          ((mbFilter g fF rF []).length - 1 - i)).foldl
          (fun st2 j => pairStep g st2 i j) st)
        hstep
        (List.range ((mbFilter g fF rF []).length - 1))
        (clear_commit_marks g (ccmFuel g)
          (clear_commit_marks g (ccmFuel g) fF one) two,
          (mbFilter g fF rF []).map some)
        ⟨fun m => mb_cleanup_clean g hnd one two fF lF rF hinv m, by
          intro x hx v hv
          rw [List.mem_map] at hx
          obtain ⟨y, hy, he⟩ := hx
          rw [← he] at hv
          have hyv : y = v := Option.some.inj hv
          rw [hyv] at hy
          rcases (mbFilter_mem g fF rF [] v).mp hy with h | ⟨h1, _⟩
          · cases h
          · have hres := (hinv.m5 v).mpr h1
            have hp1 := (hinv.m4 v hres).1
            exact hinv.m7b v (flag_ne_clean_of_p1 _ hp1)⟩
      cases hfd : (List.range ((mbFilter g fF rF []).length - 1)).foldl
          (fun st i => (List.range' (i + 1) ((mbFilter g fF rF []).length - 1 - i)).foldl
            (fun st2 j => pairStep g st2 i j) st)
          (clear_commit_marks g (ccmFuel g)
            (clear_commit_marks g (ccmFuel g) fF one) two,
            (mbFilter g fF rF []).map some) with
      | mk flags3 rslt =>
        rw [hfd] at hP
        exact hP.1 n

/-- A four-commit diamond (0 and 1 both have parent 2, whose parent is
3) exercising the merge-base engine. -/
def exMbGraph : Graph :=
  { nodes := [0, 1, 2, 3]
  , parents := fun n => if n = 0 then [2] else if n = 1 then [2]
      else if n = 2 then [3] else []
  , date := fun n => 10 - n }

/-- Flag hygiene instantiated on the diamond. -/
theorem c4_flag_hygiene_witness :
    (ParentsClosed exMbGraph ∧ exMbGraph.nodes.Nodup ∧
      0 ∈ exMbGraph.nodes ∧ 1 ∈ exMbGraph.nodes) ∧
    (∀ n, (get_merge_bases exMbGraph (fun _ => mbClean) 0 1 true).1 n
      = mbClean) :=
  ⟨⟨by unfold ParentsClosed; decide, by decide, by decide, by decide⟩,
    c4_flag_hygiene exMbGraph 0 1 (by unfold ParentsClosed; decide)
      (by decide) (by decide) (by decide)⟩

theorem getD_set_self (l : List (Option Nat)) (i : Nat) :
    (l.set i none).getD i none = none := by
  rw [List.getD_eq_getElem?_getD]
  by_cases h : i < l.length
  · rw [List.getElem?_set_self h]
    rfl
  · rw [List.getElem?_eq_none]
    · rfl
    · rw [List.length_set]
      omega

theorem getD_set_other (l : List (Option Nat)) (i idx : Nat) (v : Option Nat)
    (h : i ≠ idx) : (l.set idx v).getD i none = l.getD i none := by
  rw [List.getD_eq_getElem?_getD, List.getD_eq_getElem?_getD,
    List.getElem?_set_ne (Ne.symm h)]

theorem set_none_getD_cases (l : List (Option Nat)) (k idx : Nat) :
    (l.set k none).getD idx none = l.getD idx none ∨
    (l.set k none).getD idx none = none := by
  by_cases h : idx = k
  · rw [h]
    exact Or.inr (getD_set_self l k)
  · exact Or.inl (getD_set_other l idx k none h)

theorem len_le_one_eq {α : Type} (l : List α) (h : l.length ≤ 1) :
    ∀ a ∈ l, ∀ b ∈ l, a = b := by
  cases l with
  | nil => intro a ha; cases ha
  | cons x xs =>
    cases xs with
    | nil =>
      intro a ha b hb
      rw [List.mem_singleton] at ha hb
      rw [ha, hb]
    | cons y ys =>
      exfalso
      rw [List.length_cons, List.length_cons] at h
      omega

theorem slots_fold_mem (g : Graph) :
    ∀ (l : List (Option Nat)) (acc : List Nat) (q : Nat),
      q ∈ l.foldl (fun acc x => match x with
        | some v => insert_by_date g.date v acc
        | none => acc) acc ↔ q ∈ acc ∨ some q ∈ l := by
  intro l
  induction l with
  | nil =>
    intro acc q
    simp
  | cons x xs ih =>
    intro acc q
    rw [List.foldl_cons, ih]
    cases x with
    | none =>
      simp only []
      constructor
      · rintro (h | h)
        · exact Or.inl h
        · exact Or.inr (List.mem_cons_of_mem none h)
      · rintro (h | h)
        · exact Or.inl h
        · rcases List.mem_cons.mp h with he | he
          · cases he
          · exact Or.inr he
    | some v =>
      simp only []
      rw [mem_insert_by_date]
      constructor
      · rintro ((h | h) | h)
        · exact Or.inr (by rw [h]; exact List.mem_cons_self _ _)
        · exact Or.inl h
        · exact Or.inr (List.mem_cons_of_mem _ h)
      · rintro (h | h)
        · exact Or.inl (Or.inr h)
        · rcases List.mem_cons.mp h with he | he
          · exact Or.inl (Or.inl (Option.some.inj he))
          · exact Or.inr he
  
theorem foldl_establish {α β : Type} (Inv : α → Prop) (Q : β → α → Prop)
    (R : β → Prop) (f : α → β → α)
    (hInv : ∀ st x, Inv st → Inv (f st x))
    (hEst : ∀ st x, R x → Inv st → Q x (f st x))
    (hPres : ∀ st x y, Q x st → Q x (f st y)) :
    ∀ (l : List β) (st : α), (∀ x ∈ l, R x) → Inv st →
      ∀ x ∈ l, Q x (l.foldl f st) := by
  intro l
  induction l with
  | nil => intro st _ _ x hx; cases hx
  | cons y ys ih =>
    intro st hR hinv x hx
    rw [List.foldl_cons]
    rcases List.mem_cons.mp hx with he | he
    · rw [he]
      exact foldl_pres (Q y) f (fun st' z hq => hPres st' y z hq) ys (f st y)
        (hEst st y (hR y (List.mem_cons_self y ys)) hinv)
    · exact ih (f st y) (fun z hz => hR z (List.mem_cons_of_mem y hz))
        (hInv st y hinv) x he

/-- Pairwise stage bookkeeping: slot list keeps its length and each
slot holds its original candidate or has been nulled. -/
def MBSlotInv (F : List Nat) (st : (Nat → FlagSet) × List (Option Nat)) : Prop :=
  st.2.length = F.length ∧
  ∀ idx, idx < F.length →
    st.2.getD idx none = some (F.getD idx 0) ∨ st.2.getD idx none = none

/-- After the (i,j) reduction, slot i or slot j is dead, or the two
candidates are ancestry-independent. -/
def MBDone (g : Graph) (F : List Nat)
    (st : (Nat → FlagSet) × List (Option Nat)) (i j : Nat) : Prop :=
  st.2.getD i none = none ∨ st.2.getD j none = none ∨
  (¬ ReachP g (F.getD i 0) (F.getD j 0) ∧ ¬ ReachP g (F.getD j 0) (F.getD i 0))

theorem pairStep_slots (g : Graph) (st : (Nat → FlagSet) × List (Option Nat))
    (i j : Nat) :
    (pairStep g st i j).2.length = st.2.length ∧
    ∀ idx, (pairStep g st i j).2.getD idx none = st.2.getD idx none ∨
      (pairStep g st i j).2.getD idx none = none := by
  unfold pairStep
  cases hgi : st.2.getD i none with
  | none => exact ⟨rfl, fun idx => Or.inl rfl⟩
  | some a =>
    cases hgj : st.2.getD j none with
    | none => exact ⟨rfl, fun idx => Or.inl rfl⟩
    | some b =>
      simp only []
      cases hmb : merge_bases g st.1 a b with
      | mk flags1 res2 =>
        constructor
        · by_cases h1 : a ∈ res2
          · rw [if_pos h1]
            by_cases h2 : b ∈ res2
            · rw [if_pos h2, List.length_set, List.length_set]
            · rw [if_neg h2, List.length_set]
          · rw [if_neg h1]
            by_cases h2 : b ∈ res2
            · rw [if_pos h2, List.length_set]
            · rw [if_neg h2]
        · intro idx
          by_cases h1 : a ∈ res2
          · rw [if_pos h1]
            by_cases h2 : b ∈ res2
            · rw [if_pos h2]
              rcases set_none_getD_cases (st.2.set i none) j idx with h | h
              · rw [h]
                exact set_none_getD_cases st.2 i idx
              · exact Or.inr h
            · rw [if_neg h2]
              exact set_none_getD_cases st.2 i idx
          · rw [if_neg h1]
            by_cases h2 : b ∈ res2
            · rw [if_pos h2]
              exact set_none_getD_cases st.2 j idx
            · rw [if_neg h2]
              exact Or.inl rfl

theorem slotinv_nodes (g : Graph) (F : List Nat)
    (hF : ∀ v ∈ F, v ∈ g.nodes) (st : (Nat → FlagSet) × List (Option Nat))
    (hslot : MBSlotInv F st) :
    ∀ x ∈ st.2, ∀ v, x = some v → v ∈ g.nodes := by
  intro x hx v hv
  obtain ⟨k, hk, hkx⟩ := List.mem_iff_getElem.mp hx
  have hkF : k < F.length := by
    rw [← hslot.1]
    exact hk
  have hgd : st.2.getD k none = x := by
    rw [List.getD_eq_getElem?_getD, List.getElem?_eq_getElem hk]
    exact hkx
  rcases hslot.2 k hkF with h | h
  · rw [hgd, hv] at h
    have : v = F.getD k 0 := Option.some.inj h
    rw [this]
    refine hF _ ?_
    rw [List.getD_eq_getElem?_getD, List.getElem?_eq_getElem hkF]
    exact List.getElem_mem hkF
  · rw [hgd, hv] at h
    cases h

theorem MBSlotInv_pres (g : Graph) (F : List Nat)
    (st : (Nat → FlagSet) × List (Option Nat)) (i j : Nat)
    (hslot : MBSlotInv F st) : MBSlotInv F (pairStep g st i j) := by
  obtain ⟨hlen, hval⟩ := hslot
  obtain ⟨hlen', hvals⟩ := pairStep_slots g st i j
  constructor
  · rw [hlen', hlen]
  · intro idx hidx
    rcases hvals idx with h | h
    · rw [h]
      exact hval idx hidx
    · exact Or.inr h

theorem MBDone_pres (g : Graph) (F : List Nat)
    (st : (Nat → FlagSet) × List (Option Nat)) (i j i' j' : Nat)
    (hd : MBDone g F st i j) : MBDone g F (pairStep g st i' j') i j := by
  obtain ⟨_, hvals⟩ := pairStep_slots g st i' j'
  rcases hd with h | h | h
  · refine Or.inl ?_
    rcases hvals i with he | he
    · rw [he, h]
    · exact he
  · refine Or.inr (Or.inl ?_)
    rcases hvals j with he | he
    · rw [he, h]
    · exact he
  · exact Or.inr (Or.inr h)

/-- The (i,j) body of the pairwise loop: afterwards one of the two
slots is dead, or the two candidates are ancestry-independent. -/
theorem pairStep_done (g : Graph) (rank : Nat → Nat) (F : List Nat)
    (hclos : ParentsClosed g) (hnd : g.nodes.Nodup) (hrank : RankCert g rank)
    (hF : ∀ v ∈ F, v ∈ g.nodes) (hFnd : F.Nodup)
    (st : (Nat → FlagSet) × List (Option Nat)) (i j : Nat)
    (hij : i ≠ j) (hi : i < F.length) (hj : j < F.length)
    (hclean : ∀ n, st.1 n = mbClean) (hslot : MBSlotInv F st) :
    MBDone g F (pairStep g st i j) i j := by
  unfold MBDone pairStep
  cases hgi : st.2.getD i none with
  | none => exact Or.inl hgi
  | some a =>
    cases hgj : st.2.getD j none with
    | none => exact Or.inr (Or.inl hgj)
    | some b =>
      simp only []
      have hia : a = F.getD i 0 := by
        rcases hslot.2 i hi with h | h
        · rw [hgi] at h
          exact Option.some.inj h
        · rw [hgi] at h
          cases h
      have hjb : b = F.getD j 0 := by
        rcases hslot.2 j hj with h | h
        · rw [hgj] at h
          exact Option.some.inj h
        · rw [hgj] at h
          cases h
      have hgdi : F.getD i 0 = F.get ⟨i, hi⟩ := by
        rw [List.getD_eq_getElem?_getD, List.getElem?_eq_getElem hi]
        rfl
      have hgdj : F.getD j 0 = F.get ⟨j, hj⟩ := by
        rw [List.getD_eq_getElem?_getD, List.getElem?_eq_getElem hj]
        rfl
      have ha : a ∈ g.nodes := by
        refine hF a ?_
        rw [hia, hgdi]
        exact List.get_mem F i hi
      have hb : b ∈ g.nodes := by
        refine hF b ?_
        rw [hjb, hgdj]
        exact List.get_mem F j hj
      have hab : ¬ a = b := by
        intro h
        apply hij
        have hFe : F.get ⟨i, hi⟩ = F.get ⟨j, hj⟩ := by
          rw [← hgdi, ← hgdj, ← hia, ← hjb, h]
        have := hFnd.getElem_inj_iff.mp hFe
        exact this
      obtain ⟨fF, lF, rF, heq, hinv, hint⟩ :=
        merge_bases_spec g a b hclos hnd ha hb hab st.1 hclean
      rw [heq]
      simp only []
      by_cases hr1 : ReachP g (F.getD j 0) (F.getD i 0)
      · have hanc : Reach g b a := by
          rw [hia, hjb]
          exact Relation.TransGen.to_reflTransGen hr1
        have hlive := mb_live_one g rank a b hclos hrank ha fF lF rF hinv
          hint hanc
        rw [if_pos hlive]
        refine Or.inl ?_
        by_cases h2 : b ∈ mbFilter g fF rF []
        · rw [if_pos h2, getD_set_other _ i j none hij, getD_set_self]
        · rw [if_neg h2, getD_set_self]
      · by_cases hr2 : ReachP g (F.getD i 0) (F.getD j 0)
        · have hanc : Reach g a b := by
            rw [hia, hjb]
            exact Relation.TransGen.to_reflTransGen hr2
          have hlive := mb_live_two g rank a b hclos hrank hb fF lF rF hinv
            hint hanc
          refine Or.inr (Or.inl ?_)
          by_cases h1 : a ∈ mbFilter g fF rF []
          · rw [if_pos h1, if_pos hlive, getD_set_self]
          · rw [if_neg h1, if_pos hlive, getD_set_self]
        · exact Or.inr (Or.inr ⟨hr2, hr1⟩)

theorem getD_nat_eq_get (F : List Nat) (i : Nat) (h : i < F.length) :
    F.getD i 0 = F.get ⟨i, h⟩ := by
  rw [List.getD_eq_getElem?_getD, List.getElem?_eq_getElem h]
  rfl

theorem mem_slots_orig (F : List Nat)
    (st : (Nat → FlagSet) × List (Option Nat)) (hslot : MBSlotInv F st)
    (v : Nat) (hv : some v ∈ st.2) : v ∈ F := by
  obtain ⟨k, hk, hkx⟩ := List.mem_iff_getElem.mp hv
  have hkF : k < F.length := by
    rw [← hslot.1]
    exact hk
  have hgd : st.2.getD k none = some v := by
    rw [List.getD_eq_getElem?_getD, List.getElem?_eq_getElem hk]
    exact hkx
  rcases hslot.2 k hkF with h | h
  · rw [hgd] at h
    have he : v = F.getD k 0 := Option.some.inj h
    rw [he, getD_nat_eq_get F k hkF]
    exact List.get_mem F k hkF
  · rw [hgd] at h
    cases h

theorem slot_of_surv (F : List Nat) (hFnd : F.Nodup)
    (st : (Nat → FlagSet) × List (Option Nat)) (hslot : MBSlotInv F st)
    (v : Nat) (hv : some v ∈ st.2) (iv : Nat) (hiv : iv < F.length)
    (hvi : F.getD iv 0 = v) : st.2.getD iv none = some v := by
  obtain ⟨k, hk, hkx⟩ := List.mem_iff_getElem.mp hv
  have hkF : k < F.length := by
    rw [← hslot.1]
    exact hk
  have hgd : st.2.getD k none = some v := by
    rw [List.getD_eq_getElem?_getD, List.getElem?_eq_getElem hk]
    exact hkx
  rcases hslot.2 k hkF with h | h
  · rw [hgd] at h
    have he : v = F.getD k 0 := Option.some.inj h
    have hkiv : k = iv := by
      have hFe : F.get ⟨k, hkF⟩ = F.get ⟨iv, hiv⟩ := by
        rw [← getD_nat_eq_get F k hkF, ← getD_nat_eq_get F iv hiv, ← he, hvi]
      exact hFnd.getElem_inj_iff.mp hFe
    rw [← hkiv, hgd]
  · rw [hgd] at h
    cases h

/-- C1: every commit returned by `get_merge_bases(A, B, cleanup)` (from
a clean flag map, on a parent-closed, duplicate-free, rank-certified
node set) is an ancestor of both A and B, and no returned commit is a
proper descendant of another returned commit. -/
theorem c1_merge_base_ancestry (g : Graph) (rank : Nat → Nat)
    (one two : Nat) (cleanup : Bool)
    (hclos : ParentsClosed g) (hnd : g.nodes.Nodup) (hrank : RankCert g rank)
    (hone : one ∈ g.nodes) (htwo : two ∈ g.nodes) :
    (∀ M ∈ (get_merge_bases g (fun _ => mbClean) one two cleanup).2,
      Reach g one M ∧ Reach g two M) ∧
    (∀ M ∈ (get_merge_bases g (fun _ => mbClean) one two cleanup).2,
      ∀ M' ∈ (get_merge_bases g (fun _ => mbClean) one two cleanup).2,
      M' ≠ M → ¬ Reach g M' M) := by
  by_cases h12 : one = two
  · have hmb : merge_bases g (fun _ => mbClean) one two
        = (fun _ => mbClean, [one]) := by
      unfold merge_bases
      rw [if_pos h12]
    have hout : (get_merge_bases g (fun _ => mbClean) one two cleanup).2
        = [one] := by
      unfold get_merge_bases
      rw [hmb]
      simp only []
      rw [if_pos h12]
    rw [hout]
    constructor
    · intro M hM
      rw [List.mem_singleton] at hM
      subst hM
      refine ⟨Relation.ReflTransGen.refl, ?_⟩
      rw [← h12]
      exact Relation.ReflTransGen.refl
    · intro M hM M' hM' hne
      rw [List.mem_singleton] at hM hM'
      rw [hM, hM'] at hne
      exact absurd rfl hne
  · obtain ⟨fF, lF, rF, heq, hinv, hint⟩ :=
      merge_bases_spec g one two hclos hnd hone htwo h12
        (fun _ => mbClean) (fun _ => rfl)
    have hFsound : ∀ m ∈ mbFilter g fF rF [], Reach g one m ∧ Reach g two m :=
      mb_exit_sound g one two fF lF rF hinv
    have hFnd : (mbFilter g fF rF []).Nodup := by
      refine mbFilter_nodup g fF rF [] hinv.m5nd List.nodup_nil ?_
      intro q hq
      cases hq
    have hFnodes : ∀ v ∈ mbFilter g fF rF [], v ∈ g.nodes := by
      intro v hv
      rcases (mbFilter_mem g fF rF [] v).mp hv with h | ⟨h1, _⟩
      · cases h
      · have hres := (hinv.m5 v).mpr h1
        have hp1 := (hinv.m4 v hres).1
        exact hinv.m7b v (flag_ne_clean_of_p1 _ hp1)
    by_cases hlen : (mbFilter g fF rF []).length ≤ 1
    · have hout : (get_merge_bases g (fun _ => mbClean) one two cleanup).2
          = mbFilter g fF rF [] := by
        unfold get_merge_bases
        rw [heq]
        simp only []
        rw [if_neg h12, if_pos hlen]
        cases cleanup with
        | false => rw [if_neg (by simp)]
        | true => rw [if_pos rfl]
      rw [hout]
      refine ⟨hFsound, ?_⟩
      intro M hM M' hM' hne _
      exact hne (len_le_one_eq _ hlen M' hM' M hM)
    · have hlen2 : 2 ≤ (mbFilter g fF rF []).length := by omega
      have hinit : (∀ n, (clear_commit_marks g (ccmFuel g)
            (clear_commit_marks g (ccmFuel g) fF one) two) n = mbClean) ∧
          MBSlotInv (mbFilter g fF rF [])
            (clear_commit_marks g (ccmFuel g)
              (clear_commit_marks g (ccmFuel g) fF one) two,
              (mbFilter g fF rF []).map some) := by
        refine ⟨mb_cleanup_clean g hnd one two fF lF rF hinv, ?_, ?_⟩
        · exact List.length_map (mbFilter g fF rF []) some
        · intro idx hidx
          refine Or.inl ?_
          show ((mbFilter g fF rF []).map some).getD idx none
            = some ((mbFilter g fF rF []).getD idx 0)
          have hidx' : idx < ((mbFilter g fF rF []).map some).length := by
            rw [List.length_map]
            exact hidx
          rw [List.getD_eq_getElem?_getD, List.getElem?_eq_getElem hidx',
            getD_nat_eq_get _ idx hidx]
          simp
      have hInvPres : ∀ (st : (Nat → FlagSet) × List (Option Nat)) (i : Nat),
          ((∀ n, st.1 n = mbClean) ∧ MBSlotInv (mbFilter g fF rF []) st) →
          ((∀ n, ((List.range' (i + 1)
              ((mbFilter g fF rF []).length - 1 - i)).foldl
              (fun st2 j => pairStep g st2 i j) st).1 n = mbClean) ∧
            MBSlotInv (mbFilter g fF rF [])
              ((List.range' (i + 1)
                ((mbFilter g fF rF []).length - 1 - i)).foldl
                (fun st2 j => pairStep g st2 i j) st)) := by
        intro st i hp
        refine foldl_pres
          (fun st : (Nat → FlagSet) × List (Option Nat) =>
            (∀ n, st.1 n = mbClean) ∧ MBSlotInv (mbFilter g fF rF []) st)
          (fun st2 j => pairStep g st2 i j)
          (fun st2 j hp2 => ⟨(pairStep_clean g hclos hnd st2 i j hp2.1
            (slotinv_nodes g (mbFilter g fF rF []) hFnodes st2 hp2.2)).1,
            MBSlotInv_pres g (mbFilter g fF rF []) st2 i j hp2.2⟩)
          (List.range' (i + 1) ((mbFilter g fF rF []).length - 1 - i)) st hp
      have hdone := foldl_establish
        (fun st : (Nat → FlagSet) × List (Option Nat) =>
          (∀ n, st.1 n = mbClean) ∧ MBSlotInv (mbFilter g fF rF []) st)
        (fun i st => ∀ j ∈ List.range' (i + 1)
          ((mbFilter g fF rF []).length - 1 - i),
          MBDone g (mbFilter g fF rF []) st i j)
        (fun i => i < (mbFilter g fF rF []).length - 1)
        (fun st i => (List.range' (i + 1)
          ((mbFilter g fF rF []).length - 1 - i)).foldl
          (fun st2 j => pairStep g st2 i j) st)
        hInvPres
        (by
          intro st i hRi hp
          refine foldl_establish
            (fun st : (Nat → FlagSet) × List (Option Nat) =>
              (∀ n, st.1 n = mbClean) ∧ MBSlotInv (mbFilter g fF rF []) st)
            (fun j st => MBDone g (mbFilter g fF rF []) st i j)
            (fun j => i + 1 ≤ j ∧ j < (mbFilter g fF rF []).length)
            (fun st2 j => pairStep g st2 i j)
            (fun st2 j hp2 => ⟨(pairStep_clean g hclos hnd st2 i j hp2.1
              (slotinv_nodes g (mbFilter g fF rF []) hFnodes st2 hp2.2)).1,
              MBSlotInv_pres g (mbFilter g fF rF []) st2 i j hp2.2⟩)
            (by
              intro st2 j hRj hp2
              exact pairStep_done g rank (mbFilter g fF rF []) hclos hnd
                hrank hFnodes hFnd st2 i j (by omega) (by omega) hRj.2
                hp2.1 hp2.2)
            (fun st2 j j' hq => MBDone_pres g (mbFilter g fF rF []) st2 i j
              i j' hq)
            (List.range' (i + 1) ((mbFilter g fF rF []).length - 1 - i)) st
            (by
              intro x hx
              have := List.mem_range'_1.mp hx
              omega)
            hp)
        (by
          intro st i i' hq j hj
          refine foldl_pres
            (fun st : (Nat → FlagSet) × List (Option Nat) =>
              MBDone g (mbFilter g fF rF []) st i j)
            (fun st2 j' => pairStep g st2 i' j')
            (fun st2 j' hq2 => MBDone_pres g (mbFilter g fF rF []) st2 i j
              i' j' hq2)
            (List.range' (i' + 1) ((mbFilter g fF rF []).length - 1 - i'))
            st (hq j hj))
        (List.range ((mbFilter g fF rF []).length - 1))
        (clear_commit_marks g (ccmFuel g)
          (clear_commit_marks g (ccmFuel g) fF one) two,
          (mbFilter g fF rF []).map some)
        (by
          intro x hx
          exact List.mem_range.mp hx)
        hinit
      have hfinalInv := foldl_pres
        (fun st : (Nat → FlagSet) × List (Option Nat) =>
          (∀ n, st.1 n = mbClean) ∧ MBSlotInv (mbFilter g fF rF []) st)
        (fun st i => (List.range' (i + 1)
          ((mbFilter g fF rF []).length - 1 - i)).foldl
          (fun st2 j => pairStep g st2 i j) st)
        hInvPres
        (List.range ((mbFilter g fF rF []).length - 1))
        (clear_commit_marks g (ccmFuel g)
          (clear_commit_marks g (ccmFuel g) fF one) two,
          (mbFilter g fF rF []).map some)
        hinit
      cases hfd : (List.range ((mbFilter g fF rF []).length - 1)).foldl
          (fun st i => (List.range' (i + 1)
            ((mbFilter g fF rF []).length - 1 - i)).foldl
            (fun st2 j => pairStep g st2 i j) st)
          (clear_commit_marks g (ccmFuel g)
            (clear_commit_marks g (ccmFuel g) fF one) two,
            (mbFilter g fF rF []).map some) with
      | mk flags3 rslt =>
        rw [hfd] at hdone hfinalInv
        have hout : (get_merge_bases g (fun _ => mbClean) one two cleanup).2
            = rslt.foldl (fun acc x => match x with
              | some v => insert_by_date g.date v acc
              | none => acc) [] := by
          unfold get_merge_bases
          rw [heq]
          simp only []
          rw [if_neg h12, if_neg hlen, hfd]
        rw [hout]
        have hmem : ∀ q, q ∈ rslt.foldl (fun acc x => match x with
            | some v => insert_by_date g.date v acc
            | none => acc) [] ↔ some q ∈ rslt := by
          intro q
          rw [slots_fold_mem g rslt [] q]
          simp
        constructor
        · intro M hM
          rw [hmem M] at hM
          exact hFsound M
            (mem_slots_orig (mbFilter g fF rF []) (flags3, rslt)
              hfinalInv.2 M hM)
        · intro M hM M' hM' hne hreach
          rw [hmem M] at hM
          rw [hmem M'] at hM'
          have hMF := mem_slots_orig (mbFilter g fF rF []) (flags3, rslt)
            hfinalInv.2 M hM
          have hM'F := mem_slots_orig (mbFilter g fF rF []) (flags3, rslt)
            hfinalInv.2 M' hM'
          have hreachP : ReachP g M' M := reach_to_reachP g hreach hne
          obtain ⟨iM, hiM, hiMe⟩ := List.mem_iff_getElem.mp hMF
          obtain ⟨iM', hiM', hiM'e⟩ := List.mem_iff_getElem.mp hM'F
          have hgdM : (mbFilter g fF rF []).getD iM 0 = M := by
            rw [getD_nat_eq_get _ iM hiM]
            exact hiMe
          have hgdM' : (mbFilter g fF rF []).getD iM' 0 = M' := by
            rw [getD_nat_eq_get _ iM' hiM']
            exact hiM'e
          have hii : iM ≠ iM' := by
            intro he
            apply hne
            subst he
            rw [← hiMe, ← hiM'e]
          have hslotM := slot_of_surv (mbFilter g fF rF []) hFnd
            (flags3, rslt) hfinalInv.2 M hM iM hiM hgdM
          have hslotM' := slot_of_surv (mbFilter g fF rF []) hFnd
            (flags3, rslt) hfinalInv.2 M' hM' iM' hiM' hgdM'
          rcases Nat.lt_or_ge iM iM' with hlt | hge
          · have hd := hdone iM (List.mem_range.mpr (by omega)) iM'
              (List.mem_range'_1.mpr ⟨by omega, by omega⟩)
            rcases hd with h | h | h
            · rw [hslotM] at h
              cases h
            · rw [hslotM'] at h
              cases h
            · rw [hgdM, hgdM'] at h
              exact h.2 hreachP
          · have hlt' : iM' < iM := by omega
            have hd := hdone iM' (List.mem_range.mpr (by omega)) iM
              (List.mem_range'_1.mpr ⟨by omega, by omega⟩)
            rcases hd with h | h | h
            · rw [hslotM'] at h
              cases h
            · rw [hslotM] at h
              cases h
            · rw [hgdM, hgdM'] at h
              exact h.1 hreachP

/-- Merge-base correctness instantiated on the diamond. -/
theorem c1_merge_base_ancestry_witness :
    (ParentsClosed exMbGraph ∧ exMbGraph.nodes.Nodup ∧
      RankCert exMbGraph (fun n => 10 - n) ∧
      0 ∈ exMbGraph.nodes ∧ 1 ∈ exMbGraph.nodes) ∧
    ((∀ M ∈ (get_merge_bases exMbGraph (fun _ => mbClean) 0 1 true).2,
        Reach exMbGraph 0 M ∧ Reach exMbGraph 1 M) ∧
      (∀ M ∈ (get_merge_bases exMbGraph (fun _ => mbClean) 0 1 true).2,
        ∀ M' ∈ (get_merge_bases exMbGraph (fun _ => mbClean) 0 1 true).2,
        M' ≠ M → ¬ Reach exMbGraph M' M)) :=
  ⟨⟨by unfold ParentsClosed; decide, by decide, by unfold RankCert; decide,
      by decide, by decide⟩,
    c1_merge_base_ancestry exMbGraph (fun n => 10 - n) 0 1 true
      (by unfold ParentsClosed; decide) (by decide)
      (by unfold RankCert; decide) (by decide) (by decide)⟩

/-- The pretty-print formats of `enum cmit_fmt`. -/
inductive CmitFmt where
  | raw | medium | short | full | fuller | oneline | email | userformat
deriving DecidableEq

/-- `get_one_line(msg)`: length of the first line including its
newline (or up to the terminating NUL). -/
def get_one_line : List Char → Nat
  | [] => 0
  | c :: cs => if c = '\n' then 1 else 1 + get_one_line cs

/-- High bit set, or ISO-2022-INT escape. -/
def non_ascii (ch : Nat) : Bool :=
  decide (128 ≤ ch % 256) || decide (ch % 256 = 27)

def is_rfc2047_special (ch : Nat) : Bool :=
  non_ascii ch || decide (ch % 256 = 61) || decide (ch % 256 = 63)
    || decide (ch % 256 = 95)

/-- The `needquote` scan of `add_rfc2047`: a non-ASCII byte or an
`=?` pair triggers Q-encoding. -/
def rfc2047_needquote : List Char → Bool
  | [] => false
  | c :: cs =>
    if non_ascii c.toNat then true
    else
      match cs with
      | q :: _ =>
        if c = '=' ∧ q = '?' then true else rfc2047_needquote cs
      | [] => rfc2047_needquote cs

def hexUpDigit (n : Nat) : Char :=
  if n < 10 then Char.ofNat (48 + n) else Char.ofNat (55 + n)

/-- The quoting pass of `add_rfc2047`: specials and spaces become
`=XX`; the block-copy bookkeeping of the source nets per-byte output. -/
def rfc2047_q_encode : List Char → List Char
  | [] => []
  | c :: cs =>
    (if is_rfc2047_special (c.toNat % 256) || decide (c = ' ') then
      ['=', hexUpDigit ((c.toNat % 256) / 16), hexUpDigit ((c.toNat % 256) % 16)]
    else [c]) ++ rfc2047_q_encode cs

def add_rfc2047 (sb line encoding : List Char) : List Char :=
  if rfc2047_needquote line then
    sb ++ ['=', '?'] ++ encoding ++ ['?', 'q', '?']
      ++ rfc2047_q_encode line ++ ['?', '=']
  else sb ++ line

/-- The length left after `is_empty_line` strips trailing whitespace
from the first `len` bytes; the line is empty iff this is zero. -/
def trimmed_len (line : List Char) : Nat → Nat
  | 0 => 0
  | l + 1 => if isCSpace (line.getD l ' ') then trimmed_len line l else l + 1

/-- The title-collecting loop of `pp_title_line`: right-trimmed
non-empty lines, joined by a space (after a newline when EMAIL). -/
def titleLoop (fmt : CmitFmt) : Nat → List Char → List Char →
    List Char × List Char
  | 0, msg, title => (msg, title)
  | fuel + 1, msg, title =>
    let linelen := get_one_line msg
    let msg' := msg.drop linelen
    let ll := trimmed_len msg linelen
    if linelen = 0 ∨ ll = 0 then (msg', title)
    else
      let title1 := if title.length ≠ 0 then
          (if fmt = CmitFmt.email then title ++ ['\n'] else title) ++ [' ']
        else title
      titleLoop fmt fuel msg' (title1 ++ msg.take ll)

def pp_title_line (fmt : CmitFmt) (msg sb : List Char)
    (subject after_subject : Option (List Char)) (encoding : List Char)
    (plain_non_ascii : Bool) : List Char × List Char :=
  match titleLoop fmt (msg.length + 1) msg [] with
  | (msgF, title) =>
    let sb1 := match subject with
      | some s => add_rfc2047 (sb ++ s) title encoding
      | none => sb ++ title
    let sb2 := sb1 ++ ['\n']
    let sb3 := if plain_non_ascii then
        sb2 ++ ("MIME-Version: 1.0\n".data
          ++ "Content-Type: text/plain; charset=".data ++ encoding
          ++ "\nContent-Transfer-Encoding: 8bit\n".data)
      else sb2
    let sb4 := match after_subject with
      | some a => sb3 ++ a
      | none => sb3
    let sb5 := if fmt = CmitFmt.email then sb4 ++ ['\n'] else sb4
    (msgF, sb5)

/-- `pp_header` specialised to CMIT_FMT_ONELINE: the RAW copy is dead,
`add_merge_info` and `add_user_info` return immediately at their
ONELINE guards, so the pass only consumes lines up to the blank
separator, dying (`none`) on a parent line whose length is not 48. -/
def pp_header_oneline : Nat → List Char → Option (List Char)
  | 0, msg => some msg
  | fuel + 1, msg =>
    let linelen := get_one_line msg
    if linelen = 0 then some msg
    else
      let msg' := msg.drop linelen
      if linelen = 1 then some msg'
      else if msg.take 7 = "parent ".data then
        if ¬ linelen = 48 then none else pp_header_oneline fuel msg'
      else pp_header_oneline fuel msg'

/-- The `skip excess blank lines` loop of `pretty_print_commit`. -/
def skip_blank_lines : Nat → List Char → List Char
  | 0, msg => msg
  | fuel + 1, msg =>
    let linelen := get_one_line msg
    if linelen = 0 then msg
    else if ¬ trimmed_len msg linelen = 0 then msg
    else skip_blank_lines fuel (msg.drop linelen)

def strbuf_rtrim (sb : List Char) : List Char :=
  sb.take (trimmed_len sb sb.length)

def strchr_idx : List Char → Char → Option Nat
  | [], _ => none
  | c :: cs, t => if c = t then some 0 else (strchr_idx cs t).map (· + 1)

def strstr_idx : List Char → List Char → Option Nat
  | [], needle => if needle = [] then some 0 else none
  | c :: cs, needle =>
    if needle.isPrefixOf (c :: cs) then some 0
    else (strstr_idx cs needle).map (· + 1)

/-- `get_header(commit, key)`: scan the header lines for `key ` and
return the rest of that line; stop at the blank separator line.  (When
the buffer has no newline left and no match, the source would walk a
NULL `next`; that degenerate case returns `none` here.) -/
def get_header_loop (key : List Char) : Nat → List Char → Option (List Char)
  | 0, _ => none
  | fuel + 1, line =>
    match strchr_idx line '\n' with
    | some e =>
      if e = 0 then none
      else if e > key.length ∧ line.take key.length = key
          ∧ line.getD key.length ' ' = ' ' then
        some ((line.drop (key.length + 1)).take (e - key.length - 1))
      else get_header_loop key fuel (line.drop (e + 1))
    | none =>
      if line.length > key.length ∧ line.take key.length = key
          ∧ line.getD key.length ' ' = ' ' then
        some (line.drop (key.length + 1))
      else none

/-- `replace_encoding_header`; `is_encoding_utf8` lives outside src/
and is passed in. -/
def replace_encoding_header (isEncodingUtf8 : List Char → Bool)
    (buf encoding : List Char) : List Char :=
  match strstr_idx buf "\nencoding ".data with
  | none => buf
  | some ehPos0 =>
    let headerEnd := (strstr_idx buf ['\n', '\n']).getD (buf.length + 1)
    if ehPos0 ≥ headerEnd then buf
    else
      let i := ehPos0 + 1
      match strchr_idx (buf.drop i) '\n' with
      | none => buf
      | some d =>
        let j := i + d + 1
        if isEncodingUtf8 encoding then buf.take i ++ buf.drop j
        else buf.take i ++ ("encoding ".data ++ encoding ++ ['\n'])
          ++ buf.drop j

/-- `logmsg_reencode`; `reencode_string` lives outside src/ and is
passed in (arguments: buffer, output encoding, source encoding). -/
def logmsg_reencode (isEncodingUtf8 : List Char → Bool)
    (reencode : List Char → List Char → List Char → Option (List Char))
    (buffer output_encoding : List Char) : Option (List Char) :=
  if output_encoding = [] then none
  else
    let encoding := get_header_loop "encoding".data (buffer.length + 1) buffer
    let use_encoding := encoding.getD "utf-8".data
    if use_encoding = output_encoding then
      match encoding with
      | some _ =>
        some (replace_encoding_header isEncodingUtf8 buffer output_encoding)
      | none => none
    else
      match reencode buffer output_encoding use_encoding with
      | some out =>
        some (replace_encoding_header isEncodingUtf8 out output_encoding)
      | none => none

/-- `pretty_print_commit` specialised to CMIT_FMT_ONELINE: the
USERFORMAT shortcut, the EMAIL-only `plain_non_ascii` scan, the
non-ONELINE separator newline, `pp_remainder` and the trailing-newline
append all fall away at their format guards; indent is irrelevant.
`die` from the header pass is `none`. -/
def pretty_print_commit_oneline (isEncodingUtf8 : List Char → Bool)
    (reencode : List Char → List Char → List Char → Option (List Char))
    (gitLogOutputEncoding gitCommitEncoding : Option (List Char))
    (buffer : List Char) (subject after_subject : Option (List Char)) :
    Option (List Char) :=
  let encoding := (match gitLogOutputEncoding with
    | some e => some e
    | none => gitCommitEncoding).getD "utf-8".data
  let msg0 := match logmsg_reencode isEncodingUtf8 reencode buffer encoding with
    | some r => r
    | none => buffer
  match pp_header_oneline (msg0.length + 1) msg0 with
  | none => none
  | some msg1 =>
    let msg2 := skip_blank_lines (msg1.length + 1) msg1
    match pp_title_line CmitFmt.oneline msg2 [] subject after_subject
        encoding false with
    | (_, sb1) => some (strbuf_rtrim sb1)

/-- NUL-free joined lines, each terminated by a newline. -/
def linesJoin (ls : List (List Char)) : List Char :=
  (ls.map (fun l => l ++ ['\n'])).join

theorem get_one_line_line (l rest : List Char) (h : '\n' ∉ l) :
    get_one_line (l ++ '\n' :: rest) = l.length + 1 := by
  induction l with
  | nil => simp [get_one_line]
  | cons c cs ih =>
    have hc : ¬ c = '\n' := fun he => h (he ▸ List.mem_cons_self c cs)
    have h' : '\n' ∉ cs := fun he => h (List.mem_cons_of_mem c he)
    rw [List.cons_append, get_one_line, if_neg hc, ih h', List.length_cons]
    omega

theorem drop_line (l rest : List Char) :
    (l ++ '\n' :: rest).drop (l.length + 1) = rest := by
  have he : l ++ '\n' :: rest = (l ++ ['\n']) ++ rest := by simp
  rw [he]
  have hlen : (l ++ ['\n']).length = l.length + 1 := by simp
  rw [← hlen, List.drop_left]

theorem getD_append_lt (l r : List Char) (i : Nat) (d : Char)
    (h : i < l.length) : (l ++ r).getD i d = l.getD i d := by
  rw [List.getD_eq_getElem?_getD, List.getD_eq_getElem?_getD,
    List.getElem?_append_left h]

theorem getD_append_len (l : List Char) (c : Char) (rest : List Char)
    (d : Char) : (l ++ c :: rest).getD l.length d = c := by
  rw [List.getD_eq_getElem?_getD, List.getElem?_append_right le_rfl]
  simp

theorem trimmed_len_boundary (l rest : List Char) (hl : l ≠ [])
    (hlast : ∀ c, l.getLast? = some c → isCSpace c = false) :
    trimmed_len (l ++ '\n' :: rest) (l.length + 1) = l.length := by
  rw [trimmed_len, getD_append_len, if_pos (by decide)]
  cases hll : l.length with
  | zero => exact absurd (List.length_eq_zero.mp hll) hl
  | succ n =>
    rw [trimmed_len]
    have hlt : n < l.length := by omega
    rw [getD_append_lt _ _ n ' ' hlt]
    have hgl : l.getLast? = some (l.getD n ' ') := by
      rw [List.getLast?_eq_getElem? l]
      have h2 : l.length - 1 = n := by omega
      rw [h2, List.getD_eq_getElem?_getD, List.getElem?_eq_getElem hlt]
      rfl
    have hns := hlast _ hgl
    rw [if_neg (fun hc => by rw [hns] at hc; cases hc)]

theorem trimmed_len_blank (rest : List Char) :
    trimmed_len ('\n' :: rest) 1 = 0 := by
  rw [trimmed_len]
  have : ('\n' :: rest).getD 0 ' ' = '\n' := rfl
  rw [this, if_pos (by decide)]
  rfl

theorem parent_take_test (l rest : List Char)
    (hp : ¬ "parent ".data.isPrefixOf l) :
    ¬ ((l ++ '\n' :: rest).take 7 = "parent ".data) := by
  intro heq
  by_cases hlen : 7 ≤ l.length
  · rw [List.take_append_of_le_length hlen] at heq
    apply hp
    rw [List.isPrefixOf_iff_prefix]
    exact List.prefix_iff_eq_take.mpr heq.symm
  · have hlt : l.length < 7 := by omega
    have h1 : ((l ++ '\n' :: rest).take 7).getD l.length ' ' = '\n' := by
      rw [List.getD_eq_getElem?_getD, List.getElem?_take_of_lt hlt,
        List.getElem?_append_right le_rfl]
      simp
    rw [heq] at h1
    have h2 : ∀ k, k < 7 → ¬ (("parent ".data).getD k ' ' = '\n') := by decide
    exact h2 l.length hlt h1

theorem pp_header_run :
    ∀ (hdr : List (List Char)) (rest : List Char) (fuel : Nat),
      (∀ l ∈ hdr, l ≠ [] ∧ '\n' ∉ l) →
      (∀ l ∈ hdr, "parent ".data.isPrefixOf l → l.length = 47) →
      hdr.length + 1 ≤ fuel →
      pp_header_oneline fuel (linesJoin hdr ++ '\n' :: rest) = some rest := by
  intro hdr
  induction hdr with
  | nil =>
    intro rest fuel _ _ hfuel
    obtain ⟨f, rfl⟩ : ∃ f, fuel = f + 1 := ⟨fuel - 1, by omega⟩
    have h0 : linesJoin [] ++ '\n' :: rest = '\n' :: rest := by
      simp [linesJoin]
    rw [h0]
    simp [pp_header_oneline, get_one_line]
  | cons l hs ih =>
    intro rest fuel hwf hpar hfuel
    obtain ⟨f, rfl⟩ : ∃ f, fuel = f + 1 := ⟨fuel - 1, by omega⟩
    have hwl := hwf l (List.mem_cons_self l hs)
    have hjoin : linesJoin (l :: hs) ++ '\n' :: rest
        = l ++ '\n' :: (linesJoin hs ++ '\n' :: rest) := by
      simp [linesJoin]
    rw [hjoin]
    simp only [pp_header_oneline]
    rw [get_one_line_line _ _ hwl.2]
    rw [if_neg (by omega)]
    rw [drop_line]
    have hlpos : l.length ≠ 0 := by
      intro h0
      exact hwl.1 (List.length_eq_zero.mp h0)
    rw [if_neg (by omega)]
    by_cases hp : "parent ".data.isPrefixOf l
    · have hl47 := hpar l (List.mem_cons_self l hs) hp
      have htake : (l ++ '\n' :: (linesJoin hs ++ '\n' :: rest)).take 7
          = "parent ".data := by
        rw [List.take_append_of_le_length (by omega)]
        rw [List.isPrefixOf_iff_prefix] at hp
        exact (List.prefix_iff_eq_take.mp hp).symm
      rw [if_pos htake, if_neg (by simp [hl47])]
      exact ih rest f (fun x hx => hwf x (List.mem_cons_of_mem l hx))
        (fun x hx => hpar x (List.mem_cons_of_mem l hx)) (by
          rw [List.length_cons] at hfuel
          omega)
    · rw [if_neg (parent_take_test l _ hp)]
      exact ih rest f (fun x hx => hwf x (List.mem_cons_of_mem l hx))
        (fun x hx => hpar x (List.mem_cons_of_mem l hx)) (by
          rw [List.length_cons] at hfuel
          omega)

theorem strchr_line (l rest : List Char) (h : '\n' ∉ l) :
    strchr_idx (l ++ '\n' :: rest) '\n' = some l.length := by
  induction l with
  | nil => simp [strchr_idx]
  | cons c cs ih =>
    have hc : ¬ c = '\n' := fun he => h (he ▸ List.mem_cons_self c cs)
    have h' : '\n' ∉ cs := fun he => h (List.mem_cons_of_mem c he)
    rw [List.cons_append, strchr_idx, if_neg hc, ih h']
    rfl

theorem get_header_none (key : List Char) :
    ∀ (hdr : List (List Char)) (rest : List Char) (fuel : Nat),
      (∀ l ∈ hdr, '\n' ∉ l) →
      (∀ l ∈ hdr, ¬ ((key ++ [' ']).isPrefixOf l)) →
      hdr.length + 1 ≤ fuel →
      get_header_loop key fuel (linesJoin hdr ++ '\n' :: rest) = none := by
  intro hdr
  induction hdr with
  | nil =>
    intro rest fuel _ _ hfuel
    obtain ⟨f, rfl⟩ : ∃ f, fuel = f + 1 := ⟨fuel - 1, by omega⟩
    have h0 : linesJoin [] ++ '\n' :: rest = '\n' :: rest := by
      simp [linesJoin]
    rw [h0]
    simp only [get_header_loop]
    have hs : strchr_idx ('\n' :: rest) '\n' = some 0 := by
      rw [strchr_idx, if_pos rfl]
    rw [hs]
    simp
  | cons l hs ih =>
    intro rest fuel hnl hkey hfuel
    obtain ⟨f, rfl⟩ : ∃ f, fuel = f + 1 := ⟨fuel - 1, by omega⟩
    have hwl := hnl l (List.mem_cons_self l hs)
    have hjoin : linesJoin (l :: hs) ++ '\n' :: rest
        = l ++ '\n' :: (linesJoin hs ++ '\n' :: rest) := by
      simp [linesJoin]
    rw [hjoin]
    simp only [get_header_loop]
    rw [strchr_line _ _ hwl]
    simp only []
    by_cases hl0 : l.length = 0
    · rw [if_pos hl0]
    · rw [if_neg hl0]
      have hcond : ¬ (l.length > key.length
          ∧ (l ++ '\n' :: (linesJoin hs ++ '\n' :: rest)).take key.length = key
          ∧ (l ++ '\n' :: (linesJoin hs ++ '\n' :: rest)).getD key.length ' '
            = ' ') := by
        rintro ⟨h1, h2, h3⟩
        apply hkey l (List.mem_cons_self l hs)
        rw [List.isPrefixOf_iff_prefix, List.prefix_iff_eq_take]
        rw [List.take_append_of_le_length (by omega)] at h2
        rw [getD_append_lt _ _ _ ' ' (by omega)] at h3
        have hlen : (key ++ [' ']).length = key.length + 1 := by simp
        have hget : l[key.length]? = some ' ' := by
          rw [List.getD_eq_getElem?_getD,
            List.getElem?_eq_getElem (by omega : key.length < l.length)] at h3
          rw [List.getElem?_eq_getElem (by omega : key.length < l.length)]
          simpa using h3
        rw [hlen, List.take_succ, hget, h2]
        rfl
      rw [if_neg hcond]
      have hdrop : (l ++ '\n' :: (linesJoin hs ++ '\n' :: rest)).drop
          (l.length + 1) = linesJoin hs ++ '\n' :: rest := drop_line _ _
      rw [hdrop]
      exact ih rest f (fun x hx => hnl x (List.mem_cons_of_mem l hx))
        (fun x hx => hkey x (List.mem_cons_of_mem l hx)) (by
          rw [List.length_cons] at hfuel
          omega)

theorem linesJoin_len_ge (hdr : List (List Char)) :
    hdr.length ≤ (linesJoin hdr).length := by
  induction hdr with
  | nil => simp [linesJoin]
  | cons l hs ih =>
    have h : linesJoin (l :: hs) = l ++ '\n' :: linesJoin hs := by
      simp [linesJoin]
    rw [h]
    simp only [List.length_append, List.length_cons, List.length_cons]
    omega

theorem logmsg_none (isEncodingUtf8 : List Char → Bool)
    (reencode : List Char → List Char → List Char → Option (List Char))
    (hdr : List (List Char)) (rest : List Char)
    (hnl : ∀ l ∈ hdr, '\n' ∉ l)
    (hkey : ∀ l ∈ hdr, ¬ (("encoding".data ++ [' ']).isPrefixOf l)) :
    logmsg_reencode isEncodingUtf8 reencode
      (linesJoin hdr ++ '\n' :: rest) "utf-8".data = none := by
  have hfuel : hdr.length + 1 ≤ (linesJoin hdr ++ '\n' :: rest).length + 1 := by
    have := linesJoin_len_ge hdr
    simp only [List.length_append, List.length_cons]
    omega
  have hg := get_header_none "encoding".data hdr rest
    ((linesJoin hdr ++ '\n' :: rest).length + 1) hnl hkey hfuel
  simp only [logmsg_reencode]
  rw [if_neg (by decide : ¬ ("utf-8".data = ([] : List Char)))]
  rw [hg]
  simp

theorem skip_blank_noop (fuel : Nat) (l rest : List Char)
    (hne : l ≠ []) (hnl : '\n' ∉ l)
    (hlast : ∀ c, l.getLast? = some c → isCSpace c = false) :
    skip_blank_lines (fuel + 1) (l ++ '\n' :: rest) = l ++ '\n' :: rest := by
  simp only [skip_blank_lines]
  rw [get_one_line_line l rest hnl, trimmed_len_boundary l rest hne hlast]
  have hlen0 : l.length ≠ 0 := fun h => hne (List.length_eq_zero.mp h)
  rw [if_neg (by omega : ¬ (l.length + 1 = 0))]
  rw [if_pos (by omega : ¬ (l.length = 0))]

/-- Consecutive non-empty lines joined by single spaces — the spec's
wording for the ONELINE title. -/
def joinBySpace : List (List Char) → List Char
  | [] => []
  | [l] => l
  | l :: l2 :: ls => l ++ ' ' :: joinBySpace (l2 :: ls)

theorem joinBySpace_cons_eq (l2 : List Char) (ls : List (List Char)) :
    ' ' :: joinBySpace (l2 :: ls)
      = ((l2 :: ls).map (fun x => ' ' :: x)).join := by
  induction ls generalizing l2 with
  | nil => simp [joinBySpace]
  | cons l3 ls3 ih =>
    rw [joinBySpace]
    have hsplit : ((l2 :: l3 :: ls3).map (fun x => ' ' :: x)).join
        = (' ' :: l2) ++ ((l3 :: ls3).map (fun x => ' ' :: x)).join := by
      simp
    rw [hsplit, ← ih l3]
    simp

theorem foldl_step_acc (tls : List (List Char)) :
    ∀ acc : List Char, acc ≠ [] →
      tls.foldl (fun a l => (if a.length ≠ 0 then a ++ [' '] else a) ++ l) acc
        = acc ++ (tls.map (fun x => ' ' :: x)).join := by
  induction tls with
  | nil => intro acc _; simp
  | cons l ls ih =>
    intro acc hacc
    have hlen : acc.length ≠ 0 := fun h => hacc (List.length_eq_zero.mp h)
    rw [List.foldl_cons, if_pos hlen]
    have hne2 : acc ++ [' '] ++ l ≠ [] := by simp
    rw [ih _ hne2]
    simp

theorem foldl_step_nil (tls : List (List Char))
    (h : ∀ l ∈ tls, l ≠ []) :
    tls.foldl (fun a l => (if a.length ≠ 0 then a ++ [' '] else a) ++ l) []
      = joinBySpace tls := by
  cases tls with
  | nil => rfl
  | cons l ls =>
    rw [List.foldl_cons]
    have hstep : ((if ([] : List Char).length ≠ 0 then [] ++ [' ']
        else []) ++ l) = l := by simp
    rw [hstep]
    cases ls with
    | nil => rfl
    | cons l2 ls2 =>
      rw [foldl_step_acc _ l (h l (List.mem_cons_self l _)),
        joinBySpace, joinBySpace_cons_eq]

theorem titleLoop_run :
    ∀ (tls : List (List Char)) (fuel : Nat) (rest acc : List Char),
      (∀ l ∈ tls, l ≠ [] ∧ '\n' ∉ l ∧
        (∀ c, l.getLast? = some c → isCSpace c = false)) →
      (rest = [] ∨ ∃ r', rest = '\n' :: r') →
      tls.length + 1 ≤ fuel →
      (titleLoop CmitFmt.oneline fuel (linesJoin tls ++ rest) acc).2
        = tls.foldl (fun a l =>
            (if a.length ≠ 0 then a ++ [' '] else a) ++ l) acc := by
  intro tls
  induction tls with
  | nil =>
    intro fuel rest acc _ hrest hfuel
    obtain ⟨f, rfl⟩ : ∃ f, fuel = f + 1 := ⟨fuel - 1, by omega⟩
    have h0 : linesJoin [] ++ rest = rest := by simp [linesJoin]
    rw [h0]
    rcases hrest with rfl | ⟨r', rfl⟩
    · simp [titleLoop, get_one_line]
    · simp only [titleLoop]
      rw [show get_one_line ('\n' :: r') = 1 by simp [get_one_line]]
      rw [trimmed_len_blank]
      rw [if_pos (Or.inr rfl)]
      rfl
  | cons l ls ih =>
    intro fuel rest acc hwf hrest hfuel
    obtain ⟨f, rfl⟩ : ∃ f, fuel = f + 1 := ⟨fuel - 1, by omega⟩
    obtain ⟨hne, hnl, hlast⟩ := hwf l (List.mem_cons_self l ls)
    have hlen0 : l.length ≠ 0 := fun h => hne (List.length_eq_zero.mp h)
    have hjoin : linesJoin (l :: ls) ++ rest
        = l ++ '\n' :: (linesJoin ls ++ rest) := by
      simp [linesJoin]
    rw [hjoin]
    simp only [titleLoop]
    rw [get_one_line_line l _ hnl, trimmed_len_boundary l _ hne hlast,
      drop_line]
    rw [if_neg (by omega : ¬ (l.length + 1 = 0 ∨ l.length = 0))]
    rw [if_neg (by decide : ¬ (CmitFmt.oneline = CmitFmt.email))]
    rw [List.take_left]
    rw [List.foldl_cons]
    exact ih f rest _ (fun x hx => hwf x (List.mem_cons_of_mem l hx)) hrest
      (by
        rw [List.length_cons] at hfuel
        omega)

theorem needquote_false :
    ∀ l : List Char,
      (∀ c ∈ l, non_ascii c.toNat = false ∧ c ≠ '=') →
      rfc2047_needquote l = false := by
  intro l
  induction l with
  | nil => intro _; rfl
  | cons c cs ih =>
    intro h
    obtain ⟨hna, hne⟩ := h c (List.mem_cons_self c cs)
    have hrec := ih (fun x hx => h x (List.mem_cons_of_mem c hx))
    cases cs with
    | nil =>
      rw [show rfc2047_needquote [c]
          = if non_ascii c.toNat then true else rfc2047_needquote [] from rfl]
      rw [hna, if_neg (by simp)]
      exact hrec
    | cons q cs2 =>
      rw [show rfc2047_needquote (c :: q :: cs2)
          = if non_ascii c.toNat then true
            else if c = '=' ∧ q = '?' then true
            else rfc2047_needquote (q :: cs2) from rfl]
      rw [hna, if_neg (by simp)]
      rw [if_neg (fun hc => hne hc.1)]
      exact hrec

theorem joinBySpace_mem :
    ∀ (tls : List (List Char)) (c : Char), c ∈ joinBySpace tls →
      c = ' ' ∨ ∃ l ∈ tls, c ∈ l := by
  intro tls
  induction tls with
  | nil => intro c hc; cases hc
  | cons l ls ih =>
    intro c hc
    cases ls with
    | nil => exact Or.inr ⟨l, List.mem_cons_self l _, hc⟩
    | cons l2 ls2 =>
      rw [joinBySpace] at hc
      rcases List.mem_append.mp hc with h1 | h2
      · exact Or.inr ⟨l, List.mem_cons_self l _, h1⟩
      · rcases List.mem_cons.mp h2 with rfl | h3
        · exact Or.inl rfl
        · rcases ih c h3 with h4 | ⟨x, hx, hcx⟩
          · exact Or.inl h4
          · exact Or.inr ⟨x, List.mem_cons_of_mem l hx, hcx⟩

theorem joinBySpace_ne_nil (tls : List (List Char)) (hne : tls ≠ [])
    (h : ∀ l ∈ tls, l ≠ []) : joinBySpace tls ≠ [] := by
  cases tls with
  | nil => exact absurd rfl hne
  | cons l ls =>
    cases ls with
    | nil => exact h l (List.mem_cons_self l _)
    | cons l2 ls2 =>
      rw [joinBySpace]
      intro hc
      have hl := h l (List.mem_cons_self l _)
      rcases List.append_eq_nil.mp hc with ⟨h1, h2⟩
      exact hl h1

theorem joinBySpace_getLast (tls : List (List Char)) (hne : tls ≠ [])
    (hn : ∀ l ∈ tls, l ≠ []) :
    ∃ lst ∈ tls, (joinBySpace tls).getLast? = lst.getLast? := by
  induction tls with
  | nil => exact absurd rfl hne
  | cons l ls ih =>
    cases ls with
    | nil => exact ⟨l, List.mem_cons_self l _, rfl⟩
    | cons l2 ls2 =>
      obtain ⟨lst, hmem, hlast⟩ := ih (by simp)
        (fun x hx => hn x (List.mem_cons_of_mem l hx))
      refine ⟨lst, List.mem_cons_of_mem l hmem, ?_⟩
      rw [joinBySpace]
      have hJne : joinBySpace (l2 :: ls2) ≠ [] :=
        joinBySpace_ne_nil _ (by simp)
          (fun x hx => hn x (List.mem_cons_of_mem l hx))
      rw [List.getLast?_append_of_ne_nil _
        (by simp : (' ' :: joinBySpace (l2 :: ls2)) ≠ [])]
      rw [show (' ' :: joinBySpace (l2 :: ls2))
          = [' '] ++ joinBySpace (l2 :: ls2) from rfl]
      rw [List.getLast?_append_of_ne_nil _ hJne]
      exact hlast

theorem rtrim_newline (X : List Char) (hne : X ≠ [])
    (hlast : ∀ c, X.getLast? = some c → isCSpace c = false) :
    strbuf_rtrim (X ++ ['\n']) = X := by
  unfold strbuf_rtrim
  have h1 : (X ++ ['\n']).length = X.length + 1 := by simp
  rw [h1, trimmed_len_boundary X [] hne hlast, List.take_left]

/-- C9 (amended): for a well-formed commit buffer whose header lines
carry no encoding header, whose title lines are non-empty, newline-free,
not space-terminated, and free of non-ASCII bytes and of `=` (so that
`add_rfc2047` passes the title through verbatim), with no output- or
commit-encoding overrides and no `after_subject` insertion, the ONELINE
pretty-print is exactly the caller's subject prefix followed by the
title lines joined by single spaces, and it carries no trailing
newline. -/
theorem c9_oneline_title (isEncodingUtf8 : List Char → Bool)
    (reencode : List Char → List Char → List Char → Option (List Char))
    (hdr titleLines : List (List Char)) (rest : List Char)
    (subject : Option (List Char))
    (hhdr : ∀ l ∈ hdr, l ≠ [] ∧ '\n' ∉ l)
    (hpar : ∀ l ∈ hdr, "parent ".data.isPrefixOf l → l.length = 47)
    (henc : ∀ l ∈ hdr, ¬ ("encoding ".data.isPrefixOf l))
    (htls : titleLines ≠ [])
    (hwf : ∀ l ∈ titleLines, l ≠ [] ∧ '\n' ∉ l ∧
      (∀ c, l.getLast? = some c → isCSpace c = false))
    (hascii : ∀ l ∈ titleLines, ∀ c ∈ l, non_ascii c.toNat = false ∧ c ≠ '=')
    (hrest : rest = [] ∨ ∃ r', rest = '\n' :: r') :
    pretty_print_commit_oneline isEncodingUtf8 reencode none none
        (linesJoin hdr ++ '\n' :: (linesJoin titleLines ++ rest)) subject none
      = some (subject.getD [] ++ joinBySpace titleLines)
    ∧ (subject.getD [] ++ joinBySpace titleLines).getLast? ≠ some '\n' := by
  obtain ⟨t0, ts, rfl⟩ : ∃ t0 ts, titleLines = t0 :: ts := by
    cases titleLines with
    | nil => exact absurd rfl htls
    | cons a b => exact ⟨a, b, rfl⟩
  have hkey : ∀ l ∈ hdr, ¬ (("encoding".data ++ [' ']).isPrefixOf l) := by
    intro l hl
    rw [show "encoding".data ++ [' '] = "encoding ".data by decide]
    exact henc l hl
  have hlog : logmsg_reencode isEncodingUtf8 reencode
      (linesJoin hdr ++ '\n' :: (linesJoin (t0 :: ts) ++ rest)) "utf-8".data
      = none :=
    logmsg_none _ _ hdr _ (fun l hl => (hhdr l hl).2) hkey
  have hhd : pp_header_oneline
      ((linesJoin hdr ++ '\n' :: (linesJoin (t0 :: ts) ++ rest)).length + 1)
      (linesJoin hdr ++ '\n' :: (linesJoin (t0 :: ts) ++ rest))
      = some (linesJoin (t0 :: ts) ++ rest) :=
    pp_header_run hdr _ _ hhdr hpar (by
      have := linesJoin_len_ge hdr
      simp only [List.length_append, List.length_cons]
      omega)
  have hjoin : linesJoin (t0 :: ts) ++ rest
      = t0 ++ '\n' :: (linesJoin ts ++ rest) := by
    simp [linesJoin]
  have hskip : skip_blank_lines ((linesJoin (t0 :: ts) ++ rest).length + 1)
      (linesJoin (t0 :: ts) ++ rest) = linesJoin (t0 :: ts) ++ rest := by
    obtain ⟨h1, h2, h3⟩ := hwf t0 (List.mem_cons_self _ _)
    rw [hjoin]
    exact skip_blank_noop _ t0 _ h1 h2 h3
  have hT : (titleLoop CmitFmt.oneline
      ((linesJoin (t0 :: ts) ++ rest).length + 1)
      (linesJoin (t0 :: ts) ++ rest) []).2 = joinBySpace (t0 :: ts) := by
    rw [titleLoop_run (t0 :: ts) _ rest [] hwf hrest (by
      have := linesJoin_len_ge (t0 :: ts)
      simp only [List.length_append]
      omega)]
    exact foldl_step_nil _ (fun l hl => (hwf l hl).1)
  have hnq : rfc2047_needquote (joinBySpace (t0 :: ts)) = false := by
    apply needquote_false
    intro c hc
    rcases joinBySpace_mem _ c hc with rfl | ⟨l, hl, hcl⟩
    · exact ⟨by decide, by decide⟩
    · exact hascii l hl c hcl
  have hJne : joinBySpace (t0 :: ts) ≠ [] :=
    joinBySpace_ne_nil _ (by simp) (fun l hl => (hwf l hl).1)
  have hXl : (subject.getD [] ++ joinBySpace (t0 :: ts)).getLast?
      = (joinBySpace (t0 :: ts)).getLast? :=
    List.getLast?_append_of_ne_nil _ hJne
  obtain ⟨lst, hmem, hlst⟩ := joinBySpace_getLast (t0 :: ts) (by simp)
    (fun l hl => (hwf l hl).1)
  have hXne : subject.getD [] ++ joinBySpace (t0 :: ts) ≠ [] := by
    intro h
    exact hJne (List.append_eq_nil.mp h).2
  have hXlast : ∀ c, (subject.getD [] ++ joinBySpace (t0 :: ts)).getLast?
      = some c → isCSpace c = false := by
    intro c hc
    rw [hXl, hlst] at hc
    exact (hwf lst hmem).2.2 c hc
  have hsb : (pp_title_line CmitFmt.oneline (linesJoin (t0 :: ts) ++ rest) []
      subject none "utf-8".data false).2
      = (subject.getD [] ++ joinBySpace (t0 :: ts)) ++ ['\n'] := by
    simp only [pp_title_line]
    cases hTL : titleLoop CmitFmt.oneline
        ((linesJoin (t0 :: ts) ++ rest).length + 1)
        (linesJoin (t0 :: ts) ++ rest) [] with
    | mk msgF title =>
      have htitle : title = joinBySpace (t0 :: ts) := by
        have h2 := hT
        rw [hTL] at h2
        simpa using h2
      subst htitle
      cases subject with
      | none => simp
      | some s =>
        simp only [add_rfc2047, hnq]
        simp
  constructor
  · simp only [pretty_print_commit_oneline, Option.getD_none]
    rw [hlog]
    simp only []
    rw [hhd]
    simp only []
    rw [hskip]
    cases hPT : pp_title_line CmitFmt.oneline (linesJoin (t0 :: ts) ++ rest) []
        subject none "utf-8".data false with
    | mk msgF sb1 =>
      have hsb2 : sb1 = (subject.getD [] ++ joinBySpace (t0 :: ts)) ++ ['\n'] := by
        have h2 := hsb
        rw [hPT] at h2
        exact h2
      rw [hsb2, rtrim_newline _ hXne hXlast]
  · intro hc
    rw [hXl, hlst] at hc
    have h2 := (hwf lst hmem).2.2 '\n' hc
    have h3 : isCSpace '\n' = true := by decide
    rw [h3] at h2
    cases h2

/-- C9 counterexample: with a caller-supplied subject prefix, a title
containing a non-ASCII byte (here `0xC8`) is RFC2047 Q-encoded by
`add_rfc2047` on its way into the output, so the ONELINE pretty-print
is `"x: =?utf-8?q?A=C8?="` and not the verbatim subject-plus-title
`"x: A\xC8"` the claim would require. -/
theorem c9_counterexample :
    pretty_print_commit_oneline (fun e => e = "utf-8".data)
        (fun _ _ _ => none) none none
        ("tree 0000000000000000000000000000000000000000\n\nA".data
          ++ [Char.ofNat 200] ++ "\n\nDetails\n".data)
        (some "x: ".data) none
      = some ("x: =?utf-8?q?A=C8?=".data)
    ∧ pretty_print_commit_oneline (fun e => e = "utf-8".data)
        (fun _ _ _ => none) none none
        ("tree 0000000000000000000000000000000000000000\n\nA".data
          ++ [Char.ofNat 200] ++ "\n\nDetails\n".data)
        (some "x: ".data) none
      ≠ some ("x: A".data ++ [Char.ofNat 200]) := by
  constructor
  · decide
  · decide

theorem c9_oneline_title_witness :
    pretty_print_commit_oneline (fun _ => false) (fun _ _ _ => none) none none
        (linesJoin ["tree 0000000000000000000000000000000000000000".data]
          ++ '\n' :: (linesJoin ["Fix bug".data] ++ '\n' :: "Details\n".data))
        none none
      = some ((none : Option (List Char)).getD []
          ++ joinBySpace ["Fix bug".data])
    ∧ ((none : Option (List Char)).getD []
        ++ joinBySpace ["Fix bug".data]).getLast? ≠ some '\n' :=
  c9_oneline_title (fun _ => false) (fun _ _ _ => none)
    ["tree 0000000000000000000000000000000000000000".data] ["Fix bug".data]
    ('\n' :: "Details\n".data) none
    (by decide) (by decide) (by decide) (by decide) (by decide) (by decide)
    (Or.inr ⟨"Details\n".data, rfl⟩)
